import Mathlib

/-!
# leveldb-tp: envelope store and secondary indexes

A shallow embedding of `pkg/leveldb/client.go`, `pkg/leveldb/indexer.go` and
the replicator `cmd/replicator/main.go`.

Conventions of the embedding.

* Go `string` and `[]byte` values are Lean `String`s (sequences of Unicode
  scalar values).  Byte-lexicographic order of UTF-8 text is code-point
  lexicographic order, and a test on an ASCII byte (`key[0] != '_'`,
  `strings.HasPrefix(key, "idx:")`) is the same test on the character.
* The ordered key-value engine is a list of `(key, value)` pairs kept in
  ascending key order, together with the read-only mode of the handle.
* Go functions that return `error` after mutating the store return the
  pair of the error (if any) and the store after the call.
* The Go standard library (`encoding/json`, `crypto/sha256`, the Unicode
  case table, the clock) is not part of the repository: it is passed in.
-/

namespace LevelDB

deriving instance DecidableEq for Except

/-! ## Strings -/

/-- Go `strings.HasPrefix(s, p)`. -/
def hasPrefix (s p : String) : Bool := p.data.isPrefixOf s.data

/-- Byte-lexicographic comparison of two keys, the comparer of the engine. -/
def keyLt (a b : String) : Bool := decide (a.data < b.data)

/-! ## Key-value substrate -/

/-- Errors of the engine: `leveldb.ErrNotFound` and `leveldb.ErrReadOnly`. -/
inductive DBErr where
  | notFound
  | readOnly
deriving DecidableEq, Repr

/-- Modelled from the spec: the ordered key-value substrate of section 6
(`*leveldb.DB`), whose implementation is an external library.  The entries
are in ascending key order; a handle in read-only mode refuses every write. -/
structure DB where
  entries : List (String × String)
  readOnly : Bool
deriving DecidableEq, Repr

/-- Ordered upsert of one pair. -/
def insertKV (k v : String) : List (String × String) → List (String × String)
  | [] => [(k, v)]
  | (k', v') :: rest =>
    if k = k' then (k, v) :: rest
    else if keyLt k k' then (k, v) :: (k', v') :: rest
    else (k', v') :: insertKV k v rest

/-- Removal of a key. -/
def eraseKV (k : String) (l : List (String × String)) : List (String × String) :=
  l.filter (fun e => decide (e.1 ≠ k))

/-- A write batch (`leveldb.Batch`): the recorded puts, oldest first. -/
abbrev Batch := List (String × String)

/-- Replay of a batch over the entries, in recording order. -/
def applyBatch (batch : Batch) (l : List (String × String)) : List (String × String) :=
  batch.foldl (fun acc kv => insertKV kv.1 kv.2 acc) l

/-- A store is well formed when its keys are strictly ascending. -/
def DB.WF (db : DB) : Prop := (db.entries.map Prod.fst).Pairwise (fun a b => keyLt a b = true)

instance (db : DB) : Decidable db.WF := by unfold DB.WF; infer_instance

/-- Modelled from the spec: `Get(bytes key) -> bytes | NotFound`. -/
def DB.Get (db : DB) (key : String) : Except DBErr String :=
  match db.entries.lookup key with
  | some v => .ok v
  | none => .error .notFound

/-- Modelled from the spec: `Put(bytes key, bytes value) -> ok | Error`. -/
def DB.Put (db : DB) (key value : String) : Option DBErr × DB :=
  if db.readOnly then (some .readOnly, db)
  else (none, { db with entries := insertKV key value db.entries })

/-- Modelled from the spec: `Delete(bytes key) -> ok | Error`; deleting an
absent key succeeds. -/
def DB.Delete (db : DB) (key : String) : Option DBErr × DB :=
  if db.readOnly then (some .readOnly, db)
  else (none, { db with entries := eraseKV key db.entries })

/-- Modelled from the spec: `WriteBatch(...) -> ok | Error`, atomic. -/
def DB.Write (db : DB) (batch : Batch) : Option DBErr × DB :=
  if db.readOnly then (some .readOnly, db)
  else (none, { db with entries := applyBatch batch db.entries })

/-- An iterator: the pairs it will yield, in order, and its final error. -/
structure Iterator where
  items : List (String × String)
  err : Option DBErr
deriving DecidableEq, Repr

/-- Modelled from the spec: `Iterate(byte-range or prefix)`.  `none` is the
whole keyspace (`NewIterator(nil, nil)`), `some p` the range
`util.BytesPrefix(p)`, that is the keys that start with `p`. -/
def DB.NewIterator (db : DB) (slice : Option String) : Iterator :=
  match slice with
  | none => { items := db.entries, err := none }
  | some p => { items := db.entries.filter (fun e => hasPrefix e.1 p), err := none }

/-! ## Envelope store (`client.go`) -/

/-- The `Entry` struct: the envelope stored for a document key. -/
structure Entry where
  Data : String
  Hash : String
  Timestamp : String
  Node : String
deriving DecidableEq, Repr

/-- The standard-library functions the client calls, over a type `Doc` of
caller documents: `json.Marshal(data)`, `json.Unmarshal` of a payload,
`json.Marshal(entry)`, `json.Unmarshal(value, &entry)` and the hex SHA-256
digest.  `none` is a returned error. -/
structure GoLib (Doc : Type) where
  marshal : Doc → Option String
  unmarshal : String → Option Doc
  marshalEntry : Entry → Option String
  unmarshalEntry : String → Option Entry
  sha256hex : String → String

/-- Errors built by the package, one constructor per message format. -/
inductive Err where
  /-- Message "erreur sérialisation: %v". -/
  | serialization
  /-- Message "erreur sérialisation entry: %v". -/
  | serializationEntry
  /-- Message "erreur sérialisation %s: %v" of `BatchInsert`. -/
  | serializationKey (key : String)
  /-- Message "clé non trouvée: %v". -/
  | notFound (cause : DBErr)
  /-- Message "erreur désérialisation: %v". -/
  | deserialization
  /-- Message "hash mismatch: attendu %s, obtenu %s". -/
  | hashMismatch (expected computed : String)
  /-- An engine error returned as is. -/
  | substrate (cause : DBErr)
  /-- Message "erreur itération: %v". -/
  | iteration (cause : DBErr)
  /-- Message "erreur création index %s: %v". -/
  | indexCreate (field : String) (cause : DBErr)
  /-- Message "erreur suppression index %s: %v". -/
  | indexDelete (field : String) (cause : DBErr)
  /-- Message "nombre de champs et valeurs différent". -/
  | arity
deriving DecidableEq, Repr

/-- The `Client` struct. -/
structure Client where
  db : DB
  node : String
deriving DecidableEq, Repr

variable {Doc : Type}

/-- `calculateHash`. -/
def calculateHash (L : GoLib Doc) (data : String) : String := L.sha256hex data

/-- The envelope `Put` and `BatchInsert` build for a serialized payload. -/
def mkEntry (L : GoLib Doc) (node dataBytes now : String) : Entry :=
  { Data := dataBytes, Hash := calculateHash L dataBytes, Timestamp := now, Node := node }

/-- `Client.Put`; `now` is `time.Now().Format(time.RFC3339)`. -/
def Client.Put (L : GoLib Doc) (c : Client) (key : String) (data : Doc) (now : String) :
    Option Err × Client :=
  match L.marshal data with
  | none => (some .serialization, c)
  | some dataBytes =>
    let entry := mkEntry L c.node dataBytes now
    match L.marshalEntry entry with
    | none => (some .serializationEntry, c)
    | some entryBytes =>
      let r := c.db.Put key entryBytes
      (r.1.map Err.substrate, { c with db := r.2 })

/-- `Client.Get`. -/
def Client.Get (L : GoLib Doc) (c : Client) (key : String) : Except Err Entry :=
  match c.db.Get key with
  | .error e => .error (.notFound e)
  | .ok value =>
    match L.unmarshalEntry value with
    | none => .error .deserialization
    | some entry => .ok entry

/-- `Client.VerifyIntegrity`: the pair `(bool, error)` it returns. -/
def Client.VerifyIntegrity (L : GoLib Doc) (c : Client) (key : String) : Bool × Option Err :=
  match c.Get L key with
  | .error e => (false, some e)
  | .ok entry =>
    let computedHash := calculateHash L entry.Data
    if computedHash ≠ entry.Hash then
      (false, some (.hashMismatch entry.Hash computedHash))
    else (true, none)

/-- `Client.Delete`. -/
def Client.Delete (c : Client) (key : String) : Option Err × Client :=
  let r := c.db.Delete key
  (r.1.map Err.substrate, { c with db := r.2 })

/-- The loop of `BatchInsert` over the entries in the order the map yields
them; `now key` is the clock reading when `key` is visited.  The error of
the second `json.Marshal` is dropped, leaving nil bytes. -/
def batchLoop (L : GoLib Doc) (node : String) (now : String → String) :
    List (String × Doc) → Batch → Except Err Batch
  | [], batch => .ok batch
  | (key, data) :: rest, batch =>
    match L.marshal data with
    | none => .error (.serializationKey key)
    | some dataBytes =>
      let entry := mkEntry L node dataBytes (now key)
      let entryBytes := (L.marshalEntry entry).getD ""
      batchLoop L node now rest (batch ++ [(key, entryBytes)])

/-- `Client.BatchInsert`. -/
def Client.BatchInsert (L : GoLib Doc) (c : Client) (entries : List (String × Doc))
    (now : String → String) : Option Err × Client :=
  match batchLoop L c.node now entries [] with
  | .error e => (some e, c)
  | .ok batch =>
    let r := c.db.Write batch
    (r.1.map Err.substrate, { c with db := r.2 })

/-- The test `len(key) > 0 && key[0] != '_'` of `Count` and `countKeys`. -/
def countsKey (key : String) : Bool :=
  match key.data with
  | [] => false
  | c :: _ => c != '_'

/-- `Client.Count`: the pair `(int, error)` it returns. -/
def Client.Count (c : Client) : Nat × Option DBErr :=
  let iter := c.db.NewIterator none
  let count := iter.items.foldl (fun n e => if countsKey e.1 then n + 1 else n) 0
  match iter.err with
  | some e => (0, some e)
  | none => (count, none)

/-! ## Index engine (`indexer.go`) -/

/-- The `Indexer` struct. -/
structure Indexer where
  db : DB
deriving DecidableEq, Repr

/-- Go `unicode.IsSpace`: the White_Space code points. -/
def isSpace (c : Char) : Bool :=
  let n := c.toNat
  (0x09 ≤ n && n ≤ 0x0d) || n == 0x20 || n == 0x85 || n == 0xa0 || n == 0x1680 ||
  (0x2000 ≤ n && n ≤ 0x200a) || n == 0x2028 || n == 0x2029 || n == 0x202f ||
  n == 0x205f || n == 0x3000

/-- Go `strings.TrimSpace`. -/
def TrimSpace (s : String) : String :=
  ⟨((s.data.dropWhile isSpace).reverse.dropWhile isSpace).reverse⟩

/-- Go `unicode.ToLower`: ASCII letters are shifted, every other code point
is looked up in the case table of the `unicode` package, `caseTable`. -/
def toLowerRune (caseTable : Char → Char) (c : Char) : Char :=
  if c.toNat ≤ 0x7f then
    (if 'A' ≤ c ∧ c ≤ 'Z' then Char.ofNat (c.toNat + 32) else c)
  else caseTable c

/-- Go `strings.ToLower`. -/
def ToLower (caseTable : Char → Char) (s : String) : String :=
  ⟨s.data.map (toLowerRune caseTable)⟩

/-- The normal form `strings.ToLower(strings.TrimSpace(value))` of a value. -/
def normalize (caseTable : Char → Char) (value : String) : String :=
  ToLower caseTable (TrimSpace value)

/-- The format "idx:%s:%s:%s:%s" of an index key. -/
def indexKey (recordType field normalizedValue primaryKey : String) : String :=
  "idx:" ++ recordType ++ ":" ++ field ++ ":" ++ normalizedValue ++ ":" ++ primaryKey

/-- The format "idx:%s:%s:%s:" of a scanned range. -/
def indexPrefix (recordType field normalizedValue : String) : String :=
  "idx:" ++ recordType ++ ":" ++ field ++ ":" ++ normalizedValue ++ ":"

/-- The format "idx:%s:%s:" of the range `ListIndexes` scans: every index
entry of one field of one record type. -/
def fieldPrefix (recordType field : String) : String :=
  "idx:" ++ recordType ++ ":" ++ field ++ ":"

/-- `Indexer.CreateIndex`; the error is the engine's, returned as is. -/
def Indexer.CreateIndex (caseTable : Char → Char) (idx : Indexer)
    (recordType field value primaryKey : String) : Option DBErr × Indexer :=
  let normalizedValue := normalize caseTable value
  let r := idx.db.Put (indexKey recordType field normalizedValue primaryKey) primaryKey
  (r.1, { idx with db := r.2 })

/-- The loop of `SearchByIndex` over the iterator: it stops at the first key
that does not start with the scanned range and collects the values. -/
def scanLoop (pfx : String) : List (String × String) → List String → List String
  | [], results => results
  | (key, value) :: rest, results =>
    if !hasPrefix key pfx then results
    else scanLoop pfx rest (results ++ [value])

/-- `Indexer.SearchByIndex`. -/
def Indexer.SearchByIndex (caseTable : Char → Char) (idx : Indexer)
    (recordType field value : String) : Except Err (List String) :=
  let normalizedValue := normalize caseTable value
  let pfx := indexPrefix recordType field normalizedValue
  let iter := idx.db.NewIterator (some pfx)
  let results := scanLoop pfx iter.items []
  match iter.err with
  | some e => .error (.iteration e)
  | none => .ok results

/-- The loop of `GetByIndex` over the primary keys: a key the engine does
not hold, or whose bytes `json.Unmarshal` rejects, is passed over. -/
def getLoop (L : GoLib Doc) (db : DB) : List String → List Entry → List Entry
  | [], entries => entries
  | pk :: rest, entries =>
    match db.Get pk with
    | .error _ => getLoop L db rest entries
    | .ok valueBytes =>
      match L.unmarshalEntry valueBytes with
      | none => getLoop L db rest entries
      | some entry => getLoop L db rest (entries ++ [entry])

/-- `Indexer.GetByIndex`. -/
def Indexer.GetByIndex (L : GoLib Doc) (caseTable : Char → Char) (idx : Indexer)
    (recordType field value : String) : Except Err (List Entry) :=
  match idx.SearchByIndex caseTable recordType field value with
  | .error e => .error e
  | .ok primaryKeys => .ok (getLoop L idx.db primaryKeys [])

/-- The `systemFields` table of `isIndexableField`. -/
def systemFields : List (String × Bool) :=
  [("hash", true), ("timestamp", true), ("node", true), ("ledger_type", false), ("data", true)]

/-- `isIndexableField`. -/
def isIndexableField (field : String) : Bool :=
  match systemFields.lookup field with
  | some excluded => !excluded
  | none => true

/-- A field value of a document (`interface{}`): a string, an integer, a
boolean, or any other value given by its `%v` rendering. -/
inductive Value where
  | str (s : String)
  | int (n : Int)
  | bool (b : Bool)
  | other (rendered : String)
deriving DecidableEq, Repr

/-- Go `fmt.Sprintf("%v", value)`. -/
def sprintV : Value → String
  | .str s => s
  | .int n => toString n
  | .bool b => if b then "true" else "false"
  | .other rendered => rendered

/-- The first loop of `UpdateIndexes`: the entry of every indexable field of
`oldData` is deleted, the result of `Delete` being dropped. -/
def deleteOldLoop (caseTable : Char → Char) (recordType primaryKey : String) :
    List (String × Value) → Indexer → Indexer
  | [], idx => idx
  | (field, value) :: rest, idx =>
    if !isIndexableField field then deleteOldLoop caseTable recordType primaryKey rest idx
    else
      let valueStr := sprintV value
      let normalizedValue := normalize caseTable valueStr
      let oldIndexKey := indexKey recordType field normalizedValue primaryKey
      let r := idx.db.Delete oldIndexKey
      deleteOldLoop caseTable recordType primaryKey rest { idx with db := r.2 }

/-- The second loop of `UpdateIndexes`: an entry is created for every
indexable field of `newData`, the first failure being returned. -/
def createNewLoop (caseTable : Char → Char) (recordType primaryKey : String) :
    List (String × Value) → Indexer → Option Err × Indexer
  | [], idx => (none, idx)
  | (field, value) :: rest, idx =>
    if !isIndexableField field then createNewLoop caseTable recordType primaryKey rest idx
    else
      let valueStr := sprintV value
      let r := idx.CreateIndex caseTable recordType field valueStr primaryKey
      match r.1 with
      | some e => (some (.indexCreate field e), r.2)
      | none => createNewLoop caseTable recordType primaryKey rest r.2

/-- `Indexer.UpdateIndexes`; a map is the list of its pairs in iteration
order, `none` the nil map. -/
def Indexer.UpdateIndexes (caseTable : Char → Char) (idx : Indexer)
    (recordType primaryKey : String) (oldData newData : Option (List (String × Value))) :
    Option Err × Indexer :=
  let idx1 :=
    match oldData with
    | some old => deleteOldLoop caseTable recordType primaryKey old idx
    | none => idx
  match newData with
  | some new => createNewLoop caseTable recordType primaryKey new idx1
  | none => (none, idx1)

/-- `Indexer.CountByIndex`. -/
def Indexer.CountByIndex (caseTable : Char → Char) (idx : Indexer)
    (recordType field value : String) : Except Err Nat :=
  match idx.SearchByIndex caseTable recordType field value with
  | .error e => .error e
  | .ok results => .ok results.length

/-- The loop of `DeleteIndexes`: the entry of every indexable field is
deleted, the first failure being returned. -/
def deleteLoop (caseTable : Char → Char) (recordType primaryKey : String) :
    List (String × Value) → Indexer → Option Err × Indexer
  | [], idx => (none, idx)
  | (field, value) :: rest, idx =>
    if !isIndexableField field then deleteLoop caseTable recordType primaryKey rest idx
    else
      let valueStr := sprintV value
      let normalizedValue := normalize caseTable valueStr
      let r := idx.db.Delete (indexKey recordType field normalizedValue primaryKey)
      match r.1 with
      | some e => (some (.indexDelete field e), { idx with db := r.2 })
      | none => deleteLoop caseTable recordType primaryKey rest { idx with db := r.2 }

/-- `Indexer.DeleteIndexes`; `none` is the nil map. -/
def Indexer.DeleteIndexes (caseTable : Char → Char) (idx : Indexer)
    (recordType primaryKey : String) (data : Option (List (String × Value))) :
    Option Err × Indexer :=
  match data with
  | none => (none, idx)
  | some d => deleteLoop caseTable recordType primaryKey d idx

/-- The pieces of a text between the occurrences of a separator. -/
def splitChars (sep : Char) : List Char → List (List Char)
  | [] => [[]]
  | c :: cs =>
    if c = sep then [] :: splitChars sep cs
    else
      match splitChars sep cs with
      | [] => [[c]]
      | p :: ps => (c :: p) :: ps

/-- Go `strings.Split(s, sep)` for a separator of one character. -/
def Split (s : String) (sep : Char) : List String :=
  (splitChars sep s.data).map String.mk

/-- The statement `counts[value]++` on a `map[string]int`, a map being the
list of its pairs with distinct keys. -/
def bump : List (String × Nat) → String → List (String × Nat)
  | [], value => [(value, 1)]
  | (k, n) :: rest, value =>
    if k = value then (k, n + 1) :: rest else (k, n) :: bump rest value

/-- The loop of `ListIndexes` over the iterator. -/
def listLoop (pfx : String) : List (String × String) → List (String × Nat) →
    List (String × Nat)
  | [], counts => counts
  | (key, _) :: rest, counts =>
    if !hasPrefix key pfx then counts
    else
      let parts := Split key ':'
      if parts.length ≥ 4 then listLoop pfx rest (bump counts (parts.getD 3 ""))
      else listLoop pfx rest counts

/-- `Indexer.ListIndexes`; the error is the engine's, returned as is. -/
def Indexer.ListIndexes (idx : Indexer) (recordType field : String) :
    Except Err (List (String × Nat)) :=
  let pfx := fieldPrefix recordType field
  let iter := idx.db.NewIterator (some pfx)
  let counts := listLoop pfx iter.items []
  match iter.err with
  | some e => .error (.substrate e)
  | none => .ok counts

/-- Go `strings.Join(elems, sep)`. -/
def Join : List String → String → String
  | [], _ => ""
  | [a], _ => a
  | a :: b :: rest, sep => a ++ sep ++ Join (b :: rest) sep

/-- `Indexer.CreateCompositeIndex`. -/
def Indexer.CreateCompositeIndex (caseTable : Char → Char) (idx : Indexer)
    (recordType : String) (fields values : List String) (primaryKey : String) :
    Option Err × Indexer :=
  if fields.length ≠ values.length then (some .arity, idx)
  else
    let compositeField := Join fields "-"
    let normalizedValues := values.map (normalize caseTable)
    let compositeValue := Join normalizedValues "-"
    let r := idx.db.Put (indexKey recordType compositeField compositeValue primaryKey)
      primaryKey
    (r.1.map Err.substrate, { idx with db := r.2 })

/-- `Indexer.SearchByCompositeIndex`: the lengths are not compared and the
error of the iterator is not read. -/
def Indexer.SearchByCompositeIndex (caseTable : Char → Char) (idx : Indexer)
    (recordType : String) (fields values : List String) : Except Err (List String) :=
  let compositeField := Join fields "-"
  let normalizedValues := values.map (normalize caseTable)
  let compositeValue := Join normalizedValues "-"
  let pfx := indexPrefix recordType compositeField compositeValue
  let iter := idx.db.NewIterator (some pfx)
  .ok (scanLoop pfx iter.items [])

/-- One call `CreateIndex(recordType, field, value, primaryKey)`. -/
structure IndexCall where
  recordType : String
  field : String
  value : String
  primaryKey : String
deriving DecidableEq, Repr

/-- A store populated through `CreateIndex`: the calls of a loading loop,
such as the one of `mission_1_1`, made in order. -/
def populate (caseTable : Char → Char) (calls : List IndexCall) (idx : Indexer) : Indexer :=
  calls.foldl
    (fun i c => (i.CreateIndex caseTable c.recordType c.field c.value c.primaryKey).2) idx

/-- The entry a call writes: its index key and its primary key. -/
def IndexCall.entry (caseTable : Char → Char) (c : IndexCall) : String × String :=
  (indexKey c.recordType c.field (normalize caseTable c.value) c.primaryKey, c.primaryKey)

/-- A text without the separator '-' of composite index keys. -/
def noHyphen (s : String) : Bool := !s.data.contains '-'

/-- A text without the separator ':' of index keys. -/
def noColon (s : String) : Bool := !s.data.contains ':'

/-- A call whose record type, field and normalized value contain no ':'
(its primary key may). -/
def IndexCall.colonFree (caseTable : Char → Char) (c : IndexCall) : Bool :=
  noColon c.recordType && noColon c.field && noColon (normalize caseTable c.value)

/-! ## Contracts of the standard library -/

/-- The contract of `encoding/json` at one document and its envelope:
`json.Marshal(d)` is `b`, and `json.Unmarshal` gives back the envelope
`json.Marshal` wrote for it. -/
def GoLib.Serializes (L : GoLib Doc) (node : String) (d : Doc) (now b : String) : Prop :=
  L.marshal d = some b ∧
  (L.marshalEntry (mkEntry L node b now)).bind L.unmarshalEntry = some (mkEntry L node b now)

/-- The test `len(key) > 0 && key[0] == '_'` by which `exportNode` and
`validateReplication` skip a system key. -/
def isSystemKey (key : String) : Bool :=
  match key.data with
  | [] => false
  | c :: _ => c == '_'

/-! ## Consistency validator (`cmd/replicator`) -/

/-- `countKeys`. -/
def countKeys (db : DB) : Nat :=
  (db.NewIterator none).items.foldl (fun n e => if countsKey e.1 then n + 1 else n) 0

/-- `isValidJSON`: `json.Unmarshal` into an `interface{}` succeeds. -/
def isValidJSON (L : GoLib Doc) (data : String) : Bool :=
  (L.unmarshal data).isSome

/-- `compareJSON`; the errors of the two `json.Marshal` are dropped, leaving
nil bytes. -/
def compareJSON (L : GoLib Doc) (json1 json2 : String) : Bool :=
  match L.unmarshal json1 with
  | none => false
  | some obj1 =>
    match L.unmarshal json2 with
    | none => false
    | some obj2 =>
      let normalizedJSON1 := (L.marshal obj1).getD ""
      let normalizedJSON2 := (L.marshal obj2).getD ""
      normalizedJSON1 == normalizedJSON2

/-- The comparison branch of `validateReplication`: the value of `isEqual`. -/
def valuesEqual (L : GoLib Doc) (keyStr value1 value2 : String) : Bool :=
  if hasPrefix keyStr "idx:" then value1 == value2
  else if isValidJSON L value1 && isValidJSON L value2 then compareJSON L value1 value2
  else value1 == value2

/-- The counters `mismatches`, `missing` and `checked` of the validator. -/
structure Counters where
  mismatches : Nat
  missing : Nat
  checked : Nat
deriving DecidableEq, Repr

/-- The loop of `validateReplication` over the entries of the first node. -/
def validateLoop (L : GoLib Doc) (db2 : DB) : List (String × String) → Counters → Counters
  | [], st => st
  | (key, value1) :: rest, st =>
    if isSystemKey key then validateLoop L db2 rest st
    else
      match db2.Get key with
      | .error _ => validateLoop L db2 rest { st with missing := st.missing + 1 }
      | .ok value2 =>
        let isEqual := valuesEqual L key value1 value2
        let st1 := if !isEqual then { st with mismatches := st.mismatches + 1 } else st
        validateLoop L db2 rest { st1 with checked := st1.checked + 1 }

/-- What `validateReplication` prints: the difference of the key counts, or
the counters of the comparison. -/
inductive Report where
  | countsDiffer (difference : Nat)
  | compared (st : Counters)
deriving DecidableEq, Repr

/-- `abs`, on the difference of two counts. -/
def absDiff (count1 count2 : Nat) : Nat :=
  if count1 < count2 then count2 - count1 else count1 - count2

/-- `validateReplication`. -/
def validateReplication (L : GoLib Doc) (db1 db2 : DB) : Report :=
  let count1 := countKeys db1
  let count2 := countKeys db2
  if count1 ≠ count2 then .countsDiffer (absDiff count1 count2)
  else
    let iter := db1.NewIterator none
    .compared (validateLoop L db2 iter.items { mismatches := 0, missing := 0, checked := 0 })

/-- The outcome "Les nœuds sont identiques": `missing == 0 && mismatches == 0`. -/
def Report.identical : Report → Bool
  | .countsDiffer _ => false
  | .compared st => st.missing == 0 && st.mismatches == 0

/-! ## Export and import (`cmd/replicator`) -/

/-- The `ReplicationEntry` struct; a nil `json.RawMessage` is the empty
text. -/
structure ReplicationEntry where
  Key : String
  Value : String
  RawValue : String
  IsRaw : Bool
deriving DecidableEq, Repr

/-- The standard-library functions the replicator calls besides those of
`GoLib`: `base64.StdEncoding.EncodeToString` and `DecodeString`,
`json.MarshalIndent(entry, "  ", "  ")` and `json.Unmarshal` of a file into
a `[]ReplicationEntry`.  `none` is a returned error. -/
structure ReplLib where
  encodeToString : String → String
  decodeString : String → Option String
  marshalIndent : ReplicationEntry → Option String
  unmarshalEntries : String → Option (List ReplicationEntry)

/-- The record `exportNode` builds for one pair: the value goes in base64
when the key is an index key or the value is not valid JSON. -/
def exportRecord (L : GoLib Doc) (R : ReplLib) (keyStr value : String) : ReplicationEntry :=
  if hasPrefix keyStr "idx:" || !isValidJSON L value then
    { Key := keyStr, Value := "", RawValue := R.encodeToString value, IsRaw := true }
  else
    { Key := keyStr, Value := value, RawValue := "", IsRaw := false }

/-- The variables of the loop of `exportNode`: the text written to the file
so far, `count` and `first`. -/
structure ExportState where
  file : String
  count : Nat
  first : Bool
deriving DecidableEq, Repr

/-- The loop of `exportNode` over the iterator. -/
def exportLoop (L : GoLib Doc) (R : ReplLib) :
    List (String × String) → ExportState → ExportState
  | [], st => st
  | (key, value) :: rest, st =>
    if isSystemKey key then exportLoop L R rest st
    else
      let file1 := if !st.first then st.file ++ ",\n" else st.file
      let entry := exportRecord L R key value
      match R.marshalIndent entry with
      | none => exportLoop L R rest { st with file := file1, first := false }
      | some jsonBytes =>
        exportLoop L R rest { file := file1 ++ jsonBytes, count := st.count + 1, first := false }

/-- `exportNode`: the text of the output file and the printed count. -/
def exportNode (L : GoLib Doc) (R : ReplLib) (db : DB) : String × Nat :=
  let iter := db.NewIterator none
  let st := exportLoop L R iter.items { file := "[\n", count := 0, first := true }
  (st.file ++ "\n]", st.count)

/-- The variables of the loop of `importNode`: the store, the pending batch,
`batchSize` and `totalImported`. -/
structure ImportState where
  db : DB
  batch : Batch
  batchSize : Nat
  totalImported : Nat
deriving DecidableEq, Repr

/-- The loop of `importNode` over `entries[i:]`, `n` being `len(entries)`
(at least 1 whenever the body runs, so `n - 1` is the last index).  A record
whose base64 text does not decode is passed over by `continue`, which also
passes over the test that writes the batch. -/
def importLoop (R : ReplLib) (n : Nat) : Nat → List ReplicationEntry → ImportState → ImportState
  | _, [], st => st
  | i, entry :: rest, st =>
    let decoded := if entry.IsRaw then R.decodeString entry.RawValue else some entry.Value
    match decoded with
    | none => importLoop R n (i + 1) rest st
    | some valueBytes =>
      let batch := st.batch ++ [(entry.Key, valueBytes)]
      let batchSize := st.batchSize + 1
      if batchSize ≥ 1000 ∨ i = n - 1 then
        let r := st.db.Write batch
        let total :=
          match r.1 with
          | some _ => st.totalImported
          | none => st.totalImported + batchSize
        importLoop R n (i + 1) rest
          { db := r.2, batch := [], batchSize := 0, totalImported := total }
      else
        importLoop R n (i + 1) rest { st with batch := batch, batchSize := batchSize }

/-- The body of `importNode` once the file is parsed: the store at the end
and the printed total. -/
def importEntries (R : ReplLib) (db : DB) (entries : List ReplicationEntry) : DB × Nat :=
  let st := importLoop R entries.length 0 entries
    { db := db, batch := [], batchSize := 0, totalImported := 0 }
  (st.db, st.totalImported)

/-- `importNode` on the text of the input file; `none` is the exit by
`log.Fatalf` when the file does not parse. -/
def importNode (R : ReplLib) (db : DB) (data : String) : Option (DB × Nat) :=
  match R.unmarshalEntries data with
  | none => none
  | some entries => some (importEntries R db entries)

/-- The value `importNode` writes for a record, if any. -/
def ReplicationEntry.decoded (R : ReplLib) (entry : ReplicationEntry) : Option String :=
  if entry.IsRaw then R.decodeString entry.RawValue else some entry.Value

/-- The records of the export of a store: the record of each entry whose key
does not start with an underscore, in the order of the iterator. -/
def exportRecords (L : GoLib Doc) (R : ReplLib) (db : DB) : List ReplicationEntry :=
  ((db.NewIterator none).items.filter (fun e => !isSystemKey e.1)).map
    (fun e => exportRecord L R e.1 e.2)

/-- What the file carries of a record `r` to the record `r'` read back from
it: the key, the raw flag and the base64 text as they are, and a structured
value as a text, laid out anew, that `json.Unmarshal` reads as the same
value. -/
def ReplicationEntry.Carries (L : GoLib Doc) (r r' : ReplicationEntry) : Prop :=
  r'.Key = r.Key ∧ r'.IsRaw = r.IsRaw ∧ r'.RawValue = r.RawValue ∧
  (r.IsRaw = false → L.unmarshal r'.Value = L.unmarshal r.Value)

/-- The contract of `encoding/json` and `encoding/base64` at the export of
one store: `json.MarshalIndent` serializes every record, base64 decoding
undoes the encoding of the value of every raw record, and `json.Unmarshal`
of the file gives
the records `rs`, which the file carries one for one from the records of the
export. -/
def ReplLib.Transports (L : GoLib Doc) (R : ReplLib) (db : DB)
    (rs : List ReplicationEntry) : Prop :=
  (∀ e ∈ db.entries, isSystemKey e.1 = false →
    (R.marshalIndent (exportRecord L R e.1 e.2)).isSome = true) ∧
  (∀ e ∈ db.entries, isSystemKey e.1 = false → (exportRecord L R e.1 e.2).IsRaw = true →
    R.decodeString (R.encodeToString e.2) = some e.2) ∧
  R.unmarshalEntries (exportNode L R db).1 = some rs ∧
  List.Forall₂ (ReplicationEntry.Carries L) (exportRecords L R db) rs

/-! ## A worked example

A finite fragment of the standard library, tabulated at the documents of
the conflict scenario of the spec.  The digests are the SHA-256 values of
the payloads. -/

/-- The documents `{amount: 1000}` and `{amount: 2000}`, and a channel, a
value `json.Marshal` rejects. -/
inductive ExDoc where
  | amount1000
  | amount2000
  | channel
deriving DecidableEq, Repr

/-- The text `json.Marshal` writes for an example document. -/
def exMarshal : ExDoc → Option String
  | .amount1000 => some "\x7b\"amount\":1000\x7d"
  | .amount2000 => some "\x7b\"amount\":2000\x7d"
  | .channel => none

/-- The document `json.Unmarshal` reads from a payload of the examples. -/
def exUnmarshal (b : String) : Option ExDoc :=
  if b = "\x7b\"amount\":1000\x7d" then some .amount1000
  else if b = "\x7b\"amount\":2000\x7d" then some .amount2000
  else none

/-- The hex SHA-256 digest, on the payloads of the examples. -/
def exSha256hex (b : String) : String :=
  if b = "\x7b\"amount\":1000\x7d" then
    "612612d208fb618eb2b007d2a7f8d7a1cfb511532389298f1cc33322c3094bcc"
  else if b = "\x7b\"amount\":2000\x7d" then
    "351f905eba5e840399fb18469477618a059fbde05d8e88114118cc01617bb8d7"
  else if b = "\x7b\"amount\":9999\x7d" then
    "88740ad3f868bf62e628821a4c3f2fbcf870799e21a6c2ebaa4bd01eed0863c3"
  else ""

/-- The text `json.Marshal` writes for an envelope whose strings need no
escaping. -/
def exFormatEntry (e : Entry) : String :=
  "\x7b\"data\":" ++ e.Data ++ ",\"hash\":\"" ++ e.Hash ++ "\",\"timestamp\":\"" ++
    e.Timestamp ++ "\",\"node\":\"" ++ e.Node ++ "\"\x7d"

/-- The envelopes of the examples: the two orders written by `node1` at two
instants, and an envelope whose payload was changed to `{amount: 9999}`
after the digest of `{amount: 1000}` was taken. -/
def exEnvelopes : List Entry :=
  [ { Data := "\x7b\"amount\":1000\x7d",
      Hash := "612612d208fb618eb2b007d2a7f8d7a1cfb511532389298f1cc33322c3094bcc",
      Timestamp := "2024-01-01T00:00:00Z", Node := "leveldb-stores/node1" },
    { Data := "\x7b\"amount\":2000\x7d",
      Hash := "351f905eba5e840399fb18469477618a059fbde05d8e88114118cc01617bb8d7",
      Timestamp := "2024-01-01T00:00:00Z", Node := "leveldb-stores/node1" },
    { Data := "\x7b\"amount\":2000\x7d",
      Hash := "351f905eba5e840399fb18469477618a059fbde05d8e88114118cc01617bb8d7",
      Timestamp := "2024-01-02T00:00:00Z", Node := "leveldb-stores/node1" },
    { Data := "\x7b\"amount\":9999\x7d",
      Hash := "612612d208fb618eb2b007d2a7f8d7a1cfb511532389298f1cc33322c3094bcc",
      Timestamp := "2024-01-01T00:00:00Z", Node := "leveldb-stores/node1" } ]

/-- The example library. -/
def exLib : GoLib ExDoc where
  marshal := exMarshal
  unmarshal := exUnmarshal
  marshalEntry := fun e => if e ∈ exEnvelopes then some (exFormatEntry e) else none
  unmarshalEntry := fun b => exEnvelopes.find? (fun e => exFormatEntry e == b)
  sha256hex := exSha256hex

/-- An empty store opened by `node1`. -/
def exClient : Client :=
  { db := { entries := [], readOnly := false }, node := "leveldb-stores/node1" }

/-- The stored bytes of the tampered envelope. -/
def exTamperedBytes : String :=
  "\x7b\"data\":\x7b\"amount\":9999\x7d,\"hash\":\"612612d208fb618eb2b007d2a7f8d7a1cfb511532389298f1cc33322c3094bcc\",\"timestamp\":\"2024-01-01T00:00:00Z\",\"node\":\"leveldb-stores/node1\"\x7d"

/-- A store whose envelope at `order:00001` was tampered with. -/
def exTampered : Client :=
  { db := { entries := [("order:00001", exTamperedBytes)], readOnly := false },
    node := "leveldb-stores/node1" }

/-- The case table used in the examples, which hold ASCII text only. -/
def exCaseTable : Char → Char := fun c => c

/-- An empty index store. -/
def exIndexer : Indexer := { db := { entries := [], readOnly := false } }

/-! ## A model of `encoding/json` on integers

`json.Unmarshal` into an `interface{}` reads a JSON number as a `float64`
and `json.Marshal` writes an integral `float64` below 1e21 in plain decimal.
The library below is that behaviour on the texts of the natural numbers of
at most 20 digits, with optional blanks around them; every other text is
outside the fragment and is reported as an error. -/

/-- The insignificant whitespace of JSON. -/
def isJSONSpace (c : Char) : Bool :=
  c == ' ' || c == '\t' || c == '\n' || c == '\r'

/-- The text of a JSON natural number: "0", or digits not starting with '0'. -/
def isIntegerLiteral (cs : List Char) : Bool :=
  match cs with
  | [] => false
  | ['0'] => true
  | c :: rest => decide ('1' ≤ c ∧ c ≤ '9') && rest.all (fun d => decide ('0' ≤ d ∧ d ≤ '9'))

/-- The number a text of digits denotes. -/
def parseDigits (cs : List Char) : Nat :=
  cs.foldl (fun n c => 10 * n + (c.toNat - 48)) 0

/-- The number of bits of a natural number beyond the 53 of a `float64`
significand. -/
def excessBits : Nat → Nat → Nat
  | 0, _ => 0
  | fuel + 1, n => if n < 2 ^ 53 then 0 else 1 + excessBits fuel (n / 2)

/-- The `float64` nearest to a natural number, ties to even: a number of
more than 53 bits is rounded to its 53 leading bits. -/
def roundFloat64 (n : Nat) : Nat :=
  let shift := excessBits 1024 n
  if shift = 0 then n
  else
    let q := n / 2 ^ shift
    let r := n % 2 ^ shift
    let half := 2 ^ (shift - 1)
    let q1 := if half < r ∨ (r = half ∧ q % 2 = 1) then q + 1 else q
    q1 * 2 ^ shift

/-- The decimal digits of a number, most significant first. -/
def decimalDigits : Nat → Nat → List Char → List Char
  | 0, _, acc => acc
  | fuel + 1, n, acc =>
    if n < 10 then Char.ofNat (48 + n) :: acc
    else decimalDigits fuel (n / 10) (Char.ofNat (48 + n % 10) :: acc)

/-- The plain decimal text of a number below 1e21. -/
def decimal (n : Nat) : String := ⟨decimalDigits 32 n []⟩

/-- The value `json.Unmarshal` reads from the text of a natural number. -/
def numUnmarshal (s : String) : Option Nat :=
  let cs := ((s.data.dropWhile isJSONSpace).reverse.dropWhile isJSONSpace).reverse
  if isIntegerLiteral cs && decide (cs.length ≤ 20) then some (roundFloat64 (parseDigits cs))
  else none

/-- The library on integers; envelopes and digests are outside the fragment. -/
def numLib : GoLib Nat where
  marshal := fun n => some (decimal n)
  unmarshal := numUnmarshal
  marshalEntry := fun _ => none
  unmarshalEntry := fun _ => none
  sha256hex := fun _ => ""

/-- Two nodes that hold the same orders and the same index entry and differ
in a system key only. -/
def exNodeA : DB :=
  { entries := [("_meta", "a"), ("idx:order:region:na:order:1", "order:1"),
      ("order:1", "1000"), ("order:2", " 2000 ")], readOnly := false }

/-- The second node. -/
def exNodeB : DB :=
  { entries := [("_meta", "b"), ("idx:order:region:na:order:1", "order:1"),
      ("order:1", "1000"), ("order:2", " 2000 ")], readOnly := false }

/-- An index store whose three region entries point to `order:1`, which
holds an envelope, to `order:2`, which is absent, and to `order:3`, which
holds bytes that are not an envelope. -/
def exResolveIndexer : Indexer :=
  Indexer.mk (DB.mk
    [("idx:order:region:na:order:1", "order:1"), ("idx:order:region:na:order:2", "order:2"),
     ("idx:order:region:na:order:3", "order:3"),
     ("order:1", "\x7b\"data\":\x7b\"amount\":1000\x7d,\"hash\":\"612612d208fb618eb2b007d2a7f8d7a1cfb511532389298f1cc33322c3094bcc\",\"timestamp\":\"2024-01-01T00:00:00Z\",\"node\":\"leveldb-stores/node1\"\x7d"),
     ("order:3", "not an envelope")] false)

/-- An index store opened read-only that holds the region entry of
`order:00001`. -/
def exReadOnlyIndexer : Indexer :=
  Indexer.mk (DB.mk [("idx:order:region:na:order:00001", "order:00001")] true)

/-- A node that holds one order. -/
def exOrderNode : DB :=
  { entries := [("order:1", "1000")], readOnly := false }

/-- A node that holds the same order and, under the empty key, one more
value. -/
def exEmptyKeyNode : DB :=
  { entries := [("", "x"), ("order:1", "1000")], readOnly := false }

/-- The calls that indexed the orders of the next store. -/
def exSoundCalls : List IndexCall :=
  [⟨"order", "region", "NA", "order:00001"⟩, ⟨"order", "region", "EU", "order:00002"⟩,
   ⟨"order", "region", "na ", "order:00003"⟩]

/-- A store that holds the index entries of these calls and a document. -/
def exSoundIndexer : Indexer :=
  Indexer.mk (DB.Put (populate exCaseTable exSoundCalls exIndexer).db "order:00001" "1000").2

/-! ## A worked example of replication

A finite fragment of `encoding/base64` and of `encoding/json` on
replication records, tabulated at the texts of the examples; the keys and
the texts of the examples need no escaping. -/

/-- The base64 texts of the values of the examples. -/
def exBase64 : List (String × String) :=
  [("", ""), ("order:00001", "b3JkZXI6MDAwMDE="), ("order:1", "b3JkZXI6MQ=="), ("x", "eA==")]

/-- The envelopes of the conflict scenario: `{amount: 1000}` written by
`node1` and `{amount: 2000}` written by `node2`. -/
def exReplEnvelopes : List Entry :=
  [ { Data := "\x7b\"amount\":1000\x7d",
      Hash := "612612d208fb618eb2b007d2a7f8d7a1cfb511532389298f1cc33322c3094bcc",
      Timestamp := "2024-01-01T00:00:00Z", Node := "leveldb-stores/node1" },
    { Data := "\x7b\"amount\":2000\x7d",
      Hash := "351f905eba5e840399fb18469477618a059fbde05d8e88114118cc01617bb8d7",
      Timestamp := "2024-01-01T00:00:00Z", Node := "leveldb-stores/node2" } ]

/-- The layout `json.MarshalIndent` gives to a payload inside the envelope
of a record. -/
def exIndentPayload (b : String) : String :=
  if b = "\x7b\"amount\":1000\x7d" then "\x7b\n        \"amount\": 1000\n      \x7d"
  else if b = "\x7b\"amount\":2000\x7d" then "\x7b\n        \"amount\": 2000\n      \x7d"
  else b

/-- The layout `json.MarshalIndent` gives to an envelope inside a record. -/
def exIndentEntry (e : Entry) : String :=
  "\x7b\n      \"data\": " ++ exIndentPayload e.Data ++ ",\n      \"hash\": \"" ++ e.Hash ++
    "\",\n      \"timestamp\": \"" ++ e.Timestamp ++ "\",\n      \"node\": \"" ++ e.Node ++
    "\"\n    \x7d"

/-- The layout of a structured value inside a record: the text of a natural
number loses the blanks around it, an envelope of the examples is laid out
over several lines; every other text is outside the fragment. -/
def exIndent (value : String) : Option String :=
  let cs := ((value.data.dropWhile isJSONSpace).reverse.dropWhile isJSONSpace).reverse
  if isIntegerLiteral cs then some ⟨cs⟩
  else (exReplEnvelopes.find? (fun e => exFormatEntry e == value)).map exIndentEntry

/-- The text `json.MarshalIndent(entry, "  ", "  ")` writes for a record,
given the layout of its structured value; an empty field is left out. -/
def exRecordText (r : ReplicationEntry) (indented : String) : String :=
  "\x7b\n    \"key\": \"" ++ r.Key ++ "\"" ++
    (if r.Value = "" then "" else ",\n    \"value\": " ++ indented) ++
    (if r.RawValue = "" then "" else ",\n    \"raw_value\": \"" ++ r.RawValue ++ "\"") ++
    (if r.IsRaw then ",\n    \"is_raw\": true" else "") ++ "\n  \x7d"

/-- The example `json.MarshalIndent` of a record. -/
def exMarshalIndent (r : ReplicationEntry) : Option String :=
  if r.Value = "" then some (exRecordText r "")
  else (exIndent r.Value).map (exRecordText r)

/-- The record `json.Unmarshal` reads back from the text of a record: the
structured value is the text as laid out in the file. -/
def exReparse (r : ReplicationEntry) : ReplicationEntry :=
  { r with Value := if r.Value = "" then "" else (exIndent r.Value).getD r.Value }

/-- The text of a file that holds the given records. -/
def exFileText (rs : List ReplicationEntry) : String :=
  "[\n" ++ Join (rs.map (fun r => (exMarshalIndent r).getD "")) ",\n" ++ "\n]"

/-- The records of a file whose last record carries a text that is not
base64. -/
def exBrokenRecords : List ReplicationEntry :=
  [ { Key := "order:1", Value := "1000", RawValue := "", IsRaw := false },
    { Key := "idx:order:region:na:order:1", Value := "", RawValue := "!!!", IsRaw := true } ]

/-- The same records, the undecodable one first. -/
def exBrokenRecordsSwapped : List ReplicationEntry :=
  [ { Key := "idx:order:region:na:order:1", Value := "", RawValue := "!!!", IsRaw := true },
    { Key := "order:1", Value := "1000", RawValue := "", IsRaw := false } ]

/-- The records of the export of `node1` in the conflict scenario. -/
def exConflictRecords : List ReplicationEntry :=
  [ { Key := "idx:order:region:na:order:00001", Value := "", RawValue := "b3JkZXI6MDAwMDE=",
      IsRaw := true },
    { Key := "order:00001",
      Value := "\x7b\"data\":\x7b\"amount\":1000\x7d,\"hash\":\"612612d208fb618eb2b007d2a7f8d7a1cfb511532389298f1cc33322c3094bcc\",\"timestamp\":\"2024-01-01T00:00:00Z\",\"node\":\"leveldb-stores/node1\"\x7d",
      RawValue := "", IsRaw := false } ]

/-- A node that holds a system key, an index entry, a value that is not
JSON and an order. -/
def exExportNode : DB :=
  { entries := [("_meta", "node1"), ("idx:order:region:na:order:1", "order:1"),
      ("note", "x"), ("order:1", " 1000")], readOnly := false }

/-- The records of the export of that node. -/
def exExportRecords : List ReplicationEntry :=
  [ { Key := "idx:order:region:na:order:1", Value := "", RawValue := "b3JkZXI6MQ==",
      IsRaw := true },
    { Key := "note", Value := "", RawValue := "eA==", IsRaw := true },
    { Key := "order:1", Value := " 1000", RawValue := "", IsRaw := false } ]

/-- The example library of the replicator: `json.Unmarshal` reads the files
of the record lists above. -/
def exReplLib : ReplLib where
  encodeToString := fun v => (exBase64.lookup v).getD ""
  decodeString := fun t => (exBase64.find? (fun p => p.2 == t)).map Prod.fst
  marshalIndent := exMarshalIndent
  unmarshalEntries := fun data =>
    ([exBrokenRecords, exBrokenRecordsSwapped, exConflictRecords, exExportRecords].find?
      (fun rs => exFileText rs == data)).map (List.map exReparse)

/-- The values `json.Unmarshal` reads into an `interface{}` in the conflict
scenario: a document, or the object of an envelope. -/
inductive ExValue where
  | document (d : ExDoc)
  | envelope (d : ExDoc) (hash timestamp node : String)
deriving DecidableEq, Repr

/-- The text `json.Marshal` writes for such a value, the keys of an object
in ascending order. -/
def exValueMarshal : ExValue → Option String
  | .document d => exMarshal d
  | .envelope d hash timestamp node =>
    (exMarshal d).map (fun p => "\x7b\"data\":" ++ p ++ ",\"hash\":\"" ++ hash ++
      "\",\"node\":\"" ++ node ++ "\",\"timestamp\":\"" ++ timestamp ++ "\"\x7d")

/-- The value `json.Unmarshal` reads from a text of the conflict scenario:
a payload, or an envelope in one line or laid out over several lines. -/
def exValueUnmarshal (b : String) : Option ExValue :=
  match exUnmarshal b with
  | some d => some (.document d)
  | none =>
    (exReplEnvelopes.find? (fun e => exFormatEntry e == b || exIndentEntry e == b)).bind
      (fun e => (exUnmarshal e.Data).map (fun d => .envelope d e.Hash e.Timestamp e.Node))

/-- The example library of the conflict scenario. -/
def exValueLib : GoLib ExValue where
  marshal := exValueMarshal
  unmarshal := exValueUnmarshal
  marshalEntry := fun e => if e ∈ exReplEnvelopes then some (exFormatEntry e) else none
  unmarshalEntry := fun b => exReplEnvelopes.find? (fun e => exFormatEntry e == b)
  sha256hex := exSha256hex

/-- The store of `node1` before the scenario: one index entry. -/
def exConflictA : Client :=
  { db := { entries := [("idx:order:region:na:order:00001", "order:00001")],
            readOnly := false },
    node := "leveldb-stores/node1" }

/-- The store of `node2` before the scenario: the same index entry and a
system key. -/
def exConflictB : Client :=
  { db := { entries := [("_meta", "node2"),
              ("idx:order:region:na:order:00001", "order:00001")],
            readOnly := false },
    node := "leveldb-stores/node2" }

/-! ## Lemmas on the entry list -/

theorem lookup_insertKV_self (k v : String) (l : List (String × String)) :
    (insertKV k v l).lookup k = some v := by
  induction l with
  | nil => simp [insertKV, List.lookup]
  | cons hd tl ih =>
    obtain ⟨k', v'⟩ := hd
    unfold insertKV
    by_cases h : k = k'
    · simp [h, List.lookup]
    · by_cases h2 : keyLt k k' = true
      · simp [h, h2, List.lookup]
      · have hne : (k == k') = false := by simpa using h
        simp [h, h2, List.lookup, hne, ih]

theorem lookup_insertKV_ne (k v k2 : String) (l : List (String × String)) (hne : k2 ≠ k) :
    (insertKV k v l).lookup k2 = l.lookup k2 := by
  have hb : (k2 == k) = false := by simpa using hne
  induction l with
  | nil => simp [insertKV, List.lookup, hb]
  | cons hd tl ih =>
    obtain ⟨k', v'⟩ := hd
    unfold insertKV
    by_cases h : k = k'
    · subst h
      simp [List.lookup, hb]
    · by_cases h2 : keyLt k k' = true
      · simp [h, h2, List.lookup, hb]
      · simp only [h, h2, if_false]
        simp only [List.lookup]
        rw [ih]

theorem insertKV_insertKV (k v1 v2 : String) (l : List (String × String)) :
    insertKV k v2 (insertKV k v1 l) = insertKV k v2 l := by
  induction l with
  | nil => simp [insertKV]
  | cons hd tl ih =>
    obtain ⟨k', v'⟩ := hd
    by_cases h : k = k'
    · simp [insertKV, h]
    · by_cases h2 : keyLt k k' = true
      · simp [insertKV, h, h2]
      · simp [insertKV, h, h2, ih]

theorem mem_insertKV_self (k v : String) (l : List (String × String)) :
    (k, v) ∈ insertKV k v l := by
  induction l with
  | nil => simp [insertKV]
  | cons hd tl ih =>
    obtain ⟨k', v'⟩ := hd
    by_cases h : k = k'
    · simp [insertKV, h]
    · by_cases h2 : keyLt k k' = true
      · simp [insertKV, h, h2]
      · simp [insertKV, h, h2, ih]

theorem mem_of_mem_insertKV (k v : String) (l : List (String × String)) (e : String × String)
    (he : e ∈ insertKV k v l) : e = (k, v) ∨ e ∈ l := by
  induction l with
  | nil => simpa [insertKV] using he
  | cons hd tl ih =>
    obtain ⟨k', v'⟩ := hd
    by_cases h : k = k'
    · simp [insertKV, h] at he
      rcases he with he | he
      · left; rw [he, h]
      · right; exact List.mem_cons_of_mem _ he
    · by_cases h2 : keyLt k k' = true
      · simp [insertKV, h, h2] at he
        rcases he with he | he | he
        · left; exact he
        · right; rw [he]; exact List.mem_cons_self _ _
        · right; exact List.mem_cons_of_mem _ he
      · simp [insertKV, h, h2] at he
        rcases he with he | he
        · right; rw [he]; exact List.mem_cons_self _ _
        · rcases ih he with h3 | h3
          · left; exact h3
          · right; exact List.mem_cons_of_mem _ h3


theorem lookup_applyBatch_of_not_mem (batch : Batch) (l : List (String × String)) (k : String)
    (hk : k ∉ batch.map Prod.fst) : (applyBatch batch l).lookup k = l.lookup k := by
  induction batch generalizing l with
  | nil => rfl
  | cons hd tl ih =>
    simp only [List.map_cons, List.mem_cons, not_or] at hk
    show (applyBatch tl (insertKV hd.1 hd.2 l)).lookup k = l.lookup k
    rw [ih _ hk.2, lookup_insertKV_ne _ _ _ _ hk.1]

theorem lookup_applyBatch_of_mem (batch : Batch) (l : List (String × String)) (k v : String)
    (hnodup : (batch.map Prod.fst).Nodup) (hmem : (k, v) ∈ batch) :
    (applyBatch batch l).lookup k = some v := by
  induction batch generalizing l with
  | nil => cases hmem
  | cons hd tl ih =>
    simp only [List.map_cons, List.nodup_cons] at hnodup
    show (applyBatch tl (insertKV hd.1 hd.2 l)).lookup k = some v
    rcases List.mem_cons.1 hmem with h | h
    · subst h
      rw [lookup_applyBatch_of_not_mem _ _ _ hnodup.1, lookup_insertKV_self]
    · exact ih _ hnodup.2 h

/-! ## Lemmas on the substrate -/

theorem DB.Put_fst (db : DB) (key value : String) :
    (db.Put key value).1 = if db.readOnly then some DBErr.readOnly else none := by
  unfold DB.Put; split <;> rfl

theorem DB.Get_Put_self (db : DB) (key value : String) (h : (db.Put key value).1 = none) :
    (db.Put key value).2.Get key = .ok value := by
  unfold DB.Put at h ⊢
  by_cases hro : db.readOnly = true
  · simp [hro] at h
  · simp [hro, DB.Get, lookup_insertKV_self]

/-! ## Envelope store: lemmas -/

/-- What `Put` does on a document the library serializes. -/
theorem Client.Put_of_serializes (L : GoLib Doc) (c : Client) (key : String) (d : Doc)
    (now b : String) (hser : L.Serializes c.node d now b) :
    ∃ eb, L.marshalEntry (mkEntry L c.node b now) = some eb ∧
      L.unmarshalEntry eb = some (mkEntry L c.node b now) ∧
      c.Put L key d now =
        ((c.db.Put key eb).1.map Err.substrate, { c with db := (c.db.Put key eb).2 }) := by
  obtain ⟨hm, he⟩ := hser
  cases heb : L.marshalEntry (mkEntry L c.node b now) with
  | none => simp [heb] at he
  | some eb =>
    refine ⟨eb, rfl, ?_, ?_⟩
    · simpa [heb] using he
    · simp [Client.Put, hm, heb]

/-- After a successful `Put` of a serializable document, `Get` returns the
envelope `Put` built. -/
theorem Client.Get_Put (L : GoLib Doc) (c : Client) (key : String) (d : Doc)
    (now b : String) (hser : L.Serializes c.node d now b)
    (hput : (c.Put L key d now).1 = none) :
    (c.Put L key d now).2.Get L key = .ok (mkEntry L c.node b now) := by
  obtain ⟨eb, _, hun, hP⟩ := Client.Put_of_serializes L c key d now b hser
  rw [hP] at hput ⊢
  have hdb : (c.db.Put key eb).1 = none := by
    cases h : (c.db.Put key eb).1 with
    | none => rfl
    | some e => simp [h] at hput
  simp [Client.Get, DB.Get_Put_self c.db key eb hdb, hun]

/-- The outcome of `VerifyIntegrity` when `Get` returns an envelope. -/
theorem Client.VerifyIntegrity_of_Get (L : GoLib Doc) (c : Client) (key : String) (e : Entry)
    (hget : c.Get L key = .ok e) :
    c.VerifyIntegrity L key =
      if calculateHash L e.Data ≠ e.Hash then
        (false, some (Err.hashMismatch e.Hash (calculateHash L e.Data)))
      else (true, none) := by
  simp [Client.VerifyIntegrity, hget]

/-! ## Envelope store: theorems -/

set_option maxRecDepth 100000

/-- C1. Round trip: when `Put(k, d)` succeeds on a document `d` that
`encoding/json` serializes as `b` and reads back, `Get(k)` succeeds and the
`Data` payload of its envelope is `b`, which deserializes to `d`. -/
theorem Put_Get_roundtrip (L : GoLib Doc) (c : Client) (key : String) (d : Doc)
    (now b : String) (hser : L.Serializes c.node d now b) (hdoc : L.unmarshal b = some d)
    (hput : (c.Put L key d now).1 = none) :
    ∃ e, (c.Put L key d now).2.Get L key = .ok e ∧ e.Data = b ∧
      L.unmarshal e.Data = some d :=
  ⟨mkEntry L c.node b now, Client.Get_Put L c key d now b hser hput, rfl, hdoc⟩

/-- Witness of C1: `{amount: 1000}` written at `order:00001` of the empty
store of `node1`. -/
theorem Put_Get_roundtrip_witness :
    exLib.Serializes exClient.node .amount1000 "2024-01-01T00:00:00Z"
        "\x7b\"amount\":1000\x7d" ∧
      ∃ e, (exClient.Put exLib "order:00001" .amount1000 "2024-01-01T00:00:00Z").2.Get exLib
          "order:00001" = .ok e ∧ e.Data = "\x7b\"amount\":1000\x7d" ∧
        exLib.unmarshal e.Data = some .amount1000 :=
  ⟨by unfold GoLib.Serializes; decide,
   Put_Get_roundtrip exLib exClient "order:00001" .amount1000 "2024-01-01T00:00:00Z"
    "\x7b\"amount\":1000\x7d" (by unfold GoLib.Serializes; decide) (by decide) (by decide)⟩

/-- C2. Integrity: right after a successful `Put(k, d)` of a serializable
document, `VerifyIntegrity(k)` returns `true` and no error, and the stored
envelope's `Hash` is the hex SHA-256 of its `Data`. -/
theorem Put_VerifyIntegrity (L : GoLib Doc) (c : Client) (key : String) (d : Doc)
    (now b : String) (hser : L.Serializes c.node d now b)
    (hput : (c.Put L key d now).1 = none) :
    (c.Put L key d now).2.VerifyIntegrity L key = (true, none) ∧
      ∃ e, (c.Put L key d now).2.Get L key = .ok e ∧ e.Hash = L.sha256hex e.Data := by
  have hget := Client.Get_Put L c key d now b hser hput
  refine ⟨?_, mkEntry L c.node b now, hget, rfl⟩
  rw [Client.VerifyIntegrity_of_Get L _ key _ hget]
  simp [mkEntry]

/-- Witness of C2: `{amount: 1000}` written at `order:00001` of the empty
store of `node1`. -/
theorem Put_VerifyIntegrity_witness :
    (exClient.Put exLib "order:00001" .amount1000 "2024-01-01T00:00:00Z").1 = none ∧
      (exClient.Put exLib "order:00001" .amount1000 "2024-01-01T00:00:00Z").2.VerifyIntegrity
        exLib "order:00001" = (true, none) :=
  ⟨by decide,
   (Put_VerifyIntegrity exLib exClient "order:00001" .amount1000 "2024-01-01T00:00:00Z"
    "\x7b\"amount\":1000\x7d" (by unfold GoLib.Serializes; decide) (by decide)).1⟩

/-- C3, as the code has it: when the stored envelope parses and its `Hash`
differs from the recomputed digest of its `Data`, `VerifyIntegrity` returns
`false` together with the error "hash mismatch" carrying both digests. -/
theorem VerifyIntegrity_mismatch (L : GoLib Doc) (c : Client) (key : String) (e : Entry)
    (hget : c.Get L key = .ok e) (hne : calculateHash L e.Data ≠ e.Hash) :
    c.VerifyIntegrity L key =
      (false, some (Err.hashMismatch e.Hash (calculateHash L e.Data))) := by
  rw [Client.VerifyIntegrity_of_Get L c key e hget]
  simp [hne]

/-- Witness of C3 as amended: the tampered envelope at `order:00001`. -/
theorem VerifyIntegrity_mismatch_witness :
    exTampered.VerifyIntegrity exLib "order:00001" =
      (false, some (Err.hashMismatch
        "612612d208fb618eb2b007d2a7f8d7a1cfb511532389298f1cc33322c3094bcc"
        "88740ad3f868bf62e628821a4c3f2fbcf870799e21a6c2ebaa4bd01eed0863c3")) :=
  VerifyIntegrity_mismatch exLib exTampered "order:00001"
    { Data := "\x7b\"amount\":9999\x7d",
      Hash := "612612d208fb618eb2b007d2a7f8d7a1cfb511532389298f1cc33322c3094bcc",
      Timestamp := "2024-01-01T00:00:00Z", Node := "leveldb-stores/node1" }
    (by decide) (by decide)

/-- Counterexample to C3 as stated: the envelope stored at `order:00001`
parses and its digest does not match its payload, yet `VerifyIntegrity`
does not return `false` without an error. -/
theorem VerifyIntegrity_mismatch_counterexample :
    (∃ e, exTampered.Get exLib "order:00001" = .ok e ∧
        calculateHash exLib e.Data ≠ e.Hash) ∧
      exTampered.VerifyIntegrity exLib "order:00001" ≠ (false, none) := by
  refine ⟨⟨_, (by decide : exTampered.Get exLib "order:00001" = .ok
    { Data := "\x7b\"amount\":9999\x7d",
      Hash := "612612d208fb618eb2b007d2a7f8d7a1cfb511532389298f1cc33322c3094bcc",
      Timestamp := "2024-01-01T00:00:00Z", Node := "leveldb-stores/node1" }), by decide⟩,
    by decide⟩


theorem lookup_eq_none_of_not_mem (l : List (String × String)) (k : String)
    (hk : k ∉ l.map Prod.fst) : l.lookup k = none := by
  induction l with
  | nil => rfl
  | cons hd tl ih =>
    obtain ⟨k', v'⟩ := hd
    simp only [List.map_cons, List.mem_cons, not_or] at hk
    have hb : (k == k') = false := by simpa using hk.1
    simp [List.lookup, hb, ih hk.2]

theorem lookup_mem_of_mem_keys (l : List (String × String)) (k : String)
    (hk : k ∈ l.map Prod.fst) : ∃ v, (k, v) ∈ l ∧ l.lookup k = some v := by
  induction l with
  | nil => cases hk
  | cons hd tl ih =>
    obtain ⟨k', v'⟩ := hd
    by_cases h : k = k'
    · subst h
      exact ⟨v', List.mem_cons_self _ _, by simp [List.lookup]⟩
    · have hk' : k ∈ tl.map Prod.fst := by
        simp only [List.map_cons, List.mem_cons] at hk
        rcases hk with hk | hk
        · exact absurd hk h
        · exact hk
      obtain ⟨v, hv, hl⟩ := ih hk'
      have hb : (k == k') = false := by simpa using h
      exact ⟨v, List.mem_cons_of_mem _ hv, by simp [List.lookup, hb, hl]⟩

theorem Client.Put_node (L : GoLib Doc) (c : Client) (key : String) (d : Doc) (now : String) :
    (c.Put L key d now).2.node = c.node := by
  unfold Client.Put
  cases L.marshal d with
  | none => rfl
  | some b =>
    simp only []
    cases L.marshalEntry (mkEntry L c.node b now) with
    | none => rfl
    | some eb => rfl

theorem Client.readOnly_of_Put_ok (L : GoLib Doc) (c : Client) (key : String) (d : Doc)
    (now : String) (hput : (c.Put L key d now).1 = none) : c.db.readOnly = false := by
  unfold Client.Put at hput
  cases hm : L.marshal d with
  | none => simp [hm] at hput
  | some b =>
    cases he : L.marshalEntry (mkEntry L c.node b now) with
    | none => simp [hm, he] at hput
    | some eb =>
      by_cases h : c.db.readOnly = true
      · simp [hm, he, DB.Put, h] at hput
      · simpa using h

/-- C4. Error taxonomy of `Get`: an absent key gives the error "clé non
trouvée"; a present key whose stored bytes are not an envelope gives the
error "erreur désérialisation"; a present key whose bytes parse gives the
envelope; and the two errors are different values. -/
theorem Get_error_taxonomy (L : GoLib Doc) (c : Client) (key : String) :
    (key ∉ c.db.entries.map Prod.fst → c.Get L key = .error (.notFound .notFound)) ∧
    (key ∈ c.db.entries.map Prod.fst →
      ∃ v, (key, v) ∈ c.db.entries ∧ c.db.Get key = .ok v ∧
        (L.unmarshalEntry v = none → c.Get L key = .error .deserialization) ∧
        (∀ e, L.unmarshalEntry v = some e → c.Get L key = .ok e)) ∧
    (∀ cause, Err.notFound cause ≠ Err.deserialization) := by
  refine ⟨?_, ?_, ?_⟩
  · intro hk
    simp [Client.Get, DB.Get, lookup_eq_none_of_not_mem _ _ hk]
  · intro hk
    obtain ⟨v, hv, hl⟩ := lookup_mem_of_mem_keys _ _ hk
    refine ⟨v, hv, by simp [DB.Get, hl], ?_, ?_⟩
    · intro hu
      simp [Client.Get, DB.Get, hl, hu]
    · intro e hu
      simp [Client.Get, DB.Get, hl, hu]
  · intro cause h
    cases h

/-- Witness of C4: in the tampered store `order:00001` is present and
parses, `order:00002` is absent. -/
theorem Get_error_taxonomy_witness :
    exTampered.Get exLib "order:00002" = .error (.notFound .notFound) ∧
      ∃ v, ("order:00001", v) ∈ exTampered.db.entries ∧
        exTampered.db.Get "order:00001" = .ok v :=
  ⟨(Get_error_taxonomy exLib exTampered "order:00002").1 (by decide),
   by
    obtain ⟨v, h1, h2, _⟩ := (Get_error_taxonomy exLib exTampered "order:00001").2.1 (by decide)
    exact ⟨v, h1, h2⟩⟩

/-- C5. Last write wins: after a successful `Put(k, d1)`, a `Put(k, d2)` of
a serializable document succeeds, the store it leaves is the one `Put(k, d2)`
alone would have left (nothing of `d1` remains), and `Get(k)` returns the
envelope of `d2`: its payload, its digest.  Whether `Put` fails does not
depend on the entries already stored. -/
theorem Put_last_write_wins (L : GoLib Doc) (c : Client) (key : String) (d1 d2 : Doc)
    (t1 t2 b2 : String) (hput1 : (c.Put L key d1 t1).1 = none)
    (hser2 : L.Serializes c.node d2 t2 b2) :
    ((c.Put L key d1 t1).2.Put L key d2 t2).1 = none ∧
    ((c.Put L key d1 t1).2.Put L key d2 t2).2 = (c.Put L key d2 t2).2 ∧
    ((c.Put L key d1 t1).2.Put L key d2 t2).2.Get L key =
      .ok { Data := b2, Hash := L.sha256hex b2, Timestamp := t2, Node := c.node } ∧
    (∀ es, ({ c with db := { c.db with entries := es } }.Put L key d2 t2).1 =
      (c.Put L key d2 t2).1) := by
  have hro : c.db.readOnly = false := Client.readOnly_of_Put_ok L c key d1 t1 hput1
  have hnode : (c.Put L key d1 t1).2.node = c.node := Client.Put_node L c key d1 t1
  have hsucc : ((c.Put L key d1 t1).2.Put L key d2 t2).1 = none ∧
      ((c.Put L key d1 t1).2.Put L key d2 t2).2 = (c.Put L key d2 t2).2 := by
    obtain ⟨hm2, he2⟩ := hser2
    cases heb : L.marshalEntry (mkEntry L c.node b2 t2) with
    | none => simp [heb] at he2
    | some eb2 =>
      unfold Client.Put at hput1 ⊢
      cases hm1 : L.marshal d1 with
      | none => simp [hm1] at hput1
      | some b1 =>
        cases he1 : L.marshalEntry (mkEntry L c.node b1 t1) with
        | none => simp [hm1, he1] at hput1
        | some eb1 =>
          simp [hm1, he1, hm2, heb, DB.Put, hro, insertKV_insertKV]
  refine ⟨hsucc.1, hsucc.2, ?_, ?_⟩
  · have hs : L.Serializes (c.Put L key d1 t1).2.node d2 t2 b2 := by rw [hnode]; exact hser2
    have := Client.Get_Put L (c.Put L key d1 t1).2 key d2 t2 b2 hs hsucc.1
    rw [this, hnode]
    rfl
  · intro es
    unfold Client.Put
    cases hm2 : L.marshal d2 with
    | none => rfl
    | some b =>
      simp only []
      cases L.marshalEntry (mkEntry L c.node b t2) with
      | none => rfl
      | some eb => simp [DB.Put]; split <;> rfl

/-- Witness of C5: `{amount: 1000}` then `{amount: 2000}` written at
`order:00001` of the empty store of `node1`. -/
theorem Put_last_write_wins_witness :
    (exClient.Put exLib "order:00001" .amount1000 "2024-01-01T00:00:00Z").1 = none ∧
    ((exClient.Put exLib "order:00001" .amount1000 "2024-01-01T00:00:00Z").2.Put exLib
        "order:00001" .amount2000 "2024-01-02T00:00:00Z").2.Get exLib "order:00001" =
      .ok { Data := "\x7b\"amount\":2000\x7d",
            Hash := exLib.sha256hex "\x7b\"amount\":2000\x7d",
            Timestamp := "2024-01-02T00:00:00Z", Node := exClient.node } :=
  ⟨by decide,
   (Put_last_write_wins exLib exClient "order:00001" .amount1000 .amount2000
    "2024-01-01T00:00:00Z" "2024-01-02T00:00:00Z" "\x7b\"amount\":2000\x7d" (by decide)
    (by unfold GoLib.Serializes; decide)).2.2.1⟩


/-! ## Batch insertion -/

/-- The bytes `BatchInsert` records for one entry whose document serializes. -/
theorem batchLoop_ok (L : GoLib Doc) (node : String) (now : String → String)
    (entries : List (String × Doc)) (acc batch : Batch)
    (h : batchLoop L node now entries acc = .ok batch) :
    (∀ kd ∈ entries, ∃ b, L.marshal kd.2 = some b ∧
      (kd.1, (L.marshalEntry (mkEntry L node b (now kd.1))).getD "") ∈ batch) ∧
    batch.map Prod.fst = acc.map Prod.fst ++ entries.map Prod.fst := by
  induction entries generalizing acc with
  | nil =>
    simp only [batchLoop, Except.ok.injEq] at h
    subst h
    simp
  | cons hd tl ih =>
    obtain ⟨key, data⟩ := hd
    unfold batchLoop at h
    cases hm : L.marshal data with
    | none => simp [hm] at h
    | some b =>
      simp only [hm] at h
      obtain ⟨h1, h2⟩ := ih _ h
      refine ⟨?_, ?_⟩
      · intro kd hkd
        rcases List.mem_cons.1 hkd with hkd | hkd
        · subst hkd
          refine ⟨b, hm, ?_⟩
          have hmem : (key, (L.marshalEntry (mkEntry L node b (now key))).getD "") ∈
              (acc ++ [(key, (L.marshalEntry (mkEntry L node b (now key))).getD "")]) := by
            simp
          have hk : ∀ (x : String × String) (a : Batch) (t : List (String × Doc)) (r : Batch),
              batchLoop L node now t a = .ok r → x ∈ a → x ∈ r := by
            intro x a t
            induction t generalizing a with
            | nil =>
              intro r hr hx
              simp only [batchLoop, Except.ok.injEq] at hr
              subst hr
              exact hx
            | cons hd2 tl2 ih2 =>
              intro r hr hx
              obtain ⟨k2, d2⟩ := hd2
              unfold batchLoop at hr
              cases hm2 : L.marshal d2 with
              | none => simp [hm2] at hr
              | some b2 =>
                simp only [hm2] at hr
                exact ih2 _ r hr (List.mem_append_left _ hx)
          exact hk _ _ _ _ h hmem
        · exact h1 kd hkd
      · rw [h2]
        simp

/-- One unserializable document makes the loop of `BatchInsert` fail. -/
theorem batchLoop_error (L : GoLib Doc) (node : String) (now : String → String)
    (entries : List (String × Doc)) (acc : Batch)
    (h : ∃ kd ∈ entries, L.marshal kd.2 = none) :
    ∃ kd ∈ entries, L.marshal kd.2 = none ∧
      batchLoop L node now entries acc = .error (.serializationKey kd.1) := by
  induction entries generalizing acc with
  | nil =>
    obtain ⟨kd, hkd, _⟩ := h
    cases hkd
  | cons hd tl ih =>
    obtain ⟨key, data⟩ := hd
    cases hm : L.marshal data with
    | none =>
      exact ⟨(key, data), List.mem_cons_self _ _, hm, by simp [batchLoop, hm]⟩
    | some b =>
      have h' : ∃ kd ∈ tl, L.marshal kd.2 = none := by
        obtain ⟨kd, hkd, hn⟩ := h
        rcases List.mem_cons.1 hkd with hkd | hkd
        · subst hkd
          simp [hm] at hn
        · exact ⟨kd, hkd, hn⟩
      obtain ⟨kd, hkd, hn, hl⟩ := ih (acc ++ [(key, (L.marshalEntry (mkEntry L node b (now key))).getD "")]) h'
      exact ⟨kd, List.mem_cons_of_mem _ hkd, hn, by simp [batchLoop, hm, hl]⟩

/-- C6. Batch insertion: when `BatchInsert(entries)` returns no error on a
mapping (distinct keys) of documents that `encoding/json` serializes and
reads back, then for every key of the mapping `Get` succeeds, its payload
deserializes to the document of that key and `VerifyIntegrity` is `true`
without error; a key outside the mapping reads as before the call. -/
theorem BatchInsert_readable (L : GoLib Doc) (c : Client) (entries : List (String × Doc))
    (now : String → String) (hnodup : (entries.map Prod.fst).Nodup)
    (hser : ∀ kd ∈ entries, ∃ b, L.Serializes c.node kd.2 (now kd.1) b ∧
      L.unmarshal b = some kd.2)
    (hok : (c.BatchInsert L entries now).1 = none) :
    (∀ kd ∈ entries, ∃ e, (c.BatchInsert L entries now).2.Get L kd.1 = .ok e ∧
      L.unmarshal e.Data = some kd.2 ∧
      (c.BatchInsert L entries now).2.VerifyIntegrity L kd.1 = (true, none)) ∧
    (∀ k, k ∉ entries.map Prod.fst →
      (c.BatchInsert L entries now).2.db.Get k = c.db.Get k) := by
  unfold Client.BatchInsert at hok ⊢
  cases hb : batchLoop L c.node now entries [] with
  | error e => simp [hb] at hok
  | ok batch =>
    simp only [hb] at hok ⊢
    have hro : c.db.readOnly = false := by
      by_cases h : c.db.readOnly = true
      · simp [DB.Write, h] at hok
      · simpa using h
    obtain ⟨hmem, hkeys⟩ := batchLoop_ok L c.node now entries [] batch hb
    simp only [List.map_nil, List.nil_append] at hkeys
    have hnd : (batch.map Prod.fst).Nodup := by rw [hkeys]; exact hnodup
    refine ⟨?_, ?_⟩
    · intro kd hkd
      obtain ⟨b, ⟨hm, hrt⟩, hun⟩ := hser kd hkd
      obtain ⟨b', hm', hin⟩ := hmem kd hkd
      have hbb : b' = b := by rw [hm] at hm'; exact (Option.some.inj hm').symm
      subst hbb
      cases heb : L.marshalEntry (mkEntry L c.node b' (now kd.1)) with
      | none => simp [heb] at hrt
      | some eb =>
        have hue : L.unmarshalEntry eb = some (mkEntry L c.node b' (now kd.1)) := by
          simpa [heb] using hrt
        rw [heb] at hin
        have hlook := lookup_applyBatch_of_mem batch c.db.entries kd.1 eb hnd hin
        have hget : Client.Get L { c with db := (c.db.Write batch).2 } kd.1 =
            .ok (mkEntry L c.node b' (now kd.1)) := by
          simp [Client.Get, DB.Get, DB.Write, hro, hlook, hue]
        refine ⟨_, hget, hun, ?_⟩
        rw [Client.VerifyIntegrity_of_Get L _ _ _ hget]
        simp [mkEntry]
    · intro k hk
      have hk' : k ∉ batch.map Prod.fst := by rw [hkeys]; exact hk
      simp [DB.Get, DB.Write, hro, lookup_applyBatch_of_not_mem batch c.db.entries k hk']

/-- Witness of C6: the two orders inserted as one batch into the empty store
of `node1`. -/
theorem BatchInsert_readable_witness :
    (exClient.BatchInsert exLib [("order:00001", .amount1000), ("order:00002", .amount2000)]
        (fun _ => "2024-01-01T00:00:00Z")).1 = none ∧
      ∃ e, (exClient.BatchInsert exLib
          [("order:00001", .amount1000), ("order:00002", .amount2000)]
          (fun _ => "2024-01-01T00:00:00Z")).2.Get exLib "order:00002" = .ok e ∧
        exLib.unmarshal e.Data = some .amount2000 :=
  ⟨by decide,
   by
    obtain ⟨e, h1, h2, _⟩ := (BatchInsert_readable exLib exClient
      [("order:00001", .amount1000), ("order:00002", .amount2000)]
      (fun _ => "2024-01-01T00:00:00Z") (by decide)
      (by
        intro kd hkd
        simp only [List.mem_cons, List.mem_singleton, List.not_mem_nil, or_false] at hkd
        rcases hkd with h | h
        · subst h
          exact ⟨"\x7b\"amount\":1000\x7d", by unfold GoLib.Serializes; decide, by decide⟩
        · subst h
          exact ⟨"\x7b\"amount\":2000\x7d", by unfold GoLib.Serializes; decide, by decide⟩)
      (by decide)).1 ("order:00002", .amount2000) (by simp)
    exact ⟨e, h1, h2⟩⟩

/-- C7. All or error: when one document of the mapping cannot be serialized,
`BatchInsert` returns the serialization error of such a document and the
store is exactly as it was before the call. -/
theorem BatchInsert_serialization_error (L : GoLib Doc) (c : Client)
    (entries : List (String × Doc)) (now : String → String)
    (hbad : ∃ kd ∈ entries, L.marshal kd.2 = none) :
    (∃ kd ∈ entries, L.marshal kd.2 = none ∧
      (c.BatchInsert L entries now).1 = some (.serializationKey kd.1)) ∧
    (c.BatchInsert L entries now).2 = c := by
  obtain ⟨kd, hkd, hn, hl⟩ := batchLoop_error L c.node now entries [] hbad
  refine ⟨⟨kd, hkd, hn, ?_⟩, ?_⟩
  · simp [Client.BatchInsert, hl]
  · simp [Client.BatchInsert, hl]

/-- Witness of C7: a batch of one order and one channel. -/
theorem BatchInsert_serialization_error_witness :
    (exClient.BatchInsert exLib [("order:00001", .amount1000), ("order:00002", .channel)]
        (fun _ => "2024-01-01T00:00:00Z")).2 = exClient :=
  (BatchInsert_serialization_error exLib exClient
    [("order:00001", .amount1000), ("order:00002", .channel)]
    (fun _ => "2024-01-01T00:00:00Z")
    ⟨("order:00002", .channel), by simp, rfl⟩).2


/-! ## Counting -/

/-- `Count` is the number of entries whose key passes the test of its loop. -/
theorem Client.Count_eq (c : Client) :
    c.Count = ((c.db.entries.filter (fun e => countsKey e.1)).length, none) := by
  have h : ∀ (l : List (String × String)) (n : Nat),
      l.foldl (fun n e => if countsKey e.1 then n + 1 else n) n =
        n + (l.filter (fun e => countsKey e.1)).length := by
    intro l
    induction l with
    | nil => intro n; rfl
    | cons hd tl ih =>
      intro n
      by_cases hc : countsKey hd.1 = true
      · simp [List.foldl, List.filter, hc, ih]; omega
      · simp [List.foldl, List.filter, hc, ih]
  simp [Client.Count, DB.NewIterator, h]

/-- C8 at the failing input: the store whose one key is the empty key.  The
empty key is not a system key and `exportNode` would export it, yet `Count`
returns 0. -/
theorem Count_skips_empty_key :
    isSystemKey "" = false ∧
      ((([("", exTamperedBytes)] : List (String × String)).filter
        (fun e => !isSystemKey e.1)).length = 1) ∧
      Client.Count { db := { entries := [("", exTamperedBytes)], readOnly := false },
                     node := "leveldb-stores/node1" } = (0, none) := by
  decide


/-! ## Index engine: lemmas -/

theorem keyLt_irrefl (a : String) : keyLt a a = false := by
  simp [keyLt]

theorem keyLt_asymm (a b : String) (h : keyLt a b = true) : keyLt b a = false := by
  simp only [keyLt, decide_eq_true_eq, decide_eq_false_iff_not] at h ⊢
  exact lt_asymm h

theorem hasPrefix_append (p s : String) : hasPrefix (p ++ s) p = true := by
  simp [hasPrefix, String.data_append]

theorem hasPrefix_append_append (p a b : String) :
    hasPrefix (p ++ a) (p ++ b) = hasPrefix a b := by
  apply Bool.eq_iff_iff.2
  simp [hasPrefix, String.data_append, List.prefix_append_right_inj]

theorem hasPrefix_trans (s p q : String) (h1 : hasPrefix s p = true)
    (h2 : hasPrefix p q = true) : hasPrefix s q = true := by
  simp only [hasPrefix, List.isPrefixOf_iff_prefix] at h1 h2 ⊢
  exact h2.trans h1

theorem indexKey_eq (rt f n pk : String) : indexKey rt f n pk = indexPrefix rt f n ++ pk := rfl

theorem indexPrefix_eq (rt f n : String) :
    indexPrefix rt f n = fieldPrefix rt f ++ (n ++ ":") := by
  simp [indexPrefix, fieldPrefix, String.append_assoc]

theorem indexKey_eq_field (rt f n pk : String) :
    indexKey rt f n pk = fieldPrefix rt f ++ (n ++ ":" ++ pk) := by
  simp [indexKey, fieldPrefix, String.append_assoc]

/-- Over items that all start with the range, the loop of `SearchByIndex`
never breaks: it appends every value. -/
theorem scanLoop_of_all (pfx : String) (items : List (String × String)) (acc : List String)
    (h : ∀ e ∈ items, hasPrefix e.1 pfx = true) :
    scanLoop pfx items acc = acc ++ items.map Prod.snd := by
  induction items generalizing acc with
  | nil => simp [scanLoop]
  | cons hd tl ih =>
    obtain ⟨k, v⟩ := hd
    have hk : hasPrefix k pfx = true := h (k, v) (List.mem_cons_self _ _)
    have ht : ∀ e ∈ tl, hasPrefix e.1 pfx = true := fun e he => h e (List.mem_cons_of_mem _ he)
    simp [scanLoop, hk, ih _ ht]

/-- `SearchByIndex` returns the values of the entries under the range, in
store order. -/
theorem Indexer.SearchByIndex_eq (U : Char → Char) (idx : Indexer) (rt f v : String) :
    idx.SearchByIndex U rt f v =
      .ok ((idx.db.entries.filter
        (fun e => hasPrefix e.1 (indexPrefix rt f (normalize U v)))).map Prod.snd) := by
  unfold Indexer.SearchByIndex DB.NewIterator
  simp only []
  rw [scanLoop_of_all]
  · simp
  · intro e he
    exact (List.mem_filter.1 he).2

theorem eraseKV_of_not_mem (k : String) (l : List (String × String))
    (h : k ∉ l.map Prod.fst) : eraseKV k l = l := by
  unfold eraseKV
  apply List.filter_eq_self.2
  intro e he
  have : e.1 ≠ k := fun hek => h (hek ▸ List.mem_map_of_mem Prod.fst he)
  simpa using this

/-- On ascending keys, an upsert is the new pair put among the other pairs. -/
theorem insertKV_perm (k v : String) (l : List (String × String))
    (hs : (l.map Prod.fst).Pairwise (fun a b => keyLt a b = true)) :
    (insertKV k v l).Perm ((k, v) :: eraseKV k l) := by
  induction l with
  | nil => simp [insertKV, eraseKV]
  | cons hd tl ih =>
    obtain ⟨k', v'⟩ := hd
    simp only [List.map_cons, List.pairwise_cons] at hs
    obtain ⟨hhd, htl⟩ := hs
    by_cases h : k = k'
    · subst h
      have hnot : k ∉ tl.map Prod.fst := by
        intro hmem
        have := hhd k hmem
        rw [keyLt_irrefl] at this
        cases this
      have he : eraseKV k ((k, v') :: tl) = tl := by
        have := eraseKV_of_not_mem k tl hnot
        simpa [eraseKV] using this
      simp [insertKV, he]
    · by_cases h2 : keyLt k k' = true
      · have hnot : k ∉ ((k', v') :: tl).map Prod.fst := by
          intro hmem
          simp only [List.map_cons, List.mem_cons] at hmem
          rcases hmem with hmem | hmem
          · exact h hmem
          · have h3 := hhd k hmem
            rw [keyLt_asymm _ _ h2] at h3
            cases h3
        rw [eraseKV_of_not_mem k _ hnot]
        simp [insertKV, h, h2]
      · have he : eraseKV k ((k', v') :: tl) = (k', v') :: eraseKV k tl := by
          have hne : k' ≠ k := fun e => h e.symm
          simp [eraseKV, List.filter, hne]
        rw [he]
        simp only [insertKV, h, h2, if_false]
        exact ((ih htl).cons (k', v')).trans (List.Perm.swap _ _ _)


theorem keyLt_trans (a b c : String) (h1 : keyLt a b = true) (h2 : keyLt b c = true) :
    keyLt a c = true := by
  simp only [keyLt, decide_eq_true_eq] at h1 h2 ⊢
  exact lt_trans h1 h2

theorem keyLt_total (a b : String) (hne : a ≠ b) (h : keyLt a b = false) :
    keyLt b a = true := by
  simp only [keyLt, decide_eq_true_eq, decide_eq_false_iff_not] at h ⊢
  rcases lt_trichotomy a.data b.data with h1 | h1 | h1
  · exact absurd h1 h
  · exact absurd (String.ext h1) hne
  · exact h1

/-- An upsert keeps the keys strictly ascending. -/
theorem insertKV_sorted (k v : String) (l : List (String × String))
    (hs : (l.map Prod.fst).Pairwise (fun a b => keyLt a b = true)) :
    ((insertKV k v l).map Prod.fst).Pairwise (fun a b => keyLt a b = true) := by
  induction l with
  | nil => simp [insertKV]
  | cons hd tl ih =>
    obtain ⟨k', v'⟩ := hd
    simp only [List.map_cons, List.pairwise_cons] at hs
    obtain ⟨hhd, htl⟩ := hs
    by_cases h : k = k'
    · subst h
      simp only [insertKV, if_true, List.map_cons, List.pairwise_cons]
      exact ⟨hhd, htl⟩
    · by_cases h2 : keyLt k k' = true
      · simp only [insertKV, h, h2, if_true, if_false, List.map_cons, List.pairwise_cons]
        refine ⟨?_, hhd, htl⟩
        intro x hx
        rcases List.mem_cons.1 hx with hx | hx
        · rw [hx]; exact h2
        · exact keyLt_trans _ _ _ h2 (hhd x hx)
      · have h2f : keyLt k k' = false := by simpa using h2
        simp only [insertKV, h, h2f, if_false, Bool.false_eq_true, List.map_cons,
          List.pairwise_cons]
        refine ⟨?_, ih htl⟩
        intro x hx
        obtain ⟨e, he, hex⟩ := List.mem_map.1 hx
        rcases mem_of_mem_insertKV k v tl e he with h3 | h3
        · rw [← hex, h3]
          exact keyLt_total k k' h h2f
        · rw [← hex]
          exact hhd e.1 (List.mem_map_of_mem Prod.fst h3)

/-- A removal keeps the keys strictly ascending. -/
theorem eraseKV_sorted (k : String) (l : List (String × String))
    (hs : (l.map Prod.fst).Pairwise (fun a b => keyLt a b = true)) :
    ((eraseKV k l).map Prod.fst).Pairwise (fun a b => keyLt a b = true) := by
  unfold eraseKV
  exact hs.sublist ((List.filter_sublist l).map Prod.fst)

/-- A batch keeps the keys strictly ascending. -/
theorem applyBatch_sorted (batch : Batch) (l : List (String × String))
    (hs : (l.map Prod.fst).Pairwise (fun a b => keyLt a b = true)) :
    ((applyBatch batch l).map Prod.fst).Pairwise (fun a b => keyLt a b = true) := by
  induction batch generalizing l with
  | nil => exact hs
  | cons hd tl ih => exact ih _ (insertKV_sorted hd.1 hd.2 l hs)

/-- Every write of the engine keeps a store well formed. -/
theorem DB.WF_Put (db : DB) (key value : String) (h : db.WF) : (db.Put key value).2.WF := by
  unfold DB.Put
  split
  · exact h
  · exact insertKV_sorted key value db.entries h

theorem DB.WF_Delete (db : DB) (key : String) (h : db.WF) : (db.Delete key).2.WF := by
  unfold DB.Delete
  split
  · exact h
  · exact eraseKV_sorted key db.entries h

theorem DB.WF_Write (db : DB) (batch : Batch) (h : db.WF) : (db.Write batch).2.WF := by
  unfold DB.Write
  split
  · exact h
  · exact applyBatch_sorted batch db.entries h

/-- `CreateIndex` keeps a store well formed. -/
theorem Indexer.WF_CreateIndex (U : Char → Char) (idx : Indexer) (rt f v pk : String)
    (h : idx.db.WF) : (idx.CreateIndex U rt f v pk).2.db.WF :=
  DB.WF_Put idx.db _ _ h

/-! ## Index engine: theorems -/

/-- C9, as the code has it: when `CreateIndex(recordType, field, value,
primaryKey)` succeeds on a well-formed store, `SearchByIndex(recordType,
field, value)` succeeds and contains `primaryKey`; the number of times it
contains it is one plus the number of other entries the store already held
under the scanned range with the value `primaryKey`, hence exactly one when
there was none. -/
theorem CreateIndex_SearchByIndex (U : Char → Char) (idx : Indexer)
    (rt f v pk : String) (hwf : idx.db.WF)
    (hok : (idx.CreateIndex U rt f v pk).1 = none) :
    ∃ rs, (idx.CreateIndex U rt f v pk).2.SearchByIndex U rt f v = .ok rs ∧
      pk ∈ rs ∧
      rs.count pk = 1 + (idx.db.entries.filter (fun e =>
        decide (e.1 ≠ indexKey rt f (normalize U v) pk) &&
          (hasPrefix e.1 (indexPrefix rt f (normalize U v)) && e.2 == pk))).length := by
  have hro : idx.db.readOnly = false := by
    by_cases h : idx.db.readOnly = true
    · simp [Indexer.CreateIndex, DB.Put, h] at hok
    · simpa using h
  have hdb : (idx.CreateIndex U rt f v pk).2.db.entries =
      insertKV (indexKey rt f (normalize U v) pk) pk idx.db.entries := by
    simp [Indexer.CreateIndex, DB.Put, hro]
  refine ⟨_, Indexer.SearchByIndex_eq U _ rt f v, ?_, ?_⟩
  · rw [hdb]
    refine List.mem_map.2 ⟨(indexKey rt f (normalize U v) pk, pk), ?_, rfl⟩
    refine List.mem_filter.2 ⟨mem_insertKV_self _ _ _, ?_⟩
    rw [indexKey_eq]
    exact hasPrefix_append _ _
  · rw [hdb]
    have hperm := insertKV_perm (indexKey rt f (normalize U v) pk) pk idx.db.entries hwf
    have hpfx : hasPrefix (indexKey rt f (normalize U v) pk)
        (indexPrefix rt f (normalize U v)) = true := by
      rw [indexKey_eq]; exact hasPrefix_append _ _
    rw [List.count, List.countP_map, List.countP_filter, hperm.countP_eq]
    rw [List.countP_cons_of_pos]
    · rw [eraseKV, List.countP_filter, List.countP_eq_length_filter, Nat.add_comm]
      congr 2
      apply List.filter_congr
      intro e _
      simp only [Function.comp]
      generalize (e.2 == pk) = x
      generalize hasPrefix e.1 (indexPrefix rt f (normalize U v)) = y
      generalize decide (e.1 ≠ indexKey rt f (normalize U v) pk) = z
      cases x <;> cases y <;> cases z <;> rfl
    · simp [hpfx]

/-- Witness of C9 as amended: on the empty index store the key is returned
exactly once. -/
theorem CreateIndex_SearchByIndex_witness :
    (exIndexer.CreateIndex exCaseTable "order" "region" " NA " "order:00001").1 = none ∧
      ∃ rs, (exIndexer.CreateIndex exCaseTable "order" "region" " NA "
          "order:00001").2.SearchByIndex exCaseTable "order" "region" " NA " = .ok rs ∧
        rs.count "order:00001" = 1 :=
  ⟨by decide,
   by
    obtain ⟨rs, h1, _, h3⟩ := CreateIndex_SearchByIndex exCaseTable exIndexer "order" "region"
      " NA " "order:00001" (by decide) (by decide)
    exact ⟨rs, h1, by simpa [exIndexer] using h3⟩⟩

/-- Counterexample to C9 as stated: after `CreateIndex("order", "slot",
"12:30", "order:1")` and then `CreateIndex("order", "slot", "12", "order:1")`
on the empty store, both successful, `SearchByIndex("order", "slot", "12")`
contains `order:1` twice. -/
theorem CreateIndex_SearchByIndex_counterexample :
    ((exIndexer.CreateIndex exCaseTable "order" "slot" "12:30" "order:1").2.CreateIndex
        exCaseTable "order" "slot" "12" "order:1").1 = none ∧
      ((exIndexer.CreateIndex exCaseTable "order" "slot" "12:30" "order:1").2.CreateIndex
        exCaseTable "order" "slot" "12" "order:1").2.SearchByIndex exCaseTable
          "order" "slot" "12" = .ok ["order:1", "order:1"] := by
  decide


/-- What `UpdateIndexes` does on a writable store when one indexable field
moves from one value to another. -/
theorem Indexer.UpdateIndexes_single (U : Char → Char) (idx : Indexer)
    (rt pk f v1 v2 : String) (hf : isIndexableField f = true)
    (hrw : idx.db.readOnly = false) :
    idx.UpdateIndexes U rt pk (some [(f, .str v1)]) (some [(f, .str v2)]) =
      (none, Indexer.mk (DB.mk
        (insertKV (indexKey rt f (normalize U v2) pk) pk
          (eraseKV (indexKey rt f (normalize U v1) pk) idx.db.entries))
        false)) := by
  simp [Indexer.UpdateIndexes, deleteOldLoop, createNewLoop, Indexer.CreateIndex, hf,
    DB.Delete, DB.Put, hrw, sprintV]

/-- C10, as the code has it: let `f` be an indexable field and let the store
be writable and hold no index entry for `primaryKey` on `f` other than the
one `CreateIndex(recordType, f, value1, primaryKey)` writes.  If the text
`<normalized value2>:<primaryKey>` does not start with `<normalized value1>:`
(so the normalized forms differ), then `UpdateIndexes(recordType, primaryKey,
{f: value1}, {f: value2})` succeeds, after which `SearchByIndex(recordType,
f, value1)` does not include `primaryKey` and `SearchByIndex(recordType, f,
value2)` does. -/
theorem UpdateIndexes_moves (U : Char → Char) (idx : Indexer) (rt pk f v1 v2 : String)
    (hf : isIndexableField f = true) (hrw : idx.db.readOnly = false)
    (honly : ∀ e ∈ idx.db.entries, hasPrefix e.1 (fieldPrefix rt f) = true → e.2 = pk →
      e.1 = indexKey rt f (normalize U v1) pk)
    (hnp : hasPrefix (normalize U v2 ++ ":" ++ pk) (normalize U v1 ++ ":") = false) :
    (idx.UpdateIndexes U rt pk (some [(f, .str v1)]) (some [(f, .str v2)])).1 = none ∧
    ∃ r1 r2,
      (idx.UpdateIndexes U rt pk (some [(f, .str v1)]) (some [(f, .str v2)])).2.SearchByIndex
        U rt f v1 = .ok r1 ∧ pk ∉ r1 ∧
      (idx.UpdateIndexes U rt pk (some [(f, .str v1)]) (some [(f, .str v2)])).2.SearchByIndex
        U rt f v2 = .ok r2 ∧ pk ∈ r2 := by
  rw [Indexer.UpdateIndexes_single U idx rt pk f v1 v2 hf hrw]
  refine ⟨rfl, _, _, Indexer.SearchByIndex_eq U _ rt f v1, ?_,
    Indexer.SearchByIndex_eq U _ rt f v2, ?_⟩
  · intro hmem
    obtain ⟨e, he, hepk⟩ := List.mem_map.1 hmem
    obtain ⟨hein, hepfx⟩ := List.mem_filter.1 he
    rcases mem_of_mem_insertKV _ _ _ e hein with h | h
    · rw [h] at hepfx
      simp only [] at hepfx
      rw [indexKey_eq_field, indexPrefix_eq, hasPrefix_append_append, hnp] at hepfx
      cases hepfx
    · obtain ⟨hes, hne⟩ := List.mem_filter.1 h
      have hfield : hasPrefix e.1 (fieldPrefix rt f) = true := by
        apply hasPrefix_trans _ _ _ hepfx
        rw [indexPrefix_eq]
        exact hasPrefix_append _ _
      have := honly e hes hfield hepk
      simp [this] at hne
  · refine List.mem_map.2 ⟨(indexKey rt f (normalize U v2) pk, pk), ?_, rfl⟩
    refine List.mem_filter.2 ⟨mem_insertKV_self _ _ _, ?_⟩
    rw [indexKey_eq]
    exact hasPrefix_append _ _

/-- Witness of C10 as amended: `order:00001` moves from region `NA` to
region `EU`. -/
theorem UpdateIndexes_moves_witness :
    ∃ r1 r2,
      ((exIndexer.CreateIndex exCaseTable "order" "region" "NA" "order:00001").2.UpdateIndexes
        exCaseTable "order" "order:00001" (some [("region", .str "NA")])
        (some [("region", .str "EU")])).2.SearchByIndex exCaseTable "order" "region" "NA"
          = .ok r1 ∧ "order:00001" ∉ r1 ∧
      ((exIndexer.CreateIndex exCaseTable "order" "region" "NA" "order:00001").2.UpdateIndexes
        exCaseTable "order" "order:00001" (some [("region", .str "NA")])
        (some [("region", .str "EU")])).2.SearchByIndex exCaseTable "order" "region" "EU"
          = .ok r2 ∧ "order:00001" ∈ r2 :=
  (UpdateIndexes_moves exCaseTable
    (exIndexer.CreateIndex exCaseTable "order" "region" "NA" "order:00001").2
    "order" "order:00001" "region" "NA" "EU" (by decide) (by decide) (by decide)
    (by decide)).2

/-- Counterexample to C10 as stated: `slot` is indexable, the normalized
forms of "12" and "12:30" differ, and the store holds the one entry
`CreateIndex("order", "slot", "12", "order:1")` wrote; yet after
`UpdateIndexes("order", "order:1", {slot: "12"}, {slot: "12:30"})`
`SearchByIndex("order", "slot", "12")` still returns `order:1`. -/
theorem UpdateIndexes_moves_counterexample :
    isIndexableField "slot" = true ∧
    normalize exCaseTable "12" ≠ normalize exCaseTable "12:30" ∧
    (exIndexer.CreateIndex exCaseTable "order" "slot" "12" "order:1").2.db.entries =
      [("idx:order:slot:12:order:1", "order:1")] ∧
    ((exIndexer.CreateIndex exCaseTable "order" "slot" "12" "order:1").2.UpdateIndexes
      exCaseTable "order" "order:1" (some [("slot", .str "12")])
      (some [("slot", .str "12:30")])).1 = none ∧
    ((exIndexer.CreateIndex exCaseTable "order" "slot" "12" "order:1").2.UpdateIndexes
      exCaseTable "order" "order:1" (some [("slot", .str "12")])
      (some [("slot", .str "12:30")])).2.SearchByIndex exCaseTable "order" "slot" "12" =
        .ok ["order:1"] := by
  decide


/-! ## Indexable fields -/

theorem isIndexableField_eq_false_iff (field : String) :
    isIndexableField field = false ↔
      field = "hash" ∨ field = "timestamp" ∨ field = "node" ∨ field = "data" := by
  unfold isIndexableField systemFields
  by_cases h1 : field = "hash"
  · subst h1; decide
  by_cases h2 : field = "timestamp"
  · subst h2; decide
  by_cases h3 : field = "node"
  · subst h3; decide
  by_cases h4 : field = "ledger_type"
  · subst h4; decide
  by_cases h5 : field = "data"
  · subst h5; decide
  have b1 : (field == "hash") = false := by simpa using h1
  have b2 : (field == "timestamp") = false := by simpa using h2
  have b3 : (field == "node") = false := by simpa using h3
  have b4 : (field == "ledger_type") = false := by simpa using h4
  have b5 : (field == "data") = false := by simpa using h5
  simp [List.lookup, b1, b2, b3, b4, b5, h1, h2, h3, h5]

theorem deleteOldLoop_filter (U : Char → Char) (rt pk : String) (old : List (String × Value))
    (idx : Indexer) :
    deleteOldLoop U rt pk (old.filter (fun e => isIndexableField e.1)) idx =
      deleteOldLoop U rt pk old idx := by
  induction old generalizing idx with
  | nil => rfl
  | cons hd tl ih =>
    obtain ⟨f, v⟩ := hd
    by_cases h : isIndexableField f = true
    · simp [List.filter, h, deleteOldLoop, ih]
    · simp [List.filter, h, deleteOldLoop, ih]

theorem createNewLoop_filter (U : Char → Char) (rt pk : String) (new : List (String × Value))
    (idx : Indexer) :
    createNewLoop U rt pk (new.filter (fun e => isIndexableField e.1)) idx =
      createNewLoop U rt pk new idx := by
  induction new generalizing idx with
  | nil => rfl
  | cons hd tl ih =>
    obtain ⟨f, v⟩ := hd
    by_cases h : isIndexableField f = true
    · simp only [List.filter, h, createNewLoop, Bool.not_true, Bool.false_eq_true, if_false]
      cases (idx.CreateIndex U rt f (sprintV v) pk).1 with
      | none => simp [ih]
      | some e => rfl
    · simp [List.filter, h, createNewLoop, ih]

theorem deleteLoop_filter (U : Char → Char) (rt pk : String) (data : List (String × Value))
    (idx : Indexer) :
    deleteLoop U rt pk (data.filter (fun e => isIndexableField e.1)) idx =
      deleteLoop U rt pk data idx := by
  induction data generalizing idx with
  | nil => rfl
  | cons hd tl ih =>
    obtain ⟨f, v⟩ := hd
    by_cases h : isIndexableField f = true
    · simp only [List.filter, h, deleteLoop, Bool.not_true, Bool.false_eq_true, if_false]
      cases (idx.db.Delete (indexKey rt f (normalize U (sprintV v)) pk)).1 with
      | none => simp [ih]
      | some e => rfl
    · simp [List.filter, h, deleteLoop, ih]

/-- C13, as the code has it: `isIndexableField` returns `false` exactly for
"hash", "timestamp", "node" and "data" and `true` for every other field
name, "ledger_type" included (the table lists it as not excluded);
consequently `UpdateIndexes` and `DeleteIndexes` do what they do on the maps
from which those four fields are removed: they never create or delete an
index entry for them. -/
theorem isIndexableField_denylist (U : Char → Char) (idx : Indexer) (rt pk : String)
    (old new data : Option (List (String × Value))) :
    (∀ field, isIndexableField field = false ↔
      field = "hash" ∨ field = "timestamp" ∨ field = "node" ∨ field = "data") ∧
    idx.UpdateIndexes U rt pk (old.map (List.filter (fun e => isIndexableField e.1)))
        (new.map (List.filter (fun e => isIndexableField e.1))) =
      idx.UpdateIndexes U rt pk old new ∧
    idx.DeleteIndexes U rt pk (data.map (List.filter (fun e => isIndexableField e.1))) =
      idx.DeleteIndexes U rt pk data := by
  refine ⟨isIndexableField_eq_false_iff, ?_, ?_⟩
  · cases old <;> cases new <;>
      simp [Indexer.UpdateIndexes, deleteOldLoop_filter, createNewLoop_filter]
  · cases data <;> simp [Indexer.DeleteIndexes, deleteLoop_filter]

/-- Counterexample to C13 as stated: `isIndexableField("ledger_type")` is
`true`, and `UpdateIndexes` creates an index entry for the field
`ledger_type` of an order of the loader. -/
theorem isIndexableField_denylist_counterexample :
    isIndexableField "ledger_type" = true ∧
    (exIndexer.UpdateIndexes exCaseTable "order" "order:1" none
      (some [("ledger_type", .str "commercial_transaction")])).2.db.entries =
      [("idx:order:ledger_type:commercial_transaction:order:1", "order:1")] := by
  decide


/-! ## Deletion of index entries -/

theorem lookup_eraseKV_self (k : String) (l : List (String × String)) :
    (eraseKV k l).lookup k = none := by
  apply lookup_eq_none_of_not_mem
  intro hmem
  obtain ⟨e, he, hek⟩ := List.mem_map.1 hmem
  have := (List.mem_filter.1 he).2
  simp [hek] at this

theorem lookup_eraseKV_ne (k k2 : String) (l : List (String × String)) (hne : k2 ≠ k) :
    (eraseKV k l).lookup k2 = l.lookup k2 := by
  induction l with
  | nil => rfl
  | cons hd tl ih =>
    obtain ⟨k', v'⟩ := hd
    by_cases h : k' = k
    · subst h
      have hb : (k2 == k') = false := by simpa using hne
      have he : eraseKV k' ((k', v') :: tl) = eraseKV k' tl := by simp [eraseKV, List.filter]
      rw [he, ih]
      simp [List.lookup, hb]
    · have he : eraseKV k ((k', v') :: tl) = (k', v') :: eraseKV k tl := by
        simp [eraseKV, List.filter, h]
      rw [he]
      simp only [List.lookup]
      rw [ih]

/-- What a successful run of the loop of `DeleteIndexes` leaves: an absent
key stays absent, the key of every indexable field is absent, and every
other key reads as before. -/
theorem deleteLoop_spec (U : Char → Char) (rt pk : String) (d : List (String × Value))
    (idx : Indexer) (hok : (deleteLoop U rt pk d idx).1 = none) :
    (∀ k, idx.db.entries.lookup k = none →
      (deleteLoop U rt pk d idx).2.db.entries.lookup k = none) ∧
    (∀ fv ∈ d, isIndexableField fv.1 = true →
      (deleteLoop U rt pk d idx).2.db.entries.lookup
        (indexKey rt fv.1 (normalize U (sprintV fv.2)) pk) = none) ∧
    (∀ k, (∀ fv ∈ d, isIndexableField fv.1 = true →
        k ≠ indexKey rt fv.1 (normalize U (sprintV fv.2)) pk) →
      (deleteLoop U rt pk d idx).2.db.entries.lookup k = idx.db.entries.lookup k) := by
  induction d generalizing idx with
  | nil =>
    refine ⟨fun k h => h, ?_, fun k _ => rfl⟩
    intro fv hfv
    cases hfv
  | cons hd tl ih =>
    obtain ⟨f, v⟩ := hd
    by_cases hf : isIndexableField f = true
    · by_cases hro : idx.db.readOnly = true
      · simp [deleteLoop, hf, DB.Delete, hro] at hok
      · have hro' : idx.db.readOnly = false := by simpa using hro
        have hstep : deleteLoop U rt pk ((f, v) :: tl) idx =
            deleteLoop U rt pk tl (Indexer.mk (DB.mk
              (eraseKV (indexKey rt f (normalize U (sprintV v)) pk) idx.db.entries)
              false)) := by
          simp [deleteLoop, hf, DB.Delete, hro']
        rw [hstep] at hok ⊢
        obtain ⟨h1, h2, h3⟩ := ih _ hok
        refine ⟨?_, ?_, ?_⟩
        · intro k hk
          apply h1
          show (eraseKV _ idx.db.entries).lookup k = none
          by_cases hkk : k = indexKey rt f (normalize U (sprintV v)) pk
          · rw [hkk]; exact lookup_eraseKV_self _ _
          · rw [lookup_eraseKV_ne _ _ _ hkk]; exact hk
        · intro fv hfv hind
          rcases List.mem_cons.1 hfv with h | h
          · subst h
            apply h1
            exact lookup_eraseKV_self _ _
          · exact h2 fv h hind
        · intro k hk
          rw [h3 k (fun fv hfv hind => hk fv (List.mem_cons_of_mem _ hfv) hind)]
          exact lookup_eraseKV_ne _ _ _ (hk (f, v) (List.mem_cons_self _ _) hf)
    · have hstep : deleteLoop U rt pk ((f, v) :: tl) idx = deleteLoop U rt pk tl idx := by
        simp [deleteLoop, hf]
      rw [hstep] at hok ⊢
      obtain ⟨h1, h2, h3⟩ := ih _ hok
      refine ⟨h1, ?_, ?_⟩
      · intro fv hfv hind
        rcases List.mem_cons.1 hfv with h | h
        · subst h
          exact absurd hind hf
        · exact h2 fv h hind
      · intro k hk
        exact h3 k (fun fv hfv hind => hk fv (List.mem_cons_of_mem _ hfv) hind)

/-- C14. After `DeleteIndexes(recordType, primaryKey, fields)` succeeds, the
index entry `idx:<recordType>:<f>:<normalized fields[f]>:<primaryKey>` of
every indexable field `f` of `fields` is absent, every other key of the
store reads as before, and a nil mapping changes nothing. -/
theorem DeleteIndexes_removes (U : Char → Char) (idx : Indexer) (rt pk : String)
    (fields : List (String × Value))
    (hok : (idx.DeleteIndexes U rt pk (some fields)).1 = none) :
    (∀ fv ∈ fields, isIndexableField fv.1 = true →
      (idx.DeleteIndexes U rt pk (some fields)).2.db.Get
        (indexKey rt fv.1 (normalize U (sprintV fv.2)) pk) = .error .notFound) ∧
    (∀ k, (∀ fv ∈ fields, isIndexableField fv.1 = true →
        k ≠ indexKey rt fv.1 (normalize U (sprintV fv.2)) pk) →
      (idx.DeleteIndexes U rt pk (some fields)).2.db.Get k = idx.db.Get k) ∧
    idx.DeleteIndexes U rt pk none = (none, idx) := by
  have hok' : (deleteLoop U rt pk fields idx).1 = none := hok
  obtain ⟨_, h2, h3⟩ := deleteLoop_spec U rt pk fields idx hok'
  refine ⟨?_, ?_, rfl⟩
  · intro fv hfv hind
    show DB.Get (deleteLoop U rt pk fields idx).2.db _ = _
    simp [DB.Get, h2 fv hfv hind]
  · intro k hk
    show DB.Get (deleteLoop U rt pk fields idx).2.db _ = _
    simp [DB.Get, h3 k hk]

/-- Witness of C14: the region entry of `order:00001` is deleted, its status
entry stays. -/
theorem DeleteIndexes_removes_witness :
    ((populate exCaseTable
        [⟨"order", "region", "NA", "order:00001"⟩, ⟨"order", "status", "Shipped", "order:00001"⟩]
        exIndexer).DeleteIndexes exCaseTable "order" "order:00001"
        (some [("region", .str "NA"), ("hash", .str "ab")])).2.db.Get
      "idx:order:region:na:order:00001" = .error .notFound :=
  (DeleteIndexes_removes exCaseTable
    (populate exCaseTable
      [⟨"order", "region", "NA", "order:00001"⟩, ⟨"order", "status", "Shipped", "order:00001"⟩]
      exIndexer) "order" "order:00001" [("region", .str "NA"), ("hash", .str "ab")]
    (by decide)).1 ("region", .str "NA") (by simp) (by decide)


/-! ## Composite indexes -/

/-- `SearchByCompositeIndex` returns the values of the entries under the
range, in store order, and never an error. -/
theorem Indexer.SearchByCompositeIndex_eq (U : Char → Char) (idx : Indexer) (rt : String)
    (fields values : List String) :
    idx.SearchByCompositeIndex U rt fields values =
      .ok ((idx.db.entries.filter (fun e => hasPrefix e.1
        (indexPrefix rt (Join fields "-") (Join (values.map (normalize U)) "-")))).map
          Prod.snd) := by
  unfold Indexer.SearchByCompositeIndex DB.NewIterator
  simp only []
  rw [scanLoop_of_all]
  · simp
  · intro e he
    exact (List.mem_filter.1 he).2

/-- C16. `CreateCompositeIndex` on lists of different lengths returns the
error "nombre de champs et valeurs différent" and leaves the store as it
was; on lists of equal length it is one `Put` of the key
`idx:<recordType>:<fields joined by '-'>:<normalized values joined by
'-'>:<primaryKey>` with the value `primaryKey`, and when that write succeeds
the entry is stored and `SearchByCompositeIndex(recordType, fields, values)`
includes `primaryKey`. -/
theorem CreateCompositeIndex_arity (U : Char → Char) (idx : Indexer) (rt : String)
    (fields values : List String) (pk : String) :
    (fields.length ≠ values.length →
      idx.CreateCompositeIndex U rt fields values pk = (some .arity, idx)) ∧
    (fields.length = values.length →
      (idx.CreateCompositeIndex U rt fields values pk).1 =
        (idx.db.Put (indexKey rt (Join fields "-") (Join (values.map (normalize U)) "-") pk)
          pk).1.map Err.substrate ∧
      (idx.CreateCompositeIndex U rt fields values pk).2.db =
        (idx.db.Put (indexKey rt (Join fields "-") (Join (values.map (normalize U)) "-") pk)
          pk).2 ∧
      ((idx.CreateCompositeIndex U rt fields values pk).1 = none →
        (idx.CreateCompositeIndex U rt fields values pk).2.db.entries =
          insertKV (indexKey rt (Join fields "-") (Join (values.map (normalize U)) "-") pk)
            pk idx.db.entries ∧
        (idx.CreateCompositeIndex U rt fields values pk).2.db.Get
          (indexKey rt (Join fields "-") (Join (values.map (normalize U)) "-") pk) = .ok pk ∧
        ∃ rs, (idx.CreateCompositeIndex U rt fields values pk).2.SearchByCompositeIndex U rt
            fields values = .ok rs ∧ pk ∈ rs)) := by
  refine ⟨?_, ?_⟩
  · intro hne
    simp [Indexer.CreateCompositeIndex, hne]
  · intro heq
    have hC : idx.CreateCompositeIndex U rt fields values pk =
        ((idx.db.Put (indexKey rt (Join fields "-") (Join (values.map (normalize U)) "-") pk)
            pk).1.map Err.substrate,
          Indexer.mk (idx.db.Put (indexKey rt (Join fields "-")
            (Join (values.map (normalize U)) "-") pk) pk).2) := by
      simp [Indexer.CreateCompositeIndex, heq]
    rw [hC]
    refine ⟨rfl, rfl, ?_⟩
    intro hok
    have hro : idx.db.readOnly = false := by
      by_cases h : idx.db.readOnly = true
      · simp [DB.Put, h] at hok
      · simpa using h
    have hent : (idx.db.Put (indexKey rt (Join fields "-")
        (Join (values.map (normalize U)) "-") pk) pk).2.entries =
        insertKV (indexKey rt (Join fields "-") (Join (values.map (normalize U)) "-") pk)
          pk idx.db.entries := by
      simp [DB.Put, hro]
    refine ⟨hent, ?_, _, Indexer.SearchByCompositeIndex_eq U _ rt fields values, ?_⟩
    · simp [DB.Get, hent, lookup_insertKV_self]
    · simp only [hent]
      refine List.mem_map.2 ⟨(indexKey rt (Join fields "-")
        (Join (values.map (normalize U)) "-") pk, pk), ?_, rfl⟩
      refine List.mem_filter.2 ⟨mem_insertKV_self _ _ _, ?_⟩
      rw [indexKey_eq]
      exact hasPrefix_append _ _

/-- C17 at the failing input: `CreateCompositeIndex` rejects one field with
two values, yet `SearchByCompositeIndex` on the same lists returns a result
sequence and no error. -/
theorem SearchByCompositeIndex_ignores_arity :
    (exIndexer.CreateCompositeIndex exCaseTable "order" ["region-status"] ["NA", "Shipped"]
      "order:1").1 = some .arity ∧
    ((exIndexer.CreateCompositeIndex exCaseTable "order" ["region", "status"]
      ["NA", "Shipped"] "order:1").2.SearchByCompositeIndex exCaseTable "order"
        ["region-status"] ["NA", "Shipped"]) = .ok ["order:1"] := by
  decide

theorem not_prefix_of_sep_free (sep : Char) (a b s t : List Char) (ha : sep ∉ a)
    (hb : sep ∉ b) (h : (b ++ sep :: t) <+: (a ++ sep :: s)) : a = b ∧ t <+: s := by
  induction a generalizing b with
  | nil =>
    cases b with
    | nil =>
      simp only [List.nil_append] at h
      exact ⟨rfl, (List.cons_prefix_cons.1 h).2⟩
    | cons c b' =>
      simp only [List.nil_append, List.cons_append] at h
      have := (List.cons_prefix_cons.1 h).1
      subst this
      simp at hb
  | cons x a' ih =>
    cases b with
    | nil =>
      simp only [List.nil_append, List.cons_append] at h
      have := (List.cons_prefix_cons.1 h).1
      subst this
      simp at ha
    | cons c b' =>
      simp only [List.cons_append] at h
      obtain ⟨hcx, hrest⟩ := List.cons_prefix_cons.1 h
      have ha' : sep ∉ a' := fun hm => ha (List.mem_cons_of_mem _ hm)
      have hb' : sep ∉ b' := fun hm => hb (List.mem_cons_of_mem _ hm)
      obtain ⟨hab, hts⟩ := ih b' ha' hb' hrest
      exact ⟨by rw [hcx, hab], hts⟩

/-- C18, as the code has it: for distinct field names `a ≠ b` that contain
no '-', after `CreateCompositeIndex(recordType, [a, b], [x, y], primaryKey)`
on an empty store, `SearchByCompositeIndex(recordType, [b, a], [y, x])` does
not return `primaryKey`. -/
theorem composite_field_order (U : Char → Char) (idx : Indexer) (rt pk a b x y : String)
    (hempty : idx.db.entries = []) (hab : a ≠ b) (ha : noHyphen a = true)
    (hb : noHyphen b = true) :
    ∃ rs, (idx.CreateCompositeIndex U rt [a, b] [x, y] pk).2.SearchByCompositeIndex U rt
        [b, a] [y, x] = .ok rs ∧ pk ∉ rs := by
  refine ⟨_, Indexer.SearchByCompositeIndex_eq U _ rt [b, a] [y, x], ?_⟩
  intro hmem
  obtain ⟨e, he, _⟩ := List.mem_map.1 hmem
  obtain ⟨hein, hepfx⟩ := List.mem_filter.1 he
  have hkey : e.1 = indexKey rt (Join [a, b] "-") (Join ([x, y].map (normalize U)) "-") pk := by
    by_cases hro : idx.db.readOnly = true
    · simp [Indexer.CreateCompositeIndex, DB.Put, hro, hempty] at hein
    · simp [Indexer.CreateCompositeIndex, DB.Put, hro, hempty, insertKV] at hein
      rw [hein]
      rfl
  rw [hkey] at hepfx
  have hK : indexKey rt (Join [a, b] "-") (Join ([x, y].map (normalize U)) "-") pk =
      ("idx:" ++ rt ++ ":") ++ (a ++ "-" ++ (b ++ ":" ++
        Join ([x, y].map (normalize U)) "-" ++ ":" ++ pk)) := by
    simp [indexKey, Join, String.append_assoc]
  have hP : indexPrefix rt (Join [b, a] "-") (Join ([y, x].map (normalize U)) "-") =
      ("idx:" ++ rt ++ ":") ++ (b ++ "-" ++ (a ++ ":" ++
        Join ([y, x].map (normalize U)) "-" ++ ":")) := by
    simp [indexPrefix, Join, String.append_assoc]
  rw [hK, hP, hasPrefix_append_append] at hepfx
  simp only [hasPrefix, String.data_append, List.isPrefixOf_iff_prefix] at hepfx
  simp only [List.append_assoc, List.singleton_append] at hepfx
  have ha' : '-' ∉ a.data := by simpa [noHyphen] using ha
  have hb' : '-' ∉ b.data := by simpa [noHyphen] using hb
  have := (not_prefix_of_sep_free '-' a.data b.data _ _ ha' hb' hepfx).1
  exact hab (String.ext this)

/-- Witness of C18 as amended: the fields `region` and `status`. -/
theorem composite_field_order_witness :
    ∃ rs, (exIndexer.CreateCompositeIndex exCaseTable "order" ["region", "status"]
        ["NA", "Shipped"] "order:1").2.SearchByCompositeIndex exCaseTable "order"
        ["status", "region"] ["Shipped", "NA"] = .ok rs ∧ "order:1" ∉ rs :=
  composite_field_order exCaseTable exIndexer "order" "order:1" "region" "status" "NA"
    "Shipped" rfl (by decide) (by decide) (by decide)

/-- Counterexample to C18 as stated: the field names `sub` and `sub-sub` are
distinct, yet after `CreateCompositeIndex("order", ["sub", "sub-sub"],
["1", "1"], "order:1")` on the empty store,
`SearchByCompositeIndex("order", ["sub-sub", "sub"], ["1", "1"])` returns
`order:1`. -/
theorem composite_field_order_counterexample :
    ("sub" : String) ≠ "sub-sub" ∧
    (exIndexer.CreateCompositeIndex exCaseTable "order" ["sub", "sub-sub"] ["1", "1"]
      "order:1").2.SearchByCompositeIndex exCaseTable "order" ["sub-sub", "sub"]
        ["1", "1"] = .ok ["order:1"] := by
  decide


/-! ## Normalization -/

theorem dropWhile_of_head (p : Char → Bool) (l : List Char)
    (h : ∀ c, l.head? = some c → p c = false) : l.dropWhile p = l := by
  cases l with
  | nil => rfl
  | cons x xs =>
    have hx : p x = false := h x rfl
    simp [List.dropWhile_cons, hx]

theorem head_dropWhile (p : Char → Bool) (l : List Char) (c : Char)
    (h : (l.dropWhile p).head? = some c) : p c = false := by
  have := List.head?_dropWhile_not p l
  rw [h] at this
  exact this

/-- The two ends of a trimmed text are not blank. -/
theorem trim_ends (p : Char → Bool) (l : List Char) :
    (∀ c, (((l.dropWhile p).reverse.dropWhile p).reverse).head? = some c → p c = false) ∧
    (∀ c, (((l.dropWhile p).reverse.dropWhile p).reverse).getLast? = some c →
      p c = false) := by
  refine ⟨?_, ?_⟩
  · intro c hc
    rw [List.head?_reverse] at hc
    obtain ⟨s, hs⟩ := List.dropWhile_suffix (l := (l.dropWhile p).reverse) p
    cases hd : (l.dropWhile p).reverse.dropWhile p with
    | nil => rw [hd] at hc; cases hc
    | cons y ys =>
      have hlast : ((l.dropWhile p).reverse).getLast? = some c := by
        rw [← hs, hd, List.getLast?_append]
        rw [hd] at hc
        rw [hc]
        rfl
      rw [List.getLast?_reverse] at hlast
      exact head_dropWhile p l c hlast
  · intro c hc
    rw [List.getLast?_reverse] at hc
    exact head_dropWhile p _ c hc

/-- A text whose two ends are not blank is its own trimming. -/
theorem trim_of_ends (p : Char → Bool) (l : List Char)
    (h1 : ∀ c, l.head? = some c → p c = false)
    (h2 : ∀ c, l.getLast? = some c → p c = false) :
    ((l.dropWhile p).reverse.dropWhile p).reverse = l := by
  rw [dropWhile_of_head p l h1]
  rw [dropWhile_of_head p l.reverse (by rw [List.head?_reverse]; exact h2)]
  exact List.reverse_reverse l

/-- On ASCII, lower-casing gives an ASCII character that is not an upper-case
letter, and does not turn a non-blank into a blank. -/
theorem ascii_lower_facts : ∀ n, n < 128 →
    (if 'A' ≤ Char.ofNat n ∧ Char.ofNat n ≤ 'Z' then Char.ofNat ((Char.ofNat n).toNat + 32)
      else Char.ofNat n).toNat ≤ 0x7f ∧
    ¬ ('A' ≤ (if 'A' ≤ Char.ofNat n ∧ Char.ofNat n ≤ 'Z' then
          Char.ofNat ((Char.ofNat n).toNat + 32) else Char.ofNat n) ∧
        (if 'A' ≤ Char.ofNat n ∧ Char.ofNat n ≤ 'Z' then
          Char.ofNat ((Char.ofNat n).toNat + 32) else Char.ofNat n) ≤ 'Z') ∧
    (isSpace (Char.ofNat n) = false →
      isSpace (if 'A' ≤ Char.ofNat n ∧ Char.ofNat n ≤ 'Z' then
        Char.ofNat ((Char.ofNat n).toNat + 32) else Char.ofNat n) = false) := by
  decide

theorem toLowerRune_idem (U : Char → Char)
    (hU1 : ∀ c, 0x7f < c.toNat → toLowerRune U (U c) = U c) (c : Char) :
    toLowerRune U (toLowerRune U c) = toLowerRune U c := by
  by_cases hc : c.toNat ≤ 0x7f
  · have hlt : c.toNat < 128 := by omega
    obtain ⟨h1, h2, _⟩ := ascii_lower_facts c.toNat hlt
    rw [Char.ofNat_toNat] at h1 h2
    have e1 : toLowerRune U c =
        (if 'A' ≤ c ∧ c ≤ 'Z' then Char.ofNat (c.toNat + 32) else c) := by
      simp only [toLowerRune, hc, if_true]
    rw [e1]
    generalize (if 'A' ≤ c ∧ c ≤ 'Z' then Char.ofNat (c.toNat + 32) else c) = c' at h1 h2
    simp only [toLowerRune, h1, if_true, h2, if_false]
  · have e1 : toLowerRune U c = U c := by simp only [toLowerRune, hc, if_false]
    rw [e1]
    exact hU1 c (by omega)

theorem toLowerRune_not_space (U : Char → Char)
    (hU2 : ∀ c, 0x7f < c.toNat → isSpace c = false → isSpace (U c) = false) (c : Char)
    (h : isSpace c = false) : isSpace (toLowerRune U c) = false := by
  by_cases hc : c.toNat ≤ 0x7f
  · have hlt : c.toNat < 128 := by omega
    obtain ⟨_, _, h3⟩ := ascii_lower_facts c.toNat hlt
    rw [Char.ofNat_toNat] at h3
    simp only [toLowerRune, hc, if_true]
    exact h3 h
  · simp only [toLowerRune, hc, if_false]
    exact hU2 c (by omega) h

/-- The normal form of a normal form is itself. -/
theorem normalize_idem (U : Char → Char)
    (hU1 : ∀ c, 0x7f < c.toNat → toLowerRune U (U c) = U c)
    (hU2 : ∀ c, 0x7f < c.toNat → isSpace c = false → isSpace (U c) = false) (v : String) :
    normalize U (normalize U v) = normalize U v := by
  obtain ⟨t1, t2⟩ := trim_ends isSpace v.data
  have hm1 : ∀ c, (List.map (toLowerRune U)
      ((v.data.dropWhile isSpace).reverse.dropWhile isSpace).reverse).head? = some c →
      isSpace c = false := by
    intro c hc
    rw [List.head?_map] at hc
    cases hh : (((v.data.dropWhile isSpace).reverse.dropWhile isSpace).reverse).head? with
    | none => rw [hh] at hc; cases hc
    | some x =>
      rw [hh] at hc
      simp only [Option.map_some', Option.some.injEq] at hc
      rw [← hc]
      exact toLowerRune_not_space U hU2 x (t1 x hh)
  have hm2 : ∀ c, (List.map (toLowerRune U)
      ((v.data.dropWhile isSpace).reverse.dropWhile isSpace).reverse).getLast? = some c →
      isSpace c = false := by
    intro c hc
    rw [List.getLast?_map] at hc
    cases hh : (((v.data.dropWhile isSpace).reverse.dropWhile isSpace).reverse).getLast? with
    | none => rw [hh] at hc; cases hc
    | some x =>
      rw [hh] at hc
      simp only [Option.map_some', Option.some.injEq] at hc
      rw [← hc]
      exact toLowerRune_not_space U hU2 x (t2 x hh)
  unfold normalize ToLower TrimSpace
  simp only []
  rw [trim_of_ends isSpace _ hm1 hm2]
  simp only [List.map_map]
  congr 1
  apply List.map_congr_left
  intro c _
  exact toLowerRune_idem U hU1 c

/-- C11. Index lookups are case- and whitespace-insensitive: two values with
the same normal form `lower(trim(v))`, such as "  NA " and "na", get the
same result from `SearchByIndex` on every store, and the normal form of a
normal form is itself.  The case table of the `unicode` package is taken as
idempotent and as mapping no non-blank to a blank outside ASCII. -/
theorem SearchByIndex_normalized (U : Char → Char)
    (hU1 : ∀ c, 0x7f < c.toNat → toLowerRune U (U c) = U c)
    (hU2 : ∀ c, 0x7f < c.toNat → isSpace c = false → isSpace (U c) = false)
    (idx : Indexer) (rt f v1 v2 : String) (h : normalize U v1 = normalize U v2) :
    idx.SearchByIndex U rt f v1 = idx.SearchByIndex U rt f v2 ∧
    (∀ v, normalize U (normalize U v) = normalize U v) ∧
    idx.SearchByIndex U rt f "  NA " = idx.SearchByIndex U rt f "na" := by
  refine ⟨?_, normalize_idem U hU1 hU2, ?_⟩
  · unfold Indexer.SearchByIndex
    rw [h]
  · have hn : normalize U "  NA " = normalize U "na" := by
      have e1 : normalize U "  NA " = "na" := rfl
      have e2 : normalize U "na" = "na" := rfl
      rw [e1, e2]
    unfold Indexer.SearchByIndex
    rw [hn]


/-- Witness of C11: " NA" and "na " on a store that indexes `order:00001`
under the region `NA`. -/
theorem SearchByIndex_normalized_witness :
    normalize exCaseTable " NA" = normalize exCaseTable "na " ∧
    (populate exCaseTable [⟨"order", "region", "NA", "order:00001"⟩] exIndexer).SearchByIndex
        exCaseTable "order" "region" " NA" =
      (populate exCaseTable [⟨"order", "region", "NA", "order:00001"⟩] exIndexer).SearchByIndex
        exCaseTable "order" "region" "na " :=
  ⟨by decide,
   (SearchByIndex_normalized exCaseTable
    (by
      intro c hc
      have h : ¬ c.toNat ≤ 0x7f := by omega
      simp [exCaseTable, toLowerRune, h])
    (by intro c _ h; exact h)
    (populate exCaseTable [⟨"order", "region", "NA", "order:00001"⟩] exIndexer)
    "order" "region" " NA" "na " (by decide)).1⟩


/-! ## Consistency validator: lemmas -/

theorem countKeys_eq (db : DB) :
    countKeys db = (db.entries.filter (fun e => countsKey e.1)).length := by
  have h := Client.Count_eq { db := db, node := "" }
  simp only [Client.Count, DB.NewIterator] at h
  simp only [countKeys, DB.NewIterator]
  exact (Prod.mk.inj h).1

theorem countsKey_eq (k : String) :
    countsKey k = (!isSystemKey k && !k.data.isEmpty) := by
  unfold countsKey isSystemKey
  cases k.data with
  | nil => rfl
  | cons c cs => simp [bne]

theorem lookup_of_mem_sorted (l : List (String × String)) (k v : String)
    (hs : (l.map Prod.fst).Pairwise (fun a b => keyLt a b = true)) (hm : (k, v) ∈ l) :
    l.lookup k = some v := by
  induction l with
  | nil => cases hm
  | cons hd tl ih =>
    obtain ⟨k', v'⟩ := hd
    simp only [List.map_cons, List.pairwise_cons] at hs
    rcases List.mem_cons.1 hm with h | h
    · cases h
      simp [List.lookup]
    · have hlt := hs.1 k (List.mem_map_of_mem Prod.fst h)
      have hne : k ≠ k' := by
        intro e
        rw [e, keyLt_irrefl] at hlt
        cases hlt
      have hb : (k == k') = false := by simpa using hne
      simp [List.lookup, hb, ih hs.2 h]

theorem mem_of_lookup (l : List (String × String)) (k v : String)
    (h : l.lookup k = some v) : (k, v) ∈ l := by
  induction l with
  | nil => cases h
  | cons hd tl ih =>
    obtain ⟨k', v'⟩ := hd
    by_cases hk : k = k'
    · subst hk
      simp [List.lookup] at h
      rw [h]
      exact List.mem_cons_self _ _
    · have hb : (k == k') = false := by simpa using hk
      simp [List.lookup, hb] at h
      exact List.mem_cons_of_mem _ (ih h)

/-- Two lists with strictly ascending keys that read alike are equal. -/
theorem sorted_ext (l1 l2 : List (String × String))
    (h1 : (l1.map Prod.fst).Pairwise (fun a b => keyLt a b = true))
    (h2 : (l2.map Prod.fst).Pairwise (fun a b => keyLt a b = true))
    (h : ∀ k, l1.lookup k = l2.lookup k) : l1 = l2 := by
  induction l1 generalizing l2 with
  | nil =>
    cases l2 with
    | nil => rfl
    | cons hd tl =>
      have := h hd.1
      simp [List.lookup] at this
  | cons hd1 tl1 ih =>
    obtain ⟨k1, v1⟩ := hd1
    cases l2 with
    | nil =>
      have := h k1
      simp [List.lookup] at this
    | cons hd2 tl2 =>
      obtain ⟨k2, v2⟩ := hd2
      simp only [List.map_cons, List.pairwise_cons] at h1 h2
      have hk : k1 = k2 := by
        by_contra hne
        have hb : (k1 == k2) = false := by simpa using hne
        have hb' : (k2 == k1) = false := by simpa using (fun e : k2 = k1 => hne e.symm)
        have e1 := h k1
        simp [List.lookup, hb] at e1
        have e2 := h k2
        simp [List.lookup, hb'] at e2
        have m1 : k1 ∈ tl2.map Prod.fst :=
          List.mem_map_of_mem Prod.fst (mem_of_lookup tl2 k1 v1 e1.symm)
        have m2 : k2 ∈ tl1.map Prod.fst :=
          List.mem_map_of_mem Prod.fst (mem_of_lookup tl1 k2 v2 e2)
        have a1 := h2.1 k1 m1
        have a2 := h1.1 k2 m2
        rw [keyLt_asymm _ _ a1] at a2
        cases a2
      subst hk
      have hv : v1 = v2 := by
        have := h k1
        simpa [List.lookup] using this
      subst hv
      have hn1 : k1 ∉ tl1.map Prod.fst := by
        intro hm
        have := h1.1 k1 hm
        rw [keyLt_irrefl] at this
        cases this
      have hn2 : k1 ∉ tl2.map Prod.fst := by
        intro hm
        have := h2.1 k1 hm
        rw [keyLt_irrefl] at this
        cases this
      have htl : tl1 = tl2 := by
        apply ih tl2 h1.2 h2.2
        intro k
        by_cases hk : k = k1
        · rw [hk, lookup_eq_none_of_not_mem _ _ hn1, lookup_eq_none_of_not_mem _ _ hn2]
        · have hb : (k == k1) = false := by simpa using hk
          have := h k
          simpa [List.lookup, hb] using this
      rw [htl]

theorem lookup_filter_key (q : String → Bool) (l : List (String × String)) (k : String) :
    (l.filter (fun e => q e.1)).lookup k = if q k = true then l.lookup k else none := by
  induction l with
  | nil => simp [List.lookup]
  | cons hd tl ih =>
    obtain ⟨k', v'⟩ := hd
    by_cases hq : q k' = true
    · simp only [List.filter, hq]
      by_cases hk : k = k'
      · subst hk
        simp [List.lookup, hq]
      · have hb : (k == k') = false := by simpa using hk
        simp only [List.lookup, hb]
        exact ih
    · simp only [List.filter, hq]
      by_cases hk : k = k'
      · subst hk
        rw [ih]
        simp [hq]
      · have hb : (k == k') = false := by simpa using hk
        simp only [List.lookup, hb]
        exact ih

/-- Two well-formed stores that read alike on the keys a test selects hold
the same selected entries. -/
theorem filter_eq_of_Get_eq (q : String → Bool) (A B : DB) (hA : A.WF) (hB : B.WF)
    (h : ∀ k, q k = true → A.Get k = B.Get k) :
    A.entries.filter (fun e => q e.1) = B.entries.filter (fun e => q e.1) := by
  apply sorted_ext
  · exact hA.sublist ((List.filter_sublist _).map Prod.fst)
  · exact hB.sublist ((List.filter_sublist _).map Prod.fst)
  · intro k
    rw [lookup_filter_key, lookup_filter_key]
    by_cases hq : q k = true
    · simp only [hq, if_true]
      have := h k hq
      unfold DB.Get at this
      cases ha : A.entries.lookup k <;> cases hb : B.entries.lookup k <;>
        simp [ha, hb] at this ⊢
      exact this
    · simp [hq]

theorem compareJSON_self (L : GoLib Doc) (v : String) (h : isValidJSON L v = true) :
    compareJSON L v v = true := by
  unfold isValidJSON at h
  unfold compareJSON
  cases hu : L.unmarshal v with
  | none => simp [hu] at h
  | some o => simp

theorem valuesEqual_self (L : GoLib Doc) (key v : String) : valuesEqual L key v v = true := by
  unfold valuesEqual
  by_cases h1 : hasPrefix key "idx:" = true
  · simp [h1]
  · by_cases h2 : isValidJSON L v = true
    · simp [h1, h2, compareJSON_self L v h2]
    · simp [h1, h2]

/-- Over entries that the second node holds with the same value, the loop of
the validator only counts the non-system keys as checked. -/
theorem validateLoop_same (L : GoLib Doc) (db2 : DB) (items : List (String × String))
    (st : Counters)
    (h : ∀ e ∈ items, isSystemKey e.1 = false → db2.Get e.1 = .ok e.2) :
    validateLoop L db2 items st =
      { st with checked := st.checked +
          (items.filter (fun e => !isSystemKey e.1)).length } := by
  induction items generalizing st with
  | nil => simp [validateLoop]
  | cons hd tl ih =>
    obtain ⟨k, v⟩ := hd
    have htl : ∀ e ∈ tl, isSystemKey e.1 = false → db2.Get e.1 = .ok e.2 :=
      fun e he => h e (List.mem_cons_of_mem _ he)
    by_cases hs : isSystemKey k = true
    · simp [validateLoop, hs, ih _ htl, List.filter]
    · have hs' : isSystemKey k = false := by simpa using hs
      have hg := h (k, v) (List.mem_cons_self _ _) hs'
      simp only [] at hg
      simp [validateLoop, hs', hg, valuesEqual_self, ih _ htl, List.filter]
      omega

/-! ## Consistency validator: theorems -/

/-- C19. For two well-formed stores that hold the same non-system keys with
the same values, `validateReplication` compares the contents and reports
zero missing keys and zero mismatched values, every non-system key of the
first store being checked: the outcome "identical". -/
theorem validateReplication_identical (L : GoLib Doc) (A B : DB) (hA : A.WF) (hB : B.WF)
    (hsame : ∀ k, isSystemKey k = false → A.Get k = B.Get k) :
    validateReplication L A B =
      .compared { mismatches := 0, missing := 0,
                  checked := (A.entries.filter (fun e => !isSystemKey e.1)).length } ∧
    (validateReplication L A B).identical = true := by
  have hf : A.entries.filter (fun e => !isSystemKey e.1) =
      B.entries.filter (fun e => !isSystemKey e.1) :=
    filter_eq_of_Get_eq (fun k => !isSystemKey k) A B hA hB
      (fun k hk => hsame k (by simpa using hk))
  have hc : countKeys A = countKeys B := by
    rw [countKeys_eq, countKeys_eq]
    have e : ∀ l : List (String × String), l.filter (fun e => countsKey e.1) =
        (l.filter (fun e => !isSystemKey e.1)).filter (fun e => !e.1.data.isEmpty) := by
      intro l
      rw [List.filter_filter]
      apply List.filter_congr
      intro x _
      rw [countsKey_eq, Bool.and_comm]
    rw [e, e, hf]
  have hloop : ∀ e ∈ A.entries, isSystemKey e.1 = false → B.Get e.1 = .ok e.2 := by
    intro e he hs
    rw [← hsame e.1 hs]
    simp [DB.Get, lookup_of_mem_sorted A.entries e.1 e.2 hA he]
  have hv : validateReplication L A B =
      .compared { mismatches := 0, missing := 0,
                  checked := (A.entries.filter (fun e => !isSystemKey e.1)).length } := by
    unfold validateReplication
    simp only [hc, ne_eq, not_true_eq_false, if_false, DB.NewIterator]
    rw [validateLoop_same L B A.entries _ hloop]
    simp
  exact ⟨hv, by rw [hv]; rfl⟩

/-- Witness of C19: two nodes that differ in a system key only. -/
theorem validateReplication_identical_witness :
    validateReplication numLib exNodeA exNodeB =
      .compared { mismatches := 0, missing := 0, checked := 3 } :=
  (validateReplication_identical numLib exNodeA exNodeB (by decide) (by decide)
    (by
      intro k hk
      have e : ∀ k, isSystemKey k = false → k ≠ "_meta" := by
        intro k hk h
        rw [h] at hk
        exact absurd hk (by decide)
      have hne := e k hk
      have hb : (k == "_meta") = false := by simpa using hne
      simp [DB.Get, exNodeA, exNodeB, List.lookup, hb])).1


/-- C20, as the code has it: `compareJSON` compares the values that
`json.Unmarshal` reads (a number is a `float64`) through their
`json.Marshal` text.  Two valid texts that decode to the same value compare
equal, and the validator does not report them under a non-index key; two
valid texts that decode to different values compare unequal, `json.Marshal`
writing different texts for different values, and are reported. -/
theorem compareJSON_semantic (L : GoLib Doc) (a b : String) (oa ob : Doc)
    (ha : L.unmarshal a = some oa) (hb : L.unmarshal b = some ob) :
    (oa = ob → compareJSON L a b = true ∧
      ∀ key, hasPrefix key "idx:" = false → valuesEqual L key a b = true) ∧
    (((L.marshal oa).getD "" = (L.marshal ob).getD "" → oa = ob) → oa ≠ ob →
      compareJSON L a b = false ∧
      ∀ key, hasPrefix key "idx:" = false → valuesEqual L key a b = false) := by
  have hva : isValidJSON L a = true := by simp [isValidJSON, ha]
  have hvb : isValidJSON L b = true := by simp [isValidJSON, hb]
  have hve : ∀ key, hasPrefix key "idx:" = false →
      valuesEqual L key a b = compareJSON L a b := by
    intro key hk
    simp [valuesEqual, hk, hva, hvb]
  refine ⟨?_, ?_⟩
  · intro h
    have hc : compareJSON L a b = true := by
      simp [compareJSON, ha, hb, h]
    exact ⟨hc, fun key hk => by rw [hve key hk, hc]⟩
  · intro hinj hne
    have hc : compareJSON L a b = false := by
      simp only [compareJSON, ha, hb]
      apply Bool.eq_false_iff.2
      intro heq
      exact hne (hinj (by simpa using heq))
    exact ⟨hc, fun key hk => by rw [hve key hk, hc]⟩

/-- Witness of C20 as amended: "1000" and " 1000 " decode to the same
number, under the key `order:1`. -/
theorem compareJSON_semantic_witness :
    compareJSON numLib "1000" " 1000 " = true ∧ valuesEqual numLib "order:1" "1000" " 1000 " = true :=
  ⟨((compareJSON_semantic numLib "1000" " 1000 " 1000 1000 (by decide) (by decide)).1 rfl).1,
   ((compareJSON_semantic numLib "1000" " 1000 " 1000 1000 (by decide) (by decide)).1 rfl).2
     "order:1" (by decide)⟩

/-- Counterexample to C20 as stated: the texts "9007199254740993" and
"9007199254740992" are valid JSON and denote different numbers, yet both are
read as the `float64` 9007199254740992 and `compareJSON` returns `true`. -/
theorem compareJSON_semantic_counterexample :
    parseDigits "9007199254740993".data ≠ parseDigits "9007199254740992".data ∧
    isValidJSON numLib "9007199254740993" = true ∧
    isValidJSON numLib "9007199254740992" = true ∧
    compareJSON numLib "9007199254740993" "9007199254740992" = true := by
  decide


/-! ## Stores populated through `CreateIndex` -/

theorem keyLt_append_left (q a b : String) : keyLt (q ++ a) (q ++ b) = keyLt a b := by
  have h : ∀ (l x y : List Char), (l ++ x < l ++ y) ↔ x < y := by
    intro l x y
    induction l with
    | nil => simp
    | cons c cs ih =>
      simp only [List.cons_append]
      constructor
      · intro h
        exact ih.1 (List.Lex.cons_iff.1 h)
      · intro h
        exact List.Lex.cons_iff.2 (ih.2 h)
  apply Bool.eq_iff_iff.2
  simp only [keyLt, decide_eq_true_eq, String.data_append]
  exact h _ _ _

/-- A text with a separator that starts `a<sep>R`, `a` holding no separator,
starts with `a<sep>`; what follows starts `R` and has one separator less. -/
theorem prefix_split (sep : Char) (a X R : List Char) (ha : sep ∉ a)
    (hX : 0 < X.count sep) (h : X <+: a ++ sep :: R) :
    ∃ X', X = a ++ sep :: X' ∧ X' <+: R ∧ X'.count sep + 1 = X.count sep := by
  induction a generalizing X with
  | nil =>
    cases X with
    | nil => simp at hX
    | cons c Xt =>
      simp only [List.nil_append] at h ⊢
      obtain ⟨hc, ht⟩ := List.cons_prefix_cons.1 h
      subst hc
      exact ⟨Xt, rfl, ht, by simp [List.count_cons]⟩
  | cons x a' ih =>
    cases X with
    | nil => simp at hX
    | cons c Xt =>
      simp only [List.cons_append] at h
      obtain ⟨hc, ht⟩ := List.cons_prefix_cons.1 h
      subst hc
      have hcs : c ≠ sep := fun e => ha (e ▸ List.mem_cons_self _ _)
      have ha' : sep ∉ a' := fun hm => ha (List.mem_cons_of_mem _ hm)
      have hb : (c == sep) = false := by simpa using hcs
      have hXt : 0 < Xt.count sep := by
        simpa [List.count_cons, hb] using hX
      obtain ⟨X', e1, e2, e3⟩ := ih Xt ha' hXt ht
      refine ⟨X', by rw [e1]; rfl, e2, ?_⟩
      simp [List.count_cons, hb, e3]

theorem eq_of_append_sep_eq (sep : Char) (a b s t : List Char) (ha : sep ∉ a) (hb : sep ∉ b)
    (h : a ++ sep :: s = b ++ sep :: t) : a = b ∧ s = t := by
  have h1 := (not_prefix_of_sep_free sep a b s t ha hb (h ▸ List.prefix_refl _)).1
  subst h1
  exact ⟨rfl, by simpa using h⟩

/-- Two index keys with separator-free record type, field and value that
lie in one scanned range have the same record type, field and value. -/
theorem components_eq_of_common_prefix (X : List Char) (rt f n pk rt' f' n' pk' : List Char)
    (hX : 3 ≤ X.count ':')
    (hrt : ':' ∉ rt) (hf : ':' ∉ f) (hn : ':' ∉ n)
    (hrt' : ':' ∉ rt') (hf' : ':' ∉ f') (hn' : ':' ∉ n')
    (h : X <+: rt ++ ':' :: (f ++ ':' :: (n ++ ':' :: pk)))
    (h' : X <+: rt' ++ ':' :: (f' ++ ':' :: (n' ++ ':' :: pk'))) :
    rt = rt' ∧ f = f' ∧ n = n' := by
  obtain ⟨X1, e1, p1, c1⟩ := prefix_split ':' rt X _ hrt (by omega) h
  obtain ⟨X2, e2, p2, c2⟩ := prefix_split ':' f X1 _ hf (by omega) p1
  obtain ⟨X3, e3, p3, c3⟩ := prefix_split ':' n X2 _ hn (by omega) p2
  obtain ⟨X1', e1', p1', c1'⟩ := prefix_split ':' rt' X _ hrt' (by omega) h'
  obtain ⟨X2', e2', p2', c2'⟩ := prefix_split ':' f' X1' _ hf' (by omega) p1'
  obtain ⟨X3', e3', p3', c3'⟩ := prefix_split ':' n' X2' _ hn' (by omega) p2'
  obtain ⟨r1, r2⟩ := eq_of_append_sep_eq ':' rt rt' X1 X1' hrt hrt' (e1 ▸ e1')
  subst r2
  obtain ⟨r3, r4⟩ := eq_of_append_sep_eq ':' f f' X2 X2' hf hf' (e2 ▸ e2')
  subst r4
  obtain ⟨r5, _⟩ := eq_of_append_sep_eq ':' n n' X3 X3' hn hn' (e3 ▸ e3')
  exact ⟨r1, r3, r5⟩

theorem indexKey_data (rt f n pk : String) :
    (indexKey rt f n pk).data =
      "idx:".data ++ (rt.data ++ ':' :: (f.data ++ ':' :: (n.data ++ ':' :: pk.data))) := by
  simp [indexKey, String.data_append]

theorem indexPrefix_data (rt f n : String) :
    (indexPrefix rt f n).data =
      "idx:".data ++ (rt.data ++ ':' :: (f.data ++ ':' :: (n.data ++ [':']))) := by
  simp [indexPrefix, String.data_append]

theorem noColon_iff (s : String) : noColon s = true ↔ ':' ∉ s.data := by
  simp [noColon]

/-- The invariant of a store populated through `CreateIndex`: it is well
formed and each entry is the entry of one of the calls. -/
theorem populate_inv (U : Char → Char) (all : List IndexCall) (calls : List IndexCall)
    (idx : Indexer) (hsub : ∀ c ∈ calls, c ∈ all) (hwf : idx.db.WF)
    (hent : ∀ e ∈ idx.db.entries, ∃ c ∈ all, e = c.entry U) :
    (populate U calls idx).db.WF ∧
    ∀ e ∈ (populate U calls idx).db.entries, ∃ c ∈ all, e = c.entry U := by
  induction calls generalizing idx with
  | nil => exact ⟨hwf, hent⟩
  | cons c cs ih =>
    have hstep : populate U (c :: cs) idx =
        populate U cs (idx.CreateIndex U c.recordType c.field c.value c.primaryKey).2 := rfl
    rw [hstep]
    apply ih
    · exact fun c' hc' => hsub c' (List.mem_cons_of_mem _ hc')
    · exact Indexer.WF_CreateIndex U idx _ _ _ _ hwf
    · intro e he
      by_cases hro : idx.db.readOnly = true
      · have : (idx.CreateIndex U c.recordType c.field c.value c.primaryKey).2 = idx := by
          simp [Indexer.CreateIndex, DB.Put, hro]
        rw [this] at he
        exact hent e he
      · have hE : (idx.CreateIndex U c.recordType c.field c.value c.primaryKey).2.db.entries =
            insertKV (indexKey c.recordType c.field (normalize U c.value) c.primaryKey)
              c.primaryKey idx.db.entries := by
          simp [Indexer.CreateIndex, DB.Put, hro]
        rw [hE] at he
        rcases mem_of_mem_insertKV _ _ _ e he with h | h
        · exact ⟨c, hsub c (List.mem_cons_self _ _), h⟩
        · exact hent e h


theorem count_colon_indexPrefix (rt f n : List Char) :
    3 ≤ (rt ++ ':' :: (f ++ ':' :: (n ++ [':']))).count ':' := by
  simp only [List.count_append, List.count_cons, List.count_nil, beq_self_eq_true, if_true]
  omega

/-- Two entries of colon-free calls that lie in one scanned range are the
same range followed by their primary keys. -/
theorem entries_in_range (U : Char → Char) (ca cb : IndexCall) (hca : ca.colonFree U = true)
    (hcb : cb.colonFree U = true) (rt f n : String)
    (ha : hasPrefix (ca.entry U).1 (indexPrefix rt f n) = true)
    (hb : hasPrefix (cb.entry U).1 (indexPrefix rt f n) = true) :
    ca.recordType = cb.recordType ∧ ca.field = cb.field ∧
      normalize U ca.value = normalize U cb.value := by
  simp only [IndexCall.colonFree, Bool.and_eq_true, noColon_iff] at hca hcb
  simp only [IndexCall.entry, hasPrefix, indexKey_data, indexPrefix_data,
    List.isPrefixOf_iff_prefix, List.prefix_append_right_inj] at ha hb
  obtain ⟨h1, h2, h3⟩ := components_eq_of_common_prefix _ _ _ _ _ _ _ _ _
    (count_colon_indexPrefix rt.data f.data n.data)
    hca.1.1 hca.1.2 hca.2 hcb.1.1 hcb.1.2 hcb.2 ha hb
  exact ⟨String.ext h1, String.ext h2, String.ext h3⟩

/-- C12, as the code has it: in a store populated, from empty, through
`CreateIndex` calls whose record type, field and normalized value contain no
':', the sequence `SearchByIndex(recordType, field, value)` returns is in
strictly ascending byte-lexicographic order of primary key; and it is the
empty sequence, without error, when no entry lies in the scanned range. -/
theorem SearchByIndex_ascending (U : Char → Char) (calls : List IndexCall) (idx0 : Indexer)
    (hempty : idx0.db.entries = []) (hcf : ∀ c ∈ calls, c.colonFree U = true)
    (rt f v : String) :
    ∃ rs, (populate U calls idx0).SearchByIndex U rt f v = .ok rs ∧
      rs.Pairwise (fun a b => keyLt a b = true) ∧
      ((∀ e ∈ (populate U calls idx0).db.entries,
          hasPrefix e.1 (indexPrefix rt f (normalize U v)) = false) → rs = []) := by
  have hwf0 : idx0.db.WF := by simp [DB.WF, hempty]
  obtain ⟨hwf, hinv⟩ := populate_inv U calls calls idx0 (fun c hc => hc) hwf0
    (by intro e he; rw [hempty] at he; cases he)
  refine ⟨_, Indexer.SearchByIndex_eq U _ rt f v, ?_, ?_⟩
  · rw [List.pairwise_map]
    have hk : List.Pairwise (fun a b : String × String => keyLt a.1 b.1 = true)
        (populate U calls idx0).db.entries := List.pairwise_map.1 hwf
    refine List.Pairwise.imp_of_mem ?_ (hk.filter _)
    intro a b hma hmb hlt
    obtain ⟨hain, hap⟩ := List.mem_filter.1 hma
    obtain ⟨hbin, hbp⟩ := List.mem_filter.1 hmb
    obtain ⟨ca, hca, ea⟩ := hinv a hain
    obtain ⟨cb, hcb, eb⟩ := hinv b hbin
    subst ea
    subst eb
    obtain ⟨h1, h2, h3⟩ := entries_in_range U ca cb (hcf ca hca) (hcf cb hcb) rt f
      (normalize U v) hap hbp
    simp only [IndexCall.entry] at hlt ⊢
    rw [indexKey_eq, indexKey_eq, h1, h2, h3, keyLt_append_left] at hlt
    exact hlt
  · intro hnone
    have : (populate U calls idx0).db.entries.filter
        (fun e => hasPrefix e.1 (indexPrefix rt f (normalize U v))) = [] := by
      apply List.filter_eq_nil_iff.2
      intro e he
      simp [hnone e he]
    rw [this]
    rfl

/-- Witness of C12 as amended: three orders indexed under two regions. -/
theorem SearchByIndex_ascending_witness :
    (populate exCaseTable
        [⟨"order", "region", "NA", "order:00003"⟩, ⟨"order", "region", "EU", "order:00002"⟩,
         ⟨"order", "region", "na ", "order:00001"⟩] exIndexer).SearchByIndex exCaseTable
        "order" "region" "NA" = .ok ["order:00001", "order:00003"] ∧
    ∃ rs, (populate exCaseTable
        [⟨"order", "region", "NA", "order:00003"⟩, ⟨"order", "region", "EU", "order:00002"⟩,
         ⟨"order", "region", "na ", "order:00001"⟩] exIndexer).SearchByIndex exCaseTable
        "order" "region" "NA" = .ok rs ∧ rs.Pairwise (fun a b => keyLt a b = true) :=
  ⟨by decide,
   by
    obtain ⟨rs, h1, h2, _⟩ := SearchByIndex_ascending exCaseTable
      [⟨"order", "region", "NA", "order:00003"⟩, ⟨"order", "region", "EU", "order:00002"⟩,
       ⟨"order", "region", "na ", "order:00001"⟩] exIndexer rfl (by decide)
      "order" "region" "NA"
    exact ⟨rs, h1, h2⟩⟩

/-- Counterexample to C12 as stated: after `CreateIndex("order", "slot",
"12", "b")` and `CreateIndex("order", "slot", "12:a", "z")` on the empty
store, `SearchByIndex("order", "slot", "12")` returns `z` before `b`. -/
theorem SearchByIndex_ascending_counterexample :
    (populate exCaseTable [⟨"order", "slot", "12", "b"⟩, ⟨"order", "slot", "12:a", "z"⟩]
      exIndexer).SearchByIndex exCaseTable "order" "slot" "12" = .ok ["z", "b"] ∧
    keyLt "z" "b" = false := by
  decide


/-! ## Enumeration of an index -/

theorem splitChars_ne_nil (sep : Char) (l : List Char) : splitChars sep l ≠ [] := by
  cases l with
  | nil => simp [splitChars]
  | cons c cs =>
    unfold splitChars
    by_cases h : c = sep
    · simp [h]
    · simp only [h, if_false]
      cases splitChars sep cs <;> simp

theorem splitChars_append_sep (sep : Char) (a R : List Char) (ha : sep ∉ a) :
    splitChars sep (a ++ sep :: R) = a :: splitChars sep R := by
  induction a with
  | nil => simp [splitChars]
  | cons x a' ih =>
    have hx : x ≠ sep := fun e => ha (e ▸ List.mem_cons_self _ _)
    have ha' : sep ∉ a' := fun hm => ha (List.mem_cons_of_mem _ hm)
    simp only [List.cons_append]
    rw [splitChars]
    simp only [hx, if_false]
    rw [ih ha']

/-- The pieces of the index key of a colon-free call: the fourth is the
normalized value. -/
theorem Split_entry (U : Char → Char) (c : IndexCall) (hc : c.colonFree U = true) :
    4 ≤ (Split (c.entry U).1 ':').length ∧
    (Split (c.entry U).1 ':').getD 3 "" = normalize U c.value := by
  simp only [IndexCall.colonFree, Bool.and_eq_true, noColon_iff] at hc
  have hidx : "idx:".data = ['i', 'd', 'x'] ++ ':' :: [] := rfl
  have hs : splitChars ':' (c.entry U).1.data =
      ['i', 'd', 'x'] :: c.recordType.data :: c.field.data :: (normalize U c.value).data ::
        splitChars ':' c.primaryKey.data := by
    have h0 : ∀ R : List Char, splitChars ':' (['i', 'd', 'x', ':'] ++ R) =
        ['i', 'd', 'x'] :: splitChars ':' R :=
      fun R => splitChars_append_sep ':' ['i', 'd', 'x'] R (by decide)
    simp only [IndexCall.entry, indexKey_data, hidx, List.append_assoc]
    rw [h0, splitChars_append_sep ':' _ _ hc.1.1,
      splitChars_append_sep ':' _ _ hc.1.2, splitChars_append_sep ':' _ _ hc.2]
  unfold Split
  rw [hs]
  refine ⟨by simp, ?_⟩
  simp [List.getD]

theorem fieldPrefix_data (rt f : String) :
    (fieldPrefix rt f).data = "idx:".data ++ (rt.data ++ ':' :: (f.data ++ [':'])) := by
  simp [fieldPrefix, String.data_append]

/-- A colon-free call lies in the range of a colon-free record type and
field exactly when they are its own. -/
theorem entry_in_field_iff (U : Char → Char) (c : IndexCall) (hc : c.colonFree U = true)
    (rt f : String) (hrt : noColon rt = true) (hf : noColon f = true) :
    hasPrefix (c.entry U).1 (fieldPrefix rt f) = true ↔ c.recordType = rt ∧ c.field = f := by
  simp only [IndexCall.colonFree, Bool.and_eq_true, noColon_iff] at hc
  rw [noColon_iff] at hrt hf
  simp only [IndexCall.entry, hasPrefix, indexKey_data, fieldPrefix_data,
    List.isPrefixOf_iff_prefix, List.prefix_append_right_inj]
  constructor
  · intro h
    obtain ⟨h1, h2⟩ := not_prefix_of_sep_free ':' _ _ _ _ hc.1.1 hrt h
    obtain ⟨h3, _⟩ := not_prefix_of_sep_free ':' _ _ _ _ hc.1.2 hf h2
    exact ⟨String.ext h1, String.ext h3⟩
  · rintro ⟨h1, h2⟩
    subst h1
    subst h2
    exact ⟨(normalize U c.value).data ++ ':' :: c.primaryKey.data, by simp⟩

/-- A colon-free call lies in the range of a colon-free record type, field
and normalized value exactly when they are its own. -/
theorem entry_in_index_iff (U : Char → Char) (c : IndexCall) (hc : c.colonFree U = true)
    (rt f n : String) (hrt : noColon rt = true) (hf : noColon f = true)
    (hn : noColon n = true) :
    hasPrefix (c.entry U).1 (indexPrefix rt f n) = true ↔
      c.recordType = rt ∧ c.field = f ∧ normalize U c.value = n := by
  simp only [IndexCall.colonFree, Bool.and_eq_true, noColon_iff] at hc
  rw [noColon_iff] at hrt hf hn
  simp only [IndexCall.entry, hasPrefix, indexKey_data, indexPrefix_data,
    List.isPrefixOf_iff_prefix, List.prefix_append_right_inj]
  constructor
  · intro h
    obtain ⟨h1, h2⟩ := not_prefix_of_sep_free ':' _ _ _ _ hc.1.1 hrt h
    obtain ⟨h3, h4⟩ := not_prefix_of_sep_free ':' _ _ _ _ hc.1.2 hf h2
    obtain ⟨h5, _⟩ := not_prefix_of_sep_free ':' _ _ _ _ hc.2 hn h4
    exact ⟨String.ext h1, String.ext h3, String.ext h5⟩
  · rintro ⟨h1, h2, h3⟩
    subst h1
    subst h2
    subst h3
    exact ⟨c.primaryKey.data, by simp⟩

theorem lookup_bump_self (m : List (String × Nat)) (v : String) :
    ((bump m v).lookup v).getD 0 = (m.lookup v).getD 0 + 1 := by
  induction m with
  | nil => simp [bump, List.lookup]
  | cons hd tl ih =>
    obtain ⟨k, n⟩ := hd
    by_cases h : k = v
    · subst h
      simp [bump, List.lookup]
    · have hb : (v == k) = false := by simpa using (fun e : v = k => h e.symm)
      simp [bump, h, List.lookup, hb, ih]

theorem lookup_bump_ne (m : List (String × Nat)) (v x : String) (hx : x ≠ v) :
    (bump m v).lookup x = m.lookup x := by
  induction m with
  | nil =>
    have hb : (x == v) = false := by simpa using hx
    simp [bump, List.lookup, hb]
  | cons hd tl ih =>
    obtain ⟨k, n⟩ := hd
    by_cases h : k = v
    · subst h
      have hb : (x == k) = false := by simpa using hx
      simp [bump, List.lookup, hb]
    · simp only [bump, h, if_false, List.lookup]
      rw [ih]

theorem mem_bump (m : List (String × Nat)) (v : String) (e : String × Nat)
    (he : e ∈ bump m v) (hpos : ∀ e' ∈ m, 0 < e'.2) :
    0 < e.2 ∧ (e.1 = v ∨ e.1 ∈ m.map Prod.fst) := by
  induction m with
  | nil =>
    simp only [bump, List.mem_singleton] at he
    subst he
    exact ⟨Nat.one_pos, Or.inl rfl⟩
  | cons hd tl ih =>
    obtain ⟨k, n⟩ := hd
    by_cases h : k = v
    · subst h
      simp only [bump, if_true, List.mem_cons] at he
      rcases he with he | he
      · subst he
        exact ⟨by simp, Or.inl rfl⟩
      · exact ⟨hpos e (List.mem_cons_of_mem _ he),
          Or.inr (List.mem_map_of_mem Prod.fst (List.mem_cons_of_mem _ he))⟩
    · simp only [bump, h, if_false, List.mem_cons] at he
      rcases he with he | he
      · subst he
        exact ⟨hpos (k, n) (List.mem_cons_self _ _), Or.inr (by simp)⟩
      · obtain ⟨h1, h2⟩ := ih he (fun e' he' => hpos e' (List.mem_cons_of_mem _ he'))
        refine ⟨h1, ?_⟩
        rcases h2 with h2 | h2
        · exact Or.inl h2
        · exact Or.inr (by simp only [List.map_cons, List.mem_cons]; exact Or.inr h2)

theorem keys_bump (m : List (String × Nat)) (v : String) :
    ∀ x, x ∈ (bump m v).map Prod.fst → x = v ∨ x ∈ m.map Prod.fst := by
  induction m with
  | nil =>
    intro x hx
    simp only [bump, List.map_cons, List.map_nil, List.mem_singleton] at hx
    exact Or.inl hx
  | cons hd tl ih =>
    obtain ⟨k, n⟩ := hd
    intro x hx
    by_cases h : k = v
    · subst h
      simp only [bump, if_true, List.map_cons, List.mem_cons] at hx ⊢
      exact Or.inr hx
    · simp only [bump, h, if_false, List.map_cons, List.mem_cons] at hx ⊢
      rcases hx with hx | hx
      · exact Or.inr (Or.inl hx)
      · rcases ih x hx with h2 | h2
        · exact Or.inl h2
        · exact Or.inr (Or.inr h2)

theorem nodup_bump (m : List (String × Nat)) (v : String) (h : (m.map Prod.fst).Nodup) :
    ((bump m v).map Prod.fst).Nodup := by
  induction m with
  | nil => simp [bump]
  | cons hd tl ih =>
    obtain ⟨k, n⟩ := hd
    simp only [List.map_cons, List.nodup_cons] at h
    by_cases hk : k = v
    · subst hk
      simp only [bump, if_true, List.map_cons, List.nodup_cons]
      exact h
    · simp only [bump, hk, if_false, List.map_cons, List.nodup_cons]
      refine ⟨?_, ih h.2⟩
      intro hm
      rcases keys_bump tl v k hm with h2 | h2
      · exact hk h2
      · exact h.1 h2

/-- What a tally holds after a run of `counts[value]++`. -/
theorem foldl_bump (L : List String) (m : List (String × Nat))
    (hnd : (m.map Prod.fst).Nodup) (hpos : ∀ e ∈ m, 0 < e.2) :
    ((L.foldl bump m).map Prod.fst).Nodup ∧
    (∀ e ∈ L.foldl bump m, 0 < e.2 ∧ (e.1 ∈ L ∨ e.1 ∈ m.map Prod.fst)) ∧
    (∀ x, ((L.foldl bump m).lookup x).getD 0 = (m.lookup x).getD 0 + L.count x) := by
  induction L generalizing m with
  | nil => exact ⟨hnd, fun e he => ⟨hpos e he, Or.inr (List.mem_map_of_mem Prod.fst he)⟩, by simp⟩
  | cons v vs ih =>
    have hpos' : ∀ e ∈ bump m v, 0 < e.2 := fun e he => (mem_bump m v e he hpos).1
    obtain ⟨h1, h2, h3⟩ := ih (bump m v) (nodup_bump m v hnd) hpos'
    refine ⟨h1, ?_, ?_⟩
    · intro e he
      obtain ⟨p, q⟩ := h2 e he
      refine ⟨p, ?_⟩
      rcases q with q | q
      · exact Or.inl (List.mem_cons_of_mem _ q)
      · rcases keys_bump m v e.1 q with r | r
        · exact Or.inl (r ▸ List.mem_cons_self _ _)
        · exact Or.inr r
    · intro x
      show ((vs.foldl bump (bump m v)).lookup x).getD 0 = _
      rw [h3 x]
      by_cases hx : x = v
      · subst hx
        rw [lookup_bump_self]
        simp [List.count_cons]
        omega
      · rw [lookup_bump_ne m v x hx]
        have hb : (v == x) = false := by simpa using (fun e : v = x => hx e.symm)
        simp [List.count_cons, hb]

/-- Over items that all lie in the range and have four pieces, the loop of
`ListIndexes` tallies the fourth piece of every key. -/
theorem listLoop_eq (pfx : String) (items : List (String × String))
    (counts : List (String × Nat))
    (h : ∀ e ∈ items, hasPrefix e.1 pfx = true ∧ 4 ≤ (Split e.1 ':').length) :
    listLoop pfx items counts =
      (items.map (fun e => (Split e.1 ':').getD 3 "")).foldl bump counts := by
  induction items generalizing counts with
  | nil => rfl
  | cons hd tl ih =>
    obtain ⟨k, v⟩ := hd
    obtain ⟨h1, h2⟩ := h (k, v) (List.mem_cons_self _ _)
    have ht := fun e he => h e (List.mem_cons_of_mem _ he)
    simp only [] at h1 h2
    simp [listLoop, h1, h2, ih _ ht]


/-- `ListIndexes` returns the tally of its loop, and never an error. -/
theorem Indexer.ListIndexes_eq (idx : Indexer) (rt f : String) :
    idx.ListIndexes rt f =
      .ok (listLoop (fieldPrefix rt f)
        (idx.db.entries.filter (fun e => hasPrefix e.1 (fieldPrefix rt f))) []) := by
  simp [Indexer.ListIndexes, DB.NewIterator]

theorem Indexer.CountByIndex_eq (U : Char → Char) (idx : Indexer) (rt f v : String) :
    idx.CountByIndex U rt f v =
      .ok ((idx.db.entries.filter
        (fun e => hasPrefix e.1 (indexPrefix rt f (normalize U v)))).map Prod.snd).length := by
  simp [Indexer.CountByIndex, Indexer.SearchByIndex_eq]

/-- C15, as the code has it: in a store populated, from empty, through
`CreateIndex` calls whose record type, field and normalized value contain no
':', and for a record type and a field that contain no ':',
`ListIndexes(recordType, field)` returns a map with distinct keys, each the
normalized value of a call with that record type and field and each with a
positive count; and for every value `v` whose normal form contains no ':',
the count of that normal form in the map (0 when it is not a key) is
`CountByIndex(recordType, field, v)`, the length of
`SearchByIndex(recordType, field, v)`. -/
theorem ListIndexes_counts (U : Char → Char) (calls : List IndexCall) (idx0 : Indexer)
    (hempty : idx0.db.entries = []) (hcf : ∀ c ∈ calls, c.colonFree U = true)
    (rt f : String) (hrt : noColon rt = true) (hf : noColon f = true) :
    ∃ m, (populate U calls idx0).ListIndexes rt f = .ok m ∧
      (m.map Prod.fst).Nodup ∧
      (∀ e ∈ m, 0 < e.2 ∧
        ∃ c ∈ calls, c.recordType = rt ∧ c.field = f ∧ normalize U c.value = e.1) ∧
      (∀ v, noColon (normalize U v) = true →
        ∃ rs, (populate U calls idx0).SearchByIndex U rt f v = .ok rs ∧
          (populate U calls idx0).CountByIndex U rt f v = .ok rs.length ∧
          (m.lookup (normalize U v)).getD 0 = rs.length) := by
  have hwf0 : idx0.db.WF := by simp [DB.WF, hempty]
  obtain ⟨_, hinv⟩ := populate_inv U calls calls idx0 (fun c hc => hc) hwf0
    (by intro e he; rw [hempty] at he; cases he)
  have hF : ∀ e ∈ (populate U calls idx0).db.entries.filter
      (fun e => hasPrefix e.1 (fieldPrefix rt f)),
      hasPrefix e.1 (fieldPrefix rt f) = true ∧ 4 ≤ (Split e.1 ':').length := by
    intro e he
    obtain ⟨hin, hp⟩ := List.mem_filter.1 he
    obtain ⟨c, hc, ec⟩ := hinv e hin
    subst ec
    exact ⟨hp, (Split_entry U c (hcf c hc)).1⟩
  obtain ⟨h1, h2, h3⟩ := foldl_bump
    (((populate U calls idx0).db.entries.filter
      (fun e => hasPrefix e.1 (fieldPrefix rt f))).map (fun e => (Split e.1 ':').getD 3 ""))
    [] (by simp) (by intro e he; cases he)
  refine ⟨_, by rw [Indexer.ListIndexes_eq, listLoop_eq _ _ _ hF], h1, ?_, ?_⟩
  · intro e he
    obtain ⟨hpos, hor⟩ := h2 e he
    refine ⟨hpos, ?_⟩
    rcases hor with hor | hor
    · obtain ⟨x, hx, hxe⟩ := List.mem_map.1 hor
      obtain ⟨hin, hp⟩ := List.mem_filter.1 hx
      obtain ⟨c, hc, ec⟩ := hinv x hin
      subst ec
      obtain ⟨r1, r2⟩ := (entry_in_field_iff U c (hcf c hc) rt f hrt hf).1 hp
      refine ⟨c, hc, r1, r2, ?_⟩
      rw [← hxe]
      exact (Split_entry U c (hcf c hc)).2.symm
    · simp at hor
  · intro v hv
    refine ⟨_, Indexer.SearchByIndex_eq U _ rt f v, ?_, ?_⟩
    · rw [Indexer.CountByIndex_eq]
    · rw [h3 (normalize U v)]
      simp only [List.lookup, Option.getD_none, Nat.zero_add, List.length_map]
      rw [List.count_eq_countP, List.countP_map, List.countP_filter,
        List.countP_eq_length_filter]
      congr 1
      apply List.filter_congr
      intro e he
      obtain ⟨c, hc, ec⟩ := hinv e he
      subst ec
      apply Bool.eq_iff_iff.2
      rw [entry_in_index_iff U c (hcf c hc) rt f (normalize U v) hrt hf hv]
      simp only [Function.comp, Bool.and_eq_true, beq_iff_eq]
      rw [entry_in_field_iff U c (hcf c hc) rt f hrt hf, (Split_entry U c (hcf c hc)).2]
      tauto

/-- Witness of C15 as amended: three orders indexed under two regions. -/
theorem ListIndexes_counts_witness :
    (populate exCaseTable
        [⟨"order", "region", "NA", "order:00003"⟩, ⟨"order", "region", "EU", "order:00002"⟩,
         ⟨"order", "region", "na ", "order:00001"⟩] exIndexer).ListIndexes "order" "region" =
      .ok [("eu", 1), ("na", 2)] ∧
    ∃ m, (populate exCaseTable
        [⟨"order", "region", "NA", "order:00003"⟩, ⟨"order", "region", "EU", "order:00002"⟩,
         ⟨"order", "region", "na ", "order:00001"⟩] exIndexer).ListIndexes "order" "region" =
      .ok m ∧ (m.map Prod.fst).Nodup :=
  ⟨by decide,
   by
    obtain ⟨m, h1, h2, _⟩ := ListIndexes_counts exCaseTable
      [⟨"order", "region", "NA", "order:00003"⟩, ⟨"order", "region", "EU", "order:00002"⟩,
       ⟨"order", "region", "na ", "order:00001"⟩] exIndexer rfl (by decide)
      "order" "region" (by decide) (by decide)
    exact ⟨m, h1, h2⟩⟩

/-- Counterexample to C15 as stated: in the store populated by
`CreateIndex("order", "slot", "12:30", "order:1")` the normalized value
"12:30" has one index entry, yet `ListIndexes("order", "slot")` has no key
"12:30": its one key is "12". -/
theorem ListIndexes_counts_counterexample :
    (populate exCaseTable [⟨"order", "slot", "12:30", "order:1"⟩] exIndexer).CountByIndex
      exCaseTable "order" "slot" "12:30" = .ok 1 ∧
    (populate exCaseTable [⟨"order", "slot", "12:30", "order:1"⟩] exIndexer).ListIndexes
      "order" "slot" = .ok [("12", 1)] := by
  decide

/-! ## The counters of the validator -/

/-- The counters at the end of the loop of the validator: every non-system
entry is counted once, as missing when the second node does not hold its
key, as checked when it does, and as a mismatch when the two values compare
unequal. -/
theorem validateLoop_eq (L : GoLib Doc) (db2 : DB) (items : List (String × String))
    (st : Counters) :
    validateLoop L db2 items st =
      { mismatches := st.mismatches + (items.filter (fun e => !isSystemKey e.1 &&
          (match db2.Get e.1 with
           | .ok value2 => !valuesEqual L e.1 e.2 value2
           | .error _ => false))).length,
        missing := st.missing + (items.filter (fun e => !isSystemKey e.1 &&
          (match db2.Get e.1 with
           | .ok _ => false
           | .error _ => true))).length,
        checked := st.checked + (items.filter (fun e => !isSystemKey e.1 &&
          (match db2.Get e.1 with
           | .ok _ => true
           | .error _ => false))).length } := by
  induction items generalizing st with
  | nil => simp [validateLoop]
  | cons hd tl ih =>
    obtain ⟨k, v⟩ := hd
    by_cases hs : isSystemKey k = true
    · simp [validateLoop, hs, ih, List.filter]
    · have hs' : isSystemKey k = false := by simpa using hs
      cases hg : db2.Get k with
      | error e =>
        simp [validateLoop, hs', hg, ih, List.filter]
        omega
      | ok v2 =>
        by_cases hv : valuesEqual L k v v2 = true
        · simp [validateLoop, hs', hg, hv, ih, List.filter]
          omega
        · have hv' : valuesEqual L k v v2 = false := by simpa using hv
          simp [validateLoop, hs', hg, hv', ih, List.filter]
          omega

theorem isSystemKey_of_hasPrefix_idx (key : String) (hk : hasPrefix key "idx:" = true) :
    isSystemKey key = false := by
  unfold hasPrefix at hk
  unfold isSystemKey
  cases h : key.data with
  | nil => rfl
  | cons c cs =>
    rw [h] at hk
    have hc : c = 'i' := by
      have : ("idx:".data) = 'i' :: ['d', 'x', ':'] := rfl
      rw [this] at hk
      simp [List.isPrefixOf] at hk
      exact hk.1.symm
    subst hc
    rfl

/-- C21. Under a key with the prefix `idx:` the validator compares the two
values byte for byte: they are equal for it if and only if they are the same
bytes, whatever JSON they may denote.  Hence when the key counts of two
stores are equal and the first holds under an `idx:` key a value that differs
from the one the second holds there, the validator compares the contents and
counts at least one mismatch: the outcome is not "identical". -/
theorem validateReplication_index_bytes (L : GoLib Doc) (A B : DB) (key v1 v2 : String)
    (hk : hasPrefix key "idx:" = true) :
    (valuesEqual L key v1 v2 = true ↔ v1 = v2) ∧
    (countKeys A = countKeys B → (key, v1) ∈ A.entries → B.Get key = .ok v2 → v1 ≠ v2 →
      ∃ st, validateReplication L A B = .compared st ∧ 1 ≤ st.mismatches ∧
        (validateReplication L A B).identical = false) := by
  have hve : valuesEqual L key v1 v2 = true ↔ v1 = v2 := by
    simp [valuesEqual, hk]
  refine ⟨hve, ?_⟩
  intro hc hm hg hne
  have hv : validateReplication L A B =
      .compared (validateLoop L B A.entries { mismatches := 0, missing := 0, checked := 0 }) := by
    unfold validateReplication
    simp [hc, DB.NewIterator]
  have hpos : 1 ≤ (validateLoop L B A.entries
      { mismatches := 0, missing := 0, checked := 0 }).mismatches := by
    rw [validateLoop_eq]
    simp only [Nat.zero_add]
    apply List.length_pos_of_mem (a := (key, v1))
    apply List.mem_filter.2
    refine ⟨hm, ?_⟩
    have hf : valuesEqual L key v1 v2 = false := by
      cases h : valuesEqual L key v1 v2 with
      | false => rfl
      | true => exact absurd (hve.1 h) hne
    simp [isSystemKey_of_hasPrefix_idx key hk, hg, hf]
  refine ⟨_, hv, hpos, ?_⟩
  rw [hv]
  simp only [Report.identical]
  have : (validateLoop L B A.entries
      { mismatches := 0, missing := 0, checked := 0 }).mismatches ≠ 0 := by omega
  simp [this]

/-- Witness of C21: the texts "1000" and " 1000" are valid JSON for the same
number and differ in one byte; under an index key they are a mismatch. -/
theorem validateReplication_index_bytes_witness :
    compareJSON numLib "1000" " 1000" = true ∧
    ∃ st, validateReplication numLib
        { entries := [("idx:order:amount:1000:order:1", "1000")], readOnly := false }
        { entries := [("idx:order:amount:1000:order:1", " 1000")], readOnly := false } =
          .compared st ∧ 1 ≤ st.mismatches ∧
      (validateReplication numLib
        { entries := [("idx:order:amount:1000:order:1", "1000")], readOnly := false }
        { entries := [("idx:order:amount:1000:order:1", " 1000")], readOnly := false }).identical
        = false :=
  ⟨by decide,
   (validateReplication_index_bytes numLib
      { entries := [("idx:order:amount:1000:order:1", "1000")], readOnly := false }
      { entries := [("idx:order:amount:1000:order:1", " 1000")], readOnly := false }
      "idx:order:amount:1000:order:1" "1000" " 1000" (by decide)).2
      (by decide) (by simp) (by decide) (by decide)⟩

/-- C22. When the key counts of the two stores are equal the validator goes
over the entries of the first store and counts every key that does not start
with an underscore exactly once: as missing when the second store does not
hold it, and otherwise as checked, and also as a mismatch when the two
values compare unequal.  So missing plus checked is the number of such keys
and there are at most as many mismatches as checked keys.  When the counts
differ the report is the absolute difference of the counts and nothing is
compared. -/
theorem validateReplication_classifies (L : GoLib Doc) (A B : DB) :
    (countKeys A = countKeys B →
      ∃ st, validateReplication L A B = .compared st ∧
        st.missing = (A.entries.filter (fun e => !isSystemKey e.1 &&
          (match B.Get e.1 with
           | .ok _ => false
           | .error _ => true))).length ∧
        st.checked = (A.entries.filter (fun e => !isSystemKey e.1 &&
          (match B.Get e.1 with
           | .ok _ => true
           | .error _ => false))).length ∧
        st.mismatches = (A.entries.filter (fun e => !isSystemKey e.1 &&
          (match B.Get e.1 with
           | .ok value2 => !valuesEqual L e.1 e.2 value2
           | .error _ => false))).length ∧
        st.missing + st.checked = (A.entries.filter (fun e => !isSystemKey e.1)).length ∧
        st.mismatches ≤ st.checked) ∧
    (countKeys A ≠ countKeys B →
      validateReplication L A B = .countsDiffer (absDiff (countKeys A) (countKeys B)) ∧
      (absDiff (countKeys A) (countKeys B) : Int) = |(countKeys A : Int) - (countKeys B : Int)|) := by
  refine ⟨?_, ?_⟩
  · intro hc
    have hv : validateReplication L A B =
        .compared (validateLoop L B A.entries { mismatches := 0, missing := 0, checked := 0 }) := by
      unfold validateReplication
      simp [hc, DB.NewIterator]
    refine ⟨_, hv, ?_, ?_, ?_, ?_, ?_⟩
    · rw [validateLoop_eq]; simp
    · rw [validateLoop_eq]; simp
    · rw [validateLoop_eq]; simp
    · rw [validateLoop_eq]
      simp only [Nat.zero_add]
      generalize A.entries = l
      induction l with
      | nil => rfl
      | cons hd tl ih =>
        by_cases hs : isSystemKey hd.1 = true
        · simpa [List.filter, hs] using ih
        · have hs' : isSystemKey hd.1 = false := by simpa using hs
          cases hg : B.Get hd.1 with
          | error e => simp [List.filter, hs', hg] at ih ⊢; omega
          | ok v2 => simp [List.filter, hs', hg] at ih ⊢; omega
    · rw [validateLoop_eq]
      simp only [Nat.zero_add]
      generalize A.entries = l
      induction l with
      | nil => simp
      | cons hd tl ih =>
        by_cases hs : isSystemKey hd.1 = true
        · simpa [List.filter, hs] using ih
        · have hs' : isSystemKey hd.1 = false := by simpa using hs
          cases hg : B.Get hd.1 with
          | error e => simpa [List.filter, hs', hg] using ih
          | ok v2 =>
            by_cases hv : valuesEqual L hd.1 hd.2 v2 = true
            · simp [List.filter, hs', hg, hv] at ih ⊢; omega
            · have hv' : valuesEqual L hd.1 hd.2 v2 = false := by simpa using hv
              simp [List.filter, hs', hg, hv'] at ih ⊢; omega
  · intro hc
    refine ⟨?_, ?_⟩
    · unfold validateReplication
      simp [hc]
    · unfold absDiff
      split
      · rename_i h
        rw [abs_of_nonpos (by omega)]
        omega
      · rename_i h
        rw [abs_of_nonneg (by omega)]
        omega

/-- Witness of C22: of the three non-system keys of the first node one is
missing in the second, one holds another value and one the same value. -/
theorem validateReplication_classifies_witness :
    (∃ st, validateReplication numLib
      { entries := [("_meta", "a"), ("order:1", "1000"), ("order:2", "2000"), ("order:3", "7")],
        readOnly := false }
      { entries := [("order:1", " 1000 "), ("order:2", "2001"), ("order:4", "7")],
        readOnly := false } = .compared st ∧
      st.missing = 1 ∧ st.checked = 2 ∧ st.mismatches = 1 ∧ st.missing + st.checked = 3) ∧
    validateReplication numLib
      { entries := [("order:1", "1000")], readOnly := false }
      { entries := [], readOnly := false } = .countsDiffer 1 := by
  refine ⟨?_, ?_⟩
  · obtain ⟨st, h, h1, h2, h3, h4, -⟩ := (validateReplication_classifies numLib
      { entries := [("_meta", "a"), ("order:1", "1000"), ("order:2", "2000"), ("order:3", "7")],
        readOnly := false }
      { entries := [("order:1", " 1000 "), ("order:2", "2001"), ("order:4", "7")],
        readOnly := false }).1 (by decide)
    exact ⟨st, h, h1.trans (by decide), h2.trans (by decide), h3.trans (by decide),
      h4.trans (by decide)⟩
  · exact ((validateReplication_classifies numLib
      { entries := [("order:1", "1000")], readOnly := false }
      { entries := [], readOnly := false }).2 (by decide)).1

/-! ## Resolution of an index lookup -/

/-- What `GetByIndex` does with one primary key: the envelope it appends, or
`none` when the key is absent or its bytes do not parse. -/
theorem getLoop_eq (L : GoLib Doc) (db : DB) (pks : List String) (acc : List Entry) :
    getLoop L db pks acc = acc ++ pks.filterMap (fun pk =>
      match db.Get pk with
      | .ok valueBytes => L.unmarshalEntry valueBytes
      | .error _ => none) := by
  induction pks generalizing acc with
  | nil => simp [getLoop]
  | cons pk rest ih =>
    cases hg : db.Get pk with
    | error e => simp [getLoop, hg, ih, List.filterMap_cons]
    | ok b =>
      cases hu : L.unmarshalEntry b with
      | none => simp [getLoop, hg, hu, ih, List.filterMap_cons]
      | some e => simp [getLoop, hg, hu, ih, List.filterMap_cons]

/-- C25. `GetByIndex` never returns an error: it returns, in the order of
`SearchByIndex`, the envelope of every primary key of the search that the
store holds and whose bytes parse as an envelope, and passes over the other
primary keys, so its result is never longer than that of `SearchByIndex`. -/
theorem GetByIndex_best_effort (L : GoLib Doc) (U : Char → Char) (idx : Indexer)
    (rt f v : String) :
    ∃ pks, idx.SearchByIndex U rt f v = .ok pks ∧
      idx.GetByIndex L U rt f v = .ok (pks.filterMap (fun pk =>
        match idx.db.Get pk with
        | .ok valueBytes => L.unmarshalEntry valueBytes
        | .error _ => none)) ∧
      ∀ es, idx.GetByIndex L U rt f v = .ok es → es.length ≤ pks.length := by
  have hs := Indexer.SearchByIndex_eq U idx rt f v
  refine ⟨_, hs, ?_, ?_⟩
  · simp [Indexer.GetByIndex, hs, getLoop_eq]
  · intro es hes
    simp only [Indexer.GetByIndex, hs, getLoop_eq] at hes
    cases hes
    simpa using List.length_filterMap_le _ _

/-- An instance of C25: of three primary keys under one index value the
first resolves to its envelope, the second is absent from the store and the
third holds bytes that are not an envelope. -/
theorem GetByIndex_best_effort_example :
    Indexer.SearchByIndex exCaseTable exResolveIndexer "order" "region" "NA" =
      .ok ["order:1", "order:2", "order:3"] ∧
    Indexer.GetByIndex exLib exCaseTable exResolveIndexer "order" "region" "NA" =
      .ok [{ Data := "\x7b\"amount\":1000\x7d",
             Hash := "612612d208fb618eb2b007d2a7f8d7a1cfb511532389298f1cc33322c3094bcc",
             Timestamp := "2024-01-01T00:00:00Z", Node := "leveldb-stores/node1" }] := by
  decide

/-! ## Errors of the engine during an index update -/

/-- C26, evaluated on a store opened read-only that holds the region entry
of `order:00001`: the engine refuses the delete, `UpdateIndexes` with that
entry as old data returns no error and leaves the entry in place, and
`DeleteIndexes` on the same data returns the error of the delete. -/
theorem UpdateIndexes_swallows_delete_error :
    (exReadOnlyIndexer.db.Delete "idx:order:region:na:order:00001").1 = some .readOnly ∧
    exReadOnlyIndexer.UpdateIndexes exCaseTable "order" "order:00001"
      (some [("region", .str "NA")]) none = (none, exReadOnlyIndexer) ∧
    exReadOnlyIndexer.db.Get "idx:order:region:na:order:00001" = .ok "order:00001" ∧
    (exReadOnlyIndexer.DeleteIndexes exCaseTable "order" "order:00001"
      (some [("region", .str "NA")])).1 = some (.indexDelete "region" .readOnly) := by
  decide

/-! ## Index entries after an update -/

/-- What a successful run of the second loop of `UpdateIndexes` leaves: the
key of every indexable field reads the primary key, and every other key
reads as before. -/
theorem createNewLoop_spec (U : Char → Char) (rt pk : String) (d : List (String × Value))
    (idx : Indexer) (hok : (createNewLoop U rt pk d idx).1 = none) :
    (∀ fv ∈ d, isIndexableField fv.1 = true →
      (createNewLoop U rt pk d idx).2.db.entries.lookup
        (indexKey rt fv.1 (normalize U (sprintV fv.2)) pk) = some pk) ∧
    (∀ k, (∀ fv ∈ d, isIndexableField fv.1 = true →
        k ≠ indexKey rt fv.1 (normalize U (sprintV fv.2)) pk) →
      (createNewLoop U rt pk d idx).2.db.entries.lookup k = idx.db.entries.lookup k) := by
  induction d generalizing idx with
  | nil =>
    refine ⟨?_, fun k _ => rfl⟩
    intro fv hfv
    cases hfv
  | cons hd tl ih =>
    obtain ⟨f, v⟩ := hd
    by_cases hf : isIndexableField f = true
    · by_cases hro : idx.db.readOnly = true
      · simp [createNewLoop, hf, Indexer.CreateIndex, DB.Put, hro] at hok
      · have hro' : idx.db.readOnly = false := by simpa using hro
        have hstep : createNewLoop U rt pk ((f, v) :: tl) idx =
            createNewLoop U rt pk tl (Indexer.mk (DB.mk
              (insertKV (indexKey rt f (normalize U (sprintV v)) pk) pk idx.db.entries)
              false)) := by
          simp [createNewLoop, hf, Indexer.CreateIndex, DB.Put, hro']
        rw [hstep] at hok ⊢
        obtain ⟨h1, h2⟩ := ih _ hok
        refine ⟨?_, ?_⟩
        · intro fv hfv hind
          rcases List.mem_cons.1 hfv with h | h
          · subst h
            by_cases hin : ∃ fv ∈ tl, isIndexableField fv.1 = true ∧
                indexKey rt f (normalize U (sprintV v)) pk =
                  indexKey rt fv.1 (normalize U (sprintV fv.2)) pk
            · obtain ⟨fv, hfv', hind', he⟩ := hin
              have h := h1 fv hfv' hind'
              rw [← he] at h
              exact h
            · show List.lookup (indexKey rt f (normalize U (sprintV v)) pk) _ = _
              rw [h2 _ (fun fv hfv' hind' he => hin ⟨fv, hfv', hind', he⟩)]
              exact lookup_insertKV_self _ _ _
          · exact h1 fv h hind
        · intro k hk
          rw [h2 k (fun fv hfv hind => hk fv (List.mem_cons_of_mem _ hfv) hind)]
          exact lookup_insertKV_ne _ _ _ _ (hk (f, v) (List.mem_cons_self _ _) hf)
    · have hstep : createNewLoop U rt pk ((f, v) :: tl) idx = createNewLoop U rt pk tl idx := by
        simp [createNewLoop, hf]
      rw [hstep] at hok ⊢
      obtain ⟨h1, h2⟩ := ih _ hok
      refine ⟨?_, ?_⟩
      · intro fv hfv hind
        rcases List.mem_cons.1 hfv with h | h
        · subst h
          exact absurd hind hf
        · exact h1 fv h hind
      · intro k hk
        exact h2 k (fun fv hfv hind => hk fv (List.mem_cons_of_mem _ hfv) hind)

/-- The first loop of `UpdateIndexes` changes no key other than those of the
indexable fields of the old data. -/
theorem deleteOldLoop_other (U : Char → Char) (rt pk : String) (d : List (String × Value))
    (idx : Indexer) (k : String)
    (hk : ∀ fv ∈ d, isIndexableField fv.1 = true →
      k ≠ indexKey rt fv.1 (normalize U (sprintV fv.2)) pk) :
    (deleteOldLoop U rt pk d idx).db.entries.lookup k = idx.db.entries.lookup k := by
  induction d generalizing idx with
  | nil => rfl
  | cons hd tl ih =>
    obtain ⟨f, v⟩ := hd
    have htl : ∀ fv ∈ tl, isIndexableField fv.1 = true →
        k ≠ indexKey rt fv.1 (normalize U (sprintV fv.2)) pk :=
      fun fv hfv hind => hk fv (List.mem_cons_of_mem _ hfv) hind
    by_cases hf : isIndexableField f = true
    · have hne := hk (f, v) (List.mem_cons_self _ _) hf
      simp only [deleteOldLoop, hf, Bool.not_true, Bool.false_eq_true, if_false]
      rw [ih _ htl]
      by_cases hro : idx.db.readOnly = true
      · simp [DB.Delete, hro]
      · have hro' : idx.db.readOnly = false := by simpa using hro
        simp only [DB.Delete, hro', Bool.false_eq_true, if_false]
        exact lookup_eraseKV_ne _ _ _ hne
    · simp only [deleteOldLoop, hf, Bool.not_false, if_true]
      exact ih _ htl

/-- C30. After `UpdateIndexes` succeeds, the index entry
`idx:<recordType>:<f>:<normalized newData[f]>:<primaryKey>` of every
indexable field `f` of the new data reads the primary key, whatever the old
data were, the deletions being made before the creations; and when the old
and the new data are the same mapping every other key of the store reads as
before the call. -/
theorem UpdateIndexes_reestablishes (U : Char → Char) (idx : Indexer) (rt pk : String)
    (oldData : Option (List (String × Value))) (newData : List (String × Value))
    (hok : (idx.UpdateIndexes U rt pk oldData (some newData)).1 = none) :
    (∀ fv ∈ newData, isIndexableField fv.1 = true →
      (idx.UpdateIndexes U rt pk oldData (some newData)).2.db.Get
        (indexKey rt fv.1 (normalize U (sprintV fv.2)) pk) = .ok pk) ∧
    (oldData = some newData →
      ∀ k, (∀ fv ∈ newData, isIndexableField fv.1 = true →
          k ≠ indexKey rt fv.1 (normalize U (sprintV fv.2)) pk) →
        (idx.UpdateIndexes U rt pk oldData (some newData)).2.db.Get k = idx.db.Get k) := by
  refine ⟨?_, ?_⟩
  · intro fv hfv hind
    cases oldData with
    | none =>
      have hok' : (createNewLoop U rt pk newData idx).1 = none := hok
      show DB.Get (createNewLoop U rt pk newData idx).2.db _ = _
      simp [DB.Get, (createNewLoop_spec U rt pk newData idx hok').1 fv hfv hind]
    | some old =>
      have hok' : (createNewLoop U rt pk newData (deleteOldLoop U rt pk old idx)).1 = none := hok
      show DB.Get (createNewLoop U rt pk newData (deleteOldLoop U rt pk old idx)).2.db _ = _
      simp [DB.Get, (createNewLoop_spec U rt pk newData _ hok').1 fv hfv hind]
  · intro ho k hk
    subst ho
    have hok' : (createNewLoop U rt pk newData (deleteOldLoop U rt pk newData idx)).1 = none :=
      hok
    show DB.Get (createNewLoop U rt pk newData (deleteOldLoop U rt pk newData idx)).2.db _ = _
    simp [DB.Get, (createNewLoop_spec U rt pk newData _ hok').2 k hk,
      deleteOldLoop_other U rt pk newData idx k hk]

/-- Witness of C30: an update of `order:00001` with the same region and
status as before leaves both entries in place. -/
theorem UpdateIndexes_reestablishes_witness :
    ((populate exCaseTable
        [⟨"order", "region", "NA", "order:00001"⟩, ⟨"order", "status", "Shipped", "order:00001"⟩]
        exIndexer).UpdateIndexes exCaseTable "order" "order:00001"
        (some [("region", .str "NA"), ("status", .str "Shipped")])
        (some [("region", .str "NA"), ("status", .str "Shipped")])).2.db.Get
      "idx:order:region:na:order:00001" = .ok "order:00001" :=
  (UpdateIndexes_reestablishes exCaseTable
    (populate exCaseTable
      [⟨"order", "region", "NA", "order:00001"⟩, ⟨"order", "status", "Shipped", "order:00001"⟩]
      exIndexer) "order" "order:00001"
    (some [("region", .str "NA"), ("status", .str "Shipped")])
    [("region", .str "NA"), ("status", .str "Shipped")]
    (by decide)).1 ("region", .str "NA") (by simp) (by decide)

/-! ## The verdict of the validator in the two directions -/

/-- C27, evaluated on a node that holds one order and a node that holds the
same order and a value under the empty key: `countKeys` is 1 for both, the
validator reports the first against the second as identical although the
second holds a key, not starting with an underscore, that the first does
not hold, and reports the second against the first with one missing key. -/
theorem validateReplication_one_sided :
    exOrderNode.WF ∧ exEmptyKeyNode.WF ∧
    countKeys exOrderNode = 1 ∧ countKeys exEmptyKeyNode = 1 ∧
    (validateReplication numLib exOrderNode exEmptyKeyNode).identical = true ∧
    isSystemKey "" = false ∧ exEmptyKeyNode.Get "" = .ok "x" ∧
    exOrderNode.Get "" = .error .notFound ∧
    validateReplication numLib exEmptyKeyNode exOrderNode =
      .compared { mismatches := 0, missing := 1, checked := 1 } ∧
    (validateReplication numLib exEmptyKeyNode exOrderNode).identical = false := by
  decide

/-! ## Soundness of an index lookup -/

theorem ascii_lower_colon : ∀ n, n < 128 →
    (if 'A' ≤ Char.ofNat n ∧ Char.ofNat n ≤ 'Z' then Char.ofNat ((Char.ofNat n).toNat + 32)
      else Char.ofNat n) = ':' → Char.ofNat n = ':' := by
  decide

/-- Lower-casing makes a ':' of a ':' only, the case table having no other
character that it maps to ':'. -/
theorem toLowerRune_colon (U : Char → Char) (hU : ∀ c, 0x7f < c.toNat → U c ≠ ':') (c : Char)
    (h : toLowerRune U c = ':') : c = ':' := by
  by_cases hc : c.toNat ≤ 0x7f
  · have hlt : c.toNat < 128 := by omega
    have h1 := ascii_lower_colon c.toNat hlt
    rw [Char.ofNat_toNat] at h1
    apply h1
    simpa only [toLowerRune, hc, if_true] using h
  · simp only [toLowerRune, hc, if_false] at h
    exact absurd h (hU c (by omega))

/-- The normal form of a text without ':' has no ':'. -/
theorem noColon_normalize (U : Char → Char) (hU : ∀ c, 0x7f < c.toNat → U c ≠ ':')
    (v : String) (h : noColon v = true) : noColon (normalize U v) = true := by
  rw [noColon_iff] at h ⊢
  intro hm
  simp only [normalize, ToLower, TrimSpace, List.mem_map] at hm
  obtain ⟨c, hc, hcc⟩ := hm
  have hc1 : c = ':' := toLowerRune_colon U hU c hcc
  subst hc1
  apply h
  have h1 := List.mem_reverse.1 hc
  have h2 := (List.dropWhile_sublist isSpace).subset h1
  have h3 := List.mem_reverse.1 h2
  exact (List.dropWhile_sublist isSpace).subset h3

/-- C28, as the code has it: in a store whose `idx:` entries were all
written by `CreateIndex` calls whose record type, field and value contain no
':' (the primary keys may), `SearchByIndex(recordType, field, value)` for a
record type, a field and a value that contain no ':' either returns only
primary keys indexed by a call with that record type, that field and a value
of the same normal form. -/
theorem SearchByIndex_sound (U : Char → Char) (hU : ∀ c, 0x7f < c.toNat → U c ≠ ':')
    (idx : Indexer) (calls : List IndexCall)
    (hcf : ∀ c ∈ calls, noColon c.recordType = true ∧ noColon c.field = true ∧
      noColon c.value = true)
    (hidx : ∀ e ∈ idx.db.entries, hasPrefix e.1 "idx:" = true → ∃ c ∈ calls, e = c.entry U)
    (rt f v : String) (hrt : noColon rt = true) (hf : noColon f = true)
    (hv : noColon v = true) :
    ∃ rs, idx.SearchByIndex U rt f v = .ok rs ∧
      ∀ pk ∈ rs, ∃ c ∈ calls, c.primaryKey = pk ∧ c.recordType = rt ∧ c.field = f ∧
        normalize U c.value = normalize U v := by
  refine ⟨_, Indexer.SearchByIndex_eq U idx rt f v, ?_⟩
  intro pk hpk
  obtain ⟨e, he, hepk⟩ := List.mem_map.1 hpk
  obtain ⟨hein, hep⟩ := List.mem_filter.1 he
  have hidxp : hasPrefix e.1 "idx:" = true := by
    apply hasPrefix_trans e.1 _ "idx:" hep
    simp only [indexPrefix, String.append_assoc]
    exact hasPrefix_append _ _
  obtain ⟨c, hc, hce⟩ := hidx e hein hidxp
  subst hce
  obtain ⟨c1, c2, c3⟩ := hcf c hc
  have hcc : c.colonFree U = true := by
    simp [IndexCall.colonFree, c1, c2, noColon_normalize U hU c.value c3]
  have h := (entry_in_index_iff U c hcc rt f (normalize U v) hrt hf
    (noColon_normalize U hU v hv)).1 hep
  exact ⟨c, hc, hepk, h.1, h.2.1, h.2.2⟩

/-- Witness of C28 as amended: the orders of the region "NA", in a store
that also holds a document. -/
theorem SearchByIndex_sound_witness :
    ∃ rs, exSoundIndexer.SearchByIndex exCaseTable "order" "region" " na" = .ok rs ∧
      ∀ pk ∈ rs, ∃ c ∈ exSoundCalls, c.primaryKey = pk ∧ c.recordType = "order" ∧
        c.field = "region" ∧ normalize exCaseTable c.value = normalize exCaseTable " na" :=
  SearchByIndex_sound exCaseTable
    (by
      intro c h he
      have e : c = ':' := he
      subst e
      exact absurd h (by decide))
    exSoundIndexer exSoundCalls (by decide) (by decide) "order" "region" " na"
    (by decide) (by decide) (by decide)

/-- Counterexample to C28 as stated: the only index entry of the store was
written by `CreateIndex("sales", "type", "big", "order:00001")`, whose record
type, field and value contain no ':', and `SearchByIndex("sales", "type",
"big:order")` returns the primary key `order:00001`, indexed under the value
"big" and under no value whose normal form is that of "big:order". -/
theorem SearchByIndex_sound_counterexample :
    noColon "sales" = true ∧ noColon "type" = true ∧ noColon "big" = true ∧
    (populate exCaseTable [⟨"sales", "type", "big", "order:00001"⟩] exIndexer).db.entries =
      [("idx:sales:type:big:order:00001", "order:00001")] ∧
    (populate exCaseTable [⟨"sales", "type", "big", "order:00001"⟩] exIndexer).SearchByIndex
      exCaseTable "sales" "type" "big:order" = .ok ["order:00001"] ∧
    normalize exCaseTable "big" ≠ normalize exCaseTable "big:order" := by
  decide

/-! ## Import of replication records -/

theorem applyBatch_append (b1 b2 : Batch) (l : List (String × String)) :
    applyBatch (b1 ++ b2) l = applyBatch b2 (applyBatch b1 l) := by
  simp [applyBatch, List.foldl_append]

theorem importLoop_skip (R : ReplLib) (n i : Nat) (r : ReplicationEntry)
    (rest : List ReplicationEntry) (st : ImportState) (hd : r.decoded R = none) :
    importLoop R n i (r :: rest) st = importLoop R n (i + 1) rest st := by
  have hd' : (if r.IsRaw then R.decodeString r.RawValue else some r.Value) = none := hd
  simp only [importLoop, hd']

theorem importLoop_write (R : ReplLib) (n i : Nat) (r : ReplicationEntry)
    (rest : List ReplicationEntry) (st : ImportState) (v : String)
    (hd : r.decoded R = some v) (hfl : st.batchSize + 1 ≥ 1000 ∨ i = n - 1) :
    importLoop R n i (r :: rest) st = importLoop R n (i + 1) rest
      (ImportState.mk (st.db.Write (st.batch ++ [(r.Key, v)])).2 [] 0
        (match (st.db.Write (st.batch ++ [(r.Key, v)])).1 with
         | some _ => st.totalImported
         | none => st.totalImported + (st.batchSize + 1))) := by
  have hd' : (if r.IsRaw then R.decodeString r.RawValue else some r.Value) = some v := hd
  simp only [importLoop, hd', hfl, if_true]

theorem importLoop_keep (R : ReplLib) (n i : Nat) (r : ReplicationEntry)
    (rest : List ReplicationEntry) (st : ImportState) (v : String)
    (hd : r.decoded R = some v) (hfl : ¬ (st.batchSize + 1 ≥ 1000 ∨ i = n - 1)) :
    importLoop R n i (r :: rest) st = importLoop R n (i + 1) rest
      (ImportState.mk st.db (st.batch ++ [(r.Key, v)]) (st.batchSize + 1) st.totalImported) := by
  have hd' : (if r.IsRaw then R.decodeString r.RawValue else some r.Value) = some v := hd
  simp only [importLoop, hd', hfl, if_false]

/-- The invariant of the loop of `importNode` on a writable store: the
store with the pending batch replayed over it holds every decodable record
met so far, and the total and the pending size add up to their number. -/
theorem importLoop_spec (R : ReplLib) (n i : Nat) (rest : List ReplicationEntry)
    (st : ImportState) (hro : st.db.readOnly = false) (hsz : st.batchSize = st.batch.length) :
    (importLoop R n i rest st).db.readOnly = false ∧
    (importLoop R n i rest st).batchSize = (importLoop R n i rest st).batch.length ∧
    applyBatch (importLoop R n i rest st).batch (importLoop R n i rest st).db.entries =
      applyBatch (st.batch ++ rest.filterMap (fun r => (r.decoded R).map (fun v => (r.Key, v))))
        st.db.entries ∧
    (importLoop R n i rest st).totalImported + (importLoop R n i rest st).batchSize =
      st.totalImported + st.batchSize +
        (rest.filterMap (fun r => (r.decoded R).map (fun v => (r.Key, v)))).length := by
  induction rest generalizing i st with
  | nil => simp [importLoop, hro, hsz]
  | cons r rest ih =>
    cases hd : r.decoded R with
    | none =>
      rw [importLoop_skip R n i r rest st hd]
      obtain ⟨h1, h2, h3, h4⟩ := ih (i + 1) st hro hsz
      refine ⟨h1, h2, ?_, ?_⟩
      · rw [h3]; simp [List.filterMap_cons, hd]
      · rw [h4]; simp [List.filterMap_cons, hd]
    | some v =>
      by_cases hfl : st.batchSize + 1 ≥ 1000 ∨ i = n - 1
      · rw [importLoop_write R n i r rest st v hd hfl]
        have hw : st.db.Write (st.batch ++ [(r.Key, v)]) =
            (none, DB.mk (applyBatch (st.batch ++ [(r.Key, v)]) st.db.entries) false) := by
          simp [DB.Write, hro]
        rw [hw]
        obtain ⟨h1, h2, h3, h4⟩ := ih (i + 1)
          (ImportState.mk (DB.mk (applyBatch (st.batch ++ [(r.Key, v)]) st.db.entries) false)
            [] 0 (st.totalImported + (st.batchSize + 1))) rfl rfl
        refine ⟨h1, h2, ?_, ?_⟩
        · rw [h3]
          simp [List.filterMap_cons, hd, applyBatch_append]
          rfl
        · rw [h4]
          simp [List.filterMap_cons, hd]
          omega
      · rw [importLoop_keep R n i r rest st v hd hfl]
        obtain ⟨h1, h2, h3, h4⟩ := ih (i + 1)
          (ImportState.mk st.db (st.batch ++ [(r.Key, v)]) (st.batchSize + 1) st.totalImported)
          hro (by simp [hsz])
        refine ⟨h1, h2, ?_, ?_⟩
        · rw [h3]
          simp [List.filterMap_cons, hd]
        · rw [h4]
          simp [List.filterMap_cons, hd]
          omega

/-- When the last record is decodable the loop of `importNode` ends with an
empty pending batch. -/
theorem importLoop_flush (R : ReplLib) (n i : Nat) (rest : List ReplicationEntry)
    (st : ImportState) (hn : i + rest.length = n) (hne : rest ≠ [])
    (hlast : ∀ r, rest.getLast? = some r → (r.decoded R).isSome = true) :
    (importLoop R n i rest st).batch = [] := by
  induction rest generalizing i st with
  | nil => exact absurd rfl hne
  | cons r rest ih =>
    cases rest with
    | nil =>
      have hi : i = n - 1 := by simp at hn; omega
      have hr := hlast r rfl
      cases hd : r.decoded R with
      | none => rw [hd] at hr; cases hr
      | some v =>
        rw [importLoop_write R n i r [] st v hd (Or.inr hi)]
        rfl
    | cons r2 rest2 =>
      have hn' : i + 1 + (r2 :: rest2).length = n := by
        simp only [List.length_cons] at hn ⊢
        omega
      have hlast' : ∀ x, (r2 :: rest2).getLast? = some x → (x.decoded R).isSome = true := by
        intro x hx
        apply hlast x
        rw [List.getLast?_cons_cons]
        exact hx
      cases hd : r.decoded R with
      | none =>
        rw [importLoop_skip R n i r _ st hd]
        exact ih (i + 1) st hn' (by simp) hlast'
      | some v =>
        by_cases hfl : st.batchSize + 1 ≥ 1000 ∨ i = n - 1
        · rw [importLoop_write R n i r _ st v hd hfl]
          exact ih (i + 1) _ hn' (by simp) hlast'
        · rw [importLoop_keep R n i r _ st v hd hfl]
          exact ih (i + 1) _ hn' (by simp) hlast'

/-- On a writable store, when the last record is decodable, `importNode`
leaves the store with the decodable records replayed over it, in the order
of the file, and reports their number. -/
theorem importEntries_eq (R : ReplLib) (db : DB) (rs : List ReplicationEntry)
    (hro : db.readOnly = false)
    (hlast : ∀ r, rs.getLast? = some r → (r.decoded R).isSome = true) :
    (importEntries R db rs).1.entries =
      applyBatch (rs.filterMap (fun r => (r.decoded R).map (fun v => (r.Key, v)))) db.entries ∧
    (importEntries R db rs).1.readOnly = false ∧
    (importEntries R db rs).2 =
      (rs.filterMap (fun r => (r.decoded R).map (fun v => (r.Key, v)))).length := by
  obtain ⟨h1, h2, h3, h4⟩ := importLoop_spec R rs.length 0 rs
    { db := db, batch := [], batchSize := 0, totalImported := 0 } hro rfl
  have hb : (importLoop R rs.length 0 rs
      { db := db, batch := [], batchSize := 0, totalImported := 0 }).batch = [] := by
    cases rs with
    | nil => rfl
    | cons r rest =>
      exact importLoop_flush R _ 0 (r :: rest) _ (by simp) (by simp) hlast
  rw [hb] at h2 h3
  rw [h2] at h4
  simp only [importEntries]
  refine ⟨?_, h1, ?_⟩
  · simpa [applyBatch] using h3
  · simpa using h4

/-- C29, evaluated on two records of which the second, the last of the
file, carries a text that is not base64: the first record is decodable and
the store accepts every write, yet after `importNode` the store does not
hold it and the reported total is 0; with the two records in the other order
it is written and the total is 1. -/
theorem importNode_drops_pending_batch :
    exReplLib.unmarshalEntries (exFileText exBrokenRecords) = some exBrokenRecords ∧
    exBrokenRecords.map (ReplicationEntry.decoded exReplLib) = [some "1000", none] ∧
    importNode exReplLib { entries := [], readOnly := false } (exFileText exBrokenRecords) =
      some ({ entries := [], readOnly := false }, 0) ∧
    importNode exReplLib { entries := [], readOnly := false }
        (exFileText exBrokenRecordsSwapped) =
      some ({ entries := [("order:1", "1000")], readOnly := false }, 1) := by
  decide

/-! ## Export of a store -/

theorem Join_cons_append (a t sep : String) (ts : List String) :
    Join ((a ++ sep ++ t) :: ts) sep = a ++ sep ++ Join (t :: ts) sep := by
  cases ts with
  | nil => rfl
  | cons b rest => simp [Join, String.append_assoc]

theorem Join_head_append (a t sep : String) (ts : List String) :
    Join ((a ++ t) :: ts) sep = a ++ Join (t :: ts) sep := by
  cases ts with
  | nil => rfl
  | cons b rest => simp [Join, String.append_assoc]

/-- The loop of `exportNode` after the first record, every record being
serialized: each text is written after a separator. -/
theorem exportLoop_rest (L : GoLib Doc) (R : ReplLib) (items : List (String × String))
    (st : ExportState) (hf : st.first = false)
    (hM : ∀ e ∈ items, isSystemKey e.1 = false →
      (R.marshalIndent (exportRecord L R e.1 e.2)).isSome = true) :
    exportLoop L R items st =
      { file := Join (st.file :: ((items.filter (fun e => !isSystemKey e.1)).map
          (fun e => (R.marshalIndent (exportRecord L R e.1 e.2)).getD ""))) ",\n",
        count := st.count + (items.filter (fun e => !isSystemKey e.1)).length,
        first := false } := by
  induction items generalizing st with
  | nil =>
    cases st
    simp only at hf
    simp [exportLoop, Join, hf]
  | cons hd tl ih =>
    obtain ⟨k, v⟩ := hd
    have htl : ∀ e ∈ tl, isSystemKey e.1 = false →
        (R.marshalIndent (exportRecord L R e.1 e.2)).isSome = true :=
      fun e he => hM e (List.mem_cons_of_mem _ he)
    by_cases hs : isSystemKey k = true
    · simp [exportLoop, hs, ih st hf htl, List.filter]
    · have hs' : isSystemKey k = false := by simpa using hs
      have hm := hM (k, v) (List.mem_cons_self _ _) hs'
      cases ht : R.marshalIndent (exportRecord L R k v) with
      | none => simp [ht] at hm
      | some t =>
        have hstep : exportLoop L R ((k, v) :: tl) st = exportLoop L R tl
            (ExportState.mk (st.file ++ ",\n" ++ t) (st.count + 1) false) := by
          simp [exportLoop, hs', ht, hf]
        rw [hstep, ih _ rfl htl]
        simp only [List.filter, hs', Bool.not_false, List.map_cons, ht, Option.getD_some,
          List.length_cons, Join_cons_append]
        have e1 : Join (st.file :: t :: List.map
            (fun e => (R.marshalIndent (exportRecord L R e.1 e.2)).getD "")
            (List.filter (fun e => !isSystemKey e.1) tl)) ",\n" =
            st.file ++ ",\n" ++ Join (t :: List.map
              (fun e => (R.marshalIndent (exportRecord L R e.1 e.2)).getD "")
              (List.filter (fun e => !isSystemKey e.1) tl)) ",\n" := rfl
        rw [e1]
        congr 1
        omega

/-- The loop of `exportNode` from its first record, every record being
serialized: the texts of the records, with a separator between two. -/
theorem exportLoop_first (L : GoLib Doc) (R : ReplLib) (items : List (String × String))
    (file : String)
    (hM : ∀ e ∈ items, isSystemKey e.1 = false →
      (R.marshalIndent (exportRecord L R e.1 e.2)).isSome = true) :
    (exportLoop L R items { file := file, count := 0, first := true }).file =
      file ++ Join ((items.filter (fun e => !isSystemKey e.1)).map
          (fun e => (R.marshalIndent (exportRecord L R e.1 e.2)).getD "")) ",\n" ∧
    (exportLoop L R items { file := file, count := 0, first := true }).count =
      (items.filter (fun e => !isSystemKey e.1)).length := by
  induction items with
  | nil => simp [exportLoop, Join]
  | cons hd tl ih =>
    obtain ⟨k, v⟩ := hd
    have htl : ∀ e ∈ tl, isSystemKey e.1 = false →
        (R.marshalIndent (exportRecord L R e.1 e.2)).isSome = true :=
      fun e he => hM e (List.mem_cons_of_mem _ he)
    by_cases hs : isSystemKey k = true
    · simpa [exportLoop, hs, List.filter] using ih htl
    · have hs' : isSystemKey k = false := by simpa using hs
      have hm := hM (k, v) (List.mem_cons_self _ _) hs'
      cases ht : R.marshalIndent (exportRecord L R k v) with
      | none => simp [ht] at hm
      | some t =>
        have hstep : exportLoop L R ((k, v) :: tl) { file := file, count := 0, first := true } =
            exportLoop L R tl (ExportState.mk (file ++ t) (0 + 1) false) := by
          simp [exportLoop, hs', ht]
        rw [hstep, exportLoop_rest L R tl _ rfl htl]
        simp only [List.filter, hs', Bool.not_false, List.map_cons, ht, Option.getD_some,
          List.length_cons, Join_head_append]
        constructor <;> first | trivial | rfl | omega

/-- The file and the count of `exportNode`, every record being serialized:
the texts of the records of the export between brackets, and their
number. -/
theorem exportNode_eq (L : GoLib Doc) (R : ReplLib) (db : DB)
    (hM : ∀ e ∈ db.entries, isSystemKey e.1 = false →
      (R.marshalIndent (exportRecord L R e.1 e.2)).isSome = true) :
    exportNode L R db =
      ("[\n" ++ Join ((exportRecords L R db).map (fun r => (R.marshalIndent r).getD "")) ",\n"
        ++ "\n]", (exportRecords L R db).length) := by
  obtain ⟨h1, h2⟩ := exportLoop_first L R db.entries "[\n" hM
  simp only [exportNode, DB.NewIterator, exportRecords, h1, h2, List.map_map, List.length_map]
  rfl

/-! ## Transport of the records -/

theorem exportRecord_Key (L : GoLib Doc) (R : ReplLib) (k v : String) :
    (exportRecord L R k v).Key = k := by
  unfold exportRecord
  split <;> rfl

theorem exportRecord_IsRaw (L : GoLib Doc) (R : ReplLib) (k v : String) :
    (exportRecord L R k v).IsRaw = (hasPrefix k "idx:" || !isValidJSON L v) := by
  unfold exportRecord
  split
  · rename_i h; rw [h]
  · rename_i h
    have : (hasPrefix k "idx:" || !isValidJSON L v) = false := by simpa using h
    rw [this]

theorem exportRecord_raw (L : GoLib Doc) (R : ReplLib) (k v : String)
    (h : (exportRecord L R k v).IsRaw = true) :
    (exportRecord L R k v).RawValue = R.encodeToString v := by
  rw [exportRecord_IsRaw] at h
  simp only [exportRecord, h, if_true]

theorem exportRecord_plain (L : GoLib Doc) (R : ReplLib) (k v : String)
    (h : (exportRecord L R k v).IsRaw = false) :
    (exportRecord L R k v).Value = v ∧ hasPrefix k "idx:" = false ∧ isValidJSON L v = true := by
  rw [exportRecord_IsRaw] at h
  refine ⟨?_, ?_, ?_⟩
  · simp only [exportRecord, h, Bool.false_eq_true, if_false]
  · simp only [Bool.or_eq_false_iff] at h
    exact h.1
  · simp only [Bool.or_eq_false_iff, Bool.not_eq_false'] at h
    exact h.2

/-- What the records read back from a file give to `importNode`, base64
decoding undoing the encoding of the raw records: every record read back is
decodable, and each record of the export has its key among the pairs to
write, once, with the bytes of its raw value or the text that carries its
structured value. -/
theorem carried_pairs (L : GoLib Doc) (R : ReplLib) (recs rs : List ReplicationEntry)
    (h : List.Forall₂ (ReplicationEntry.Carries L) recs rs)
    (h64 : ∀ r ∈ recs, r.IsRaw = true → (R.decodeString r.RawValue).isSome = true) :
    (∀ r' ∈ rs, (r'.decoded R).isSome = true) ∧
    (rs.filterMap (fun r => (r.decoded R).map (fun v => (r.Key, v)))).map Prod.fst =
      recs.map (fun r => r.Key) ∧
    (∀ r ∈ recs, ∃ r' v, ReplicationEntry.Carries L r r' ∧ r'.decoded R = some v ∧
      (r.Key, v) ∈ rs.filterMap (fun r => (r.decoded R).map (fun v => (r.Key, v)))) := by
  induction h with
  | nil => simp
  | @cons r r' recs rs hc _ ih =>
    obtain ⟨i1, i2, i3⟩ := ih (fun x hx => h64 x (List.mem_cons_of_mem _ hx))
    obtain ⟨c1, c2, c3, c4⟩ := hc
    have hdec : ∃ v, r'.decoded R = some v := by
      unfold ReplicationEntry.decoded
      by_cases hr : r.IsRaw = true
      · have := h64 r (List.mem_cons_self _ _) hr
        rw [c2, hr, c3]
        simp only [if_true]
        exact Option.isSome_iff_exists.1 this
      · have hr' : r.IsRaw = false := by simpa using hr
        rw [c2, hr']
        exact ⟨_, rfl⟩
    obtain ⟨v, hv⟩ := hdec
    refine ⟨?_, ?_, ?_⟩
    · intro x hx
      rcases List.mem_cons.1 hx with hx | hx
      · rw [hx, hv]; rfl
      · exact i1 x hx
    · simp [List.filterMap_cons, hv, i2, c1]
    · intro x hx
      rcases List.mem_cons.1 hx with hx | hx
      · subst hx
        refine ⟨r', v, ⟨c1, c2, c3, c4⟩, hv, ?_⟩
        simp [List.filterMap_cons, hv, c1]
      · obtain ⟨x', w, a1, a2, a3⟩ := i3 x hx
        refine ⟨x', w, a1, a2, ?_⟩
        simp only [List.filterMap_cons, hv, Option.map_some']
        exact List.mem_cons_of_mem _ a3

theorem exportRecords_keys (L : GoLib Doc) (R : ReplLib) (db : DB) :
    (exportRecords L R db).map (fun r => r.Key) =
      (db.entries.map Prod.fst).filter (fun k => !isSystemKey k) := by
  simp only [exportRecords, DB.NewIterator, List.map_map]
  have e : ((fun r : ReplicationEntry => r.Key) ∘ fun e : String × String =>
      exportRecord L R e.1 e.2) = Prod.fst := by
    funext e
    exact exportRecord_Key L R e.1 e.2
  rw [e]
  induction db.entries with
  | nil => rfl
  | cons hd tl ih =>
    by_cases hs : isSystemKey hd.1 = true
    · simp [List.filter, hs, ih]
    · have hs' : isSystemKey hd.1 = false := by simpa using hs
      simp [List.filter, hs', ih]

/-- Under the contract of the libraries, what a writable store holds after
the import of the export of a well-formed store: every entry of the source
whose key does not start with an underscore is read back, a raw record with
the bytes of the source, another record with a text that `json.Unmarshal`
reads as the same value; every other key reads as before. -/
theorem import_export (L : GoLib Doc) (R : ReplLib) (A T : DB) (rs : List ReplicationEntry)
    (hA : A.WF) (hT : T.readOnly = false) (hC : R.Transports L A rs) :
    importNode R T (exportNode L R A).1 = some (importEntries R T rs) ∧
    (importEntries R T rs).1.readOnly = false ∧
    (importEntries R T rs).2 = (A.entries.filter (fun e => !isSystemKey e.1)).length ∧
    (∀ e ∈ A.entries, isSystemKey e.1 = false →
      ∃ v, (importEntries R T rs).1.entries.lookup e.1 = some v ∧
        ((exportRecord L R e.1 e.2).IsRaw = true → v = e.2) ∧
        ((exportRecord L R e.1 e.2).IsRaw = false → L.unmarshal v = L.unmarshal e.2)) ∧
    (∀ k, k ∉ (A.entries.map Prod.fst).filter (fun k => !isSystemKey k) →
      (importEntries R T rs).1.entries.lookup k = T.entries.lookup k) ∧
    (importEntries R T rs).1.entries =
      applyBatch (rs.filterMap (fun r => (r.decoded R).map (fun v => (r.Key, v)))) T.entries := by
  obtain ⟨hM, h64, hU, hF⟩ := hC
  have h64' : ∀ r ∈ exportRecords L R A, r.IsRaw = true →
      (R.decodeString r.RawValue).isSome = true := by
    intro r hr hraw
    simp only [exportRecords, DB.NewIterator, List.mem_map] at hr
    obtain ⟨e, he, her⟩ := hr
    obtain ⟨hein, hns⟩ := List.mem_filter.1 he
    subst her
    rw [exportRecord_raw L R e.1 e.2 hraw, h64 e hein (by simpa using hns) hraw]
    rfl
  obtain ⟨p1, p2, p3⟩ := carried_pairs L R _ rs hF h64'
  have hlast : ∀ r, rs.getLast? = some r → (r.decoded R).isSome = true :=
    fun r hr => p1 r (List.mem_of_mem_getLast? hr)
  obtain ⟨q1, q2, q3⟩ := importEntries_eq R T rs hT hlast
  have hkeys := exportRecords_keys L R A
  have hnodup : ((rs.filterMap (fun r => (r.decoded R).map (fun v => (r.Key, v)))).map
      Prod.fst).Nodup := by
    rw [p2, hkeys]
    apply List.Nodup.filter
    have : (A.entries.map Prod.fst).Pairwise (fun a b => a ≠ b) := by
      apply List.Pairwise.imp _ hA
      intro a b hab he
      rw [he, keyLt_irrefl] at hab
      cases hab
    exact this
  refine ⟨?_, q2, ?_, ?_, ?_, q1⟩
  · simp [importNode, hU]
  · rw [q3]
    have := congrArg List.length p2
    simp only [List.length_map] at this
    rw [this]
    simp [exportRecords, DB.NewIterator]
  · intro e he hs
    have hr : exportRecord L R e.1 e.2 ∈ exportRecords L R A := by
      simp only [exportRecords, DB.NewIterator, List.mem_map]
      exact ⟨e, List.mem_filter.2 ⟨he, by simp [hs]⟩, rfl⟩
    obtain ⟨r', v, hc, hd, hmem⟩ := p3 _ hr
    have hk : (exportRecord L R e.1 e.2).Key = e.1 := exportRecord_Key L R e.1 e.2
    rw [hk] at hmem
    refine ⟨v, ?_, ?_, ?_⟩
    · rw [q1]
      exact lookup_applyBatch_of_mem _ _ _ _ hnodup hmem
    · intro hraw
      obtain ⟨c1, c2, c3, c4⟩ := hc
      unfold ReplicationEntry.decoded at hd
      rw [c2, hraw, c3] at hd
      simp only [if_true] at hd
      rw [exportRecord_raw L R e.1 e.2 hraw, h64 e he hs hraw] at hd
      exact (Option.some.inj hd).symm
    · intro hraw
      obtain ⟨c1, c2, c3, c4⟩ := hc
      unfold ReplicationEntry.decoded at hd
      rw [c2, hraw] at hd
      simp only [Bool.false_eq_true, if_false] at hd
      have hv := Option.some.inj hd
      rw [← hv, c4 hraw, (exportRecord_plain L R e.1 e.2 hraw).1]
  · intro k hk
    rw [q1]
    apply lookup_applyBatch_of_not_mem
    rw [p2, hkeys]
    exact hk

/-! ## Export followed by import -/

/-- C24. Under the contract of the libraries at the export of a well-formed
store, `exportNode` writes between brackets the records of the keys that do
not start with an underscore, one per key and in ascending key order, and
counts them; a record is raw exactly when its key has the prefix `idx:` or
its value is not valid JSON; and `importNode` of the file into a writable
store writes at the key of every record a value that is byte for byte the
source value when the record is raw, and otherwise a valid JSON text that
`compareJSON` finds equal to the source value. -/
theorem export_import_roundtrip (L : GoLib Doc) (R : ReplLib) (A T : DB)
    (rs : List ReplicationEntry) (hA : A.WF) (hT : T.readOnly = false)
    (hC : R.Transports L A rs) :
    exportNode L R A =
      ("[\n" ++ Join ((exportRecords L R A).map (fun r => (R.marshalIndent r).getD "")) ",\n"
        ++ "\n]", (exportRecords L R A).length) ∧
    (exportRecords L R A).map (fun r => r.Key) =
      (A.entries.map Prod.fst).filter (fun k => !isSystemKey k) ∧
    ((exportRecords L R A).map (fun r => r.Key)).Pairwise (fun a b => keyLt a b = true) ∧
    (∀ e ∈ A.entries, isSystemKey e.1 = false →
      exportRecord L R e.1 e.2 ∈ exportRecords L R A ∧
      ((exportRecord L R e.1 e.2).IsRaw = true ↔
        (hasPrefix e.1 "idx:" = true ∨ isValidJSON L e.2 = false))) ∧
    ∃ T' n, importNode R T (exportNode L R A).1 = some (T', n) ∧
      n = (exportRecords L R A).length ∧
      ∀ e ∈ A.entries, isSystemKey e.1 = false →
        ∃ v, T'.Get e.1 = .ok v ∧
          ((exportRecord L R e.1 e.2).IsRaw = true → v = e.2) ∧
          ((exportRecord L R e.1 e.2).IsRaw = false →
            isValidJSON L v = true ∧ compareJSON L e.2 v = true) := by
  obtain ⟨i1, i2, i3, i4, i5, i6⟩ := import_export L R A T rs hA hT hC
  have hkeys := exportRecords_keys L R A
  refine ⟨exportNode_eq L R A hC.1, hkeys, ?_, ?_, ?_⟩
  · rw [hkeys]
    exact List.Pairwise.filter _ hA
  · intro e he hs
    refine ⟨?_, ?_⟩
    · simp only [exportRecords, DB.NewIterator, List.mem_map]
      exact ⟨e, List.mem_filter.2 ⟨he, by simp [hs]⟩, rfl⟩
    · rw [exportRecord_IsRaw]
      simp
  · refine ⟨(importEntries R T rs).1, (importEntries R T rs).2, i1, ?_, ?_⟩
    · rw [i3]
      simp [exportRecords, DB.NewIterator]
    · intro e he hs
      obtain ⟨v, hv, hraw, hplain⟩ := i4 e he hs
      refine ⟨v, by simp [DB.Get, hv], hraw, ?_⟩
      intro hp
      have hu := hplain hp
      obtain ⟨_, _, hvalid⟩ := exportRecord_plain L R e.1 e.2 hp
      unfold isValidJSON at hvalid ⊢
      unfold compareJSON
      rw [hu]
      cases ho : L.unmarshal e.2 with
      | none => rw [ho] at hvalid; cases hvalid
      | some o => simp

/-- Witness of C24: the export of a node that holds a system key, an index
entry, a value that is not JSON and an order, imported into an empty
store. -/
theorem export_import_roundtrip_witness :
    ∃ T' n, importNode exReplLib { entries := [], readOnly := false }
        (exportNode numLib exReplLib exExportNode).1 = some (T', n) ∧
      n = (exportRecords numLib exReplLib exExportNode).length ∧
      ∀ e ∈ exExportNode.entries, isSystemKey e.1 = false →
        ∃ v, T'.Get e.1 = .ok v ∧
          ((exportRecord numLib exReplLib e.1 e.2).IsRaw = true → v = e.2) ∧
          ((exportRecord numLib exReplLib e.1 e.2).IsRaw = false →
            isValidJSON numLib v = true ∧ compareJSON numLib e.2 v = true) :=
  (export_import_roundtrip numLib exReplLib exExportNode { entries := [], readOnly := false }
    (exExportRecords.map exReparse) (by decide) rfl
    ⟨by decide, by decide, by decide, by
      have h : exportRecords numLib exReplLib exExportNode = exExportRecords := by decide
      rw [h]
      exact List.Forall₂.cons ⟨rfl, rfl, rfl, fun h => absurd h (by decide)⟩
        (List.Forall₂.cons ⟨rfl, rfl, rfl, fun h => absurd h (by decide)⟩
          (List.Forall₂.cons ⟨rfl, rfl, rfl, fun _ => by decide⟩ List.Forall₂.nil))⟩).2.2.2.2

/-- An instance of C24: the file of the export, and the store after the
file is imported into an empty store: the order comes back without the blank
of the source. -/
theorem export_import_roundtrip_example :
    (exportNode numLib exReplLib exExportNode).1 =
      "[\n\x7b\n    \"key\": \"idx:order:region:na:order:1\",\n    \"raw_value\": \"b3JkZXI6MQ==\",\n    \"is_raw\": true\n  \x7d,\n\x7b\n    \"key\": \"note\",\n    \"raw_value\": \"eA==\",\n    \"is_raw\": true\n  \x7d,\n\x7b\n    \"key\": \"order:1\",\n    \"value\": 1000\n  \x7d\n]" ∧
    importNode exReplLib { entries := [], readOnly := false }
        (exportNode numLib exReplLib exExportNode).1 =
      some ({ entries := [("idx:order:region:na:order:1", "order:1"), ("note", "x"),
                ("order:1", "1000")], readOnly := false }, 3) := by
  decide

/-! ## The conflict scenario -/

theorem mem_keys_iff (l : List (String × String)) (k : String) :
    k ∈ l.map Prod.fst ↔ ∃ v, l.lookup k = some v := by
  constructor
  · intro h
    obtain ⟨v, _, hv⟩ := lookup_mem_of_mem_keys l k h
    exact ⟨v, hv⟩
  · rintro ⟨v, hv⟩
    exact List.mem_map_of_mem Prod.fst (mem_of_lookup l k v hv)

theorem mem_keys_insertKV (k v k2 : String) (l : List (String × String)) :
    k2 ∈ (insertKV k v l).map Prod.fst ↔ k2 = k ∨ k2 ∈ l.map Prod.fst := by
  rw [mem_keys_iff, mem_keys_iff]
  by_cases h : k2 = k
  · subst h
    simp [lookup_insertKV_self]
  · rw [lookup_insertKV_ne _ _ _ _ h]
    simp [h]

/-- Two ascending lists of keys with the same members are equal. -/
theorem sorted_keys_ext (l1 l2 : List String)
    (h1 : l1.Pairwise (fun a b => keyLt a b = true))
    (h2 : l2.Pairwise (fun a b => keyLt a b = true)) (h : ∀ k, k ∈ l1 ↔ k ∈ l2) : l1 = l2 := by
  haveI : IsAntisymm String (fun a b => keyLt a b = true) :=
    ⟨fun a b hab hba => by rw [keyLt_asymm a b hab] at hba; cases hba⟩
  have hn : ∀ l : List String, l.Pairwise (fun a b => keyLt a b = true) → l.Nodup := by
    intro l hl
    apply List.Pairwise.imp _ hl
    intro a b hab he
    rw [he, keyLt_irrefl] at hab
    cases hab
  exact List.eq_of_perm_of_sorted ((List.perm_ext_iff_of_nodup (hn l1 h1) (hn l2 h2)).2 h) h1 h2

/-- An upsert under a key the store holds keeps the keys of the store. -/
theorem keys_applyBatch_of_subset (batch : Batch) (l : List (String × String))
    (hs : (l.map Prod.fst).Pairwise (fun a b => keyLt a b = true))
    (hsub : ∀ k ∈ batch.map Prod.fst, k ∈ l.map Prod.fst) :
    (applyBatch batch l).map Prod.fst = l.map Prod.fst := by
  induction batch generalizing l with
  | nil => rfl
  | cons hd tl ih =>
    have hk : hd.1 ∈ l.map Prod.fst := hsub hd.1 (by simp)
    have h1 : (insertKV hd.1 hd.2 l).map Prod.fst = l.map Prod.fst := by
      apply sorted_keys_ext _ _ (insertKV_sorted hd.1 hd.2 l hs) hs
      intro k
      rw [mem_keys_insertKV]
      constructor
      · rintro (h | h)
        · rw [h]; exact hk
        · exact h
      · exact Or.inr
    show (applyBatch tl (insertKV hd.1 hd.2 l)).map Prod.fst = l.map Prod.fst
    rw [ih _ (insertKV_sorted hd.1 hd.2 l hs), h1]
    intro k hkt
    rw [h1]
    exact hsub k (List.mem_cons_of_mem _ hkt)

theorem countKeys_of_keys (A B : DB)
    (h : (A.entries.map Prod.fst).filter (fun k => !isSystemKey k) =
      (B.entries.map Prod.fst).filter (fun k => !isSystemKey k)) :
    countKeys A = countKeys B := by
  rw [countKeys_eq, countKeys_eq]
  have e : ∀ l : List (String × String), (l.filter (fun e => countsKey e.1)).length =
      (((l.map Prod.fst).filter (fun k => !isSystemKey k)).filter
        (fun k => !k.data.isEmpty)).length := by
    intro l
    rw [List.filter_filter]
    induction l with
    | nil => rfl
    | cons hd tl ih =>
      simp only [List.map_cons, List.filter_cons, countsKey_eq hd.1]
      cases h1 : isSystemKey hd.1 <;> cases h2 : hd.1.data.isEmpty <;>
        simp [h1, h2, ih]
  rw [e, e, h]

/-- Over entries that the second node holds with a value the validator
finds equal, the loop of the validator only counts the non-system keys as
checked. -/
theorem validateLoop_equal (L : GoLib Doc) (db2 : DB) (items : List (String × String))
    (st : Counters)
    (h : ∀ e ∈ items, isSystemKey e.1 = false →
      ∃ v, db2.Get e.1 = .ok v ∧ valuesEqual L e.1 e.2 v = true) :
    validateLoop L db2 items st =
      { st with checked := st.checked +
          (items.filter (fun e => !isSystemKey e.1)).length } := by
  induction items generalizing st with
  | nil => simp [validateLoop]
  | cons hd tl ih =>
    obtain ⟨k, v⟩ := hd
    have htl : ∀ e ∈ tl, isSystemKey e.1 = false →
        ∃ v, db2.Get e.1 = .ok v ∧ valuesEqual L e.1 e.2 v = true :=
      fun e he => h e (List.mem_cons_of_mem _ he)
    by_cases hs : isSystemKey k = true
    · simp [validateLoop, hs, ih _ htl, List.filter]
    · have hs' : isSystemKey k = false := by simpa using hs
      obtain ⟨w, hg, hv⟩ := h (k, v) (List.mem_cons_self _ _) hs'
      simp only [] at hg hv
      simp [validateLoop, hs', hg, hv, ih _ htl, List.filter]
      omega

/-- Under the contract of the libraries, after the export of a well-formed
store is imported into a writable well-formed store that holds the same
non-system keys, the target holds under each of these keys a value that the
validator finds equal to the source value, and the validator reports the two
stores as identical. -/
theorem replication_identical (L : GoLib Doc) (R : ReplLib) (A B : DB)
    (rs : List ReplicationEntry) (hA : A.WF) (hB : B.WF) (hBw : B.readOnly = false)
    (hkeys : (A.entries.map Prod.fst).filter (fun k => !isSystemKey k) =
      (B.entries.map Prod.fst).filter (fun k => !isSystemKey k))
    (hC : R.Transports L A rs) :
    importNode R B (exportNode L R A).1 = some (importEntries R B rs) ∧
    (∀ e ∈ A.entries, isSystemKey e.1 = false →
      ∃ v, (importEntries R B rs).1.Get e.1 = .ok v ∧ valuesEqual L e.1 e.2 v = true) ∧
    validateReplication L A (importEntries R B rs).1 =
      .compared { mismatches := 0, missing := 0,
                  checked := (A.entries.filter (fun e => !isSystemKey e.1)).length } := by
  obtain ⟨i1, i2, i3, i4, i5, i6⟩ := import_export L R A B rs hA hBw hC
  have hval : ∀ e ∈ A.entries, isSystemKey e.1 = false →
      ∃ v, (importEntries R B rs).1.Get e.1 = .ok v ∧ valuesEqual L e.1 e.2 v = true := by
    intro e he hs
    obtain ⟨v, hv, hraw, hplain⟩ := i4 e he hs
    refine ⟨v, by simp [DB.Get, hv], ?_⟩
    cases hr : (exportRecord L R e.1 e.2).IsRaw with
    | true =>
      rw [hraw hr]
      exact valuesEqual_self L e.1 e.2
    | false =>
      obtain ⟨_, hidx, hvalid⟩ := exportRecord_plain L R e.1 e.2 hr
      have hu := hplain hr
      have hvalid' : isValidJSON L v = true := by
        unfold isValidJSON at hvalid ⊢
        rw [hu]
        exact hvalid
      have hcmp : compareJSON L e.2 v = true := by
        unfold isValidJSON at hvalid
        unfold compareJSON
        rw [hu]
        cases ho : L.unmarshal e.2 with
        | none => rw [ho] at hvalid; cases hvalid
        | some o => simp
      simp [valuesEqual, hidx, hvalid, hvalid', hcmp]
  have hpk : (rs.filterMap (fun r => (r.decoded R).map (fun v => (r.Key, v)))).map Prod.fst =
      (A.entries.map Prod.fst).filter (fun k => !isSystemKey k) := by
    obtain ⟨hM, h64, hU, hF⟩ := hC
    have h64' : ∀ r ∈ exportRecords L R A, r.IsRaw = true →
        (R.decodeString r.RawValue).isSome = true := by
      intro r hr hraw
      simp only [exportRecords, DB.NewIterator, List.mem_map] at hr
      obtain ⟨e, he, her⟩ := hr
      obtain ⟨hein, hns⟩ := List.mem_filter.1 he
      subst her
      rw [exportRecord_raw L R e.1 e.2 hraw, h64 e hein (by simpa using hns) hraw]
      rfl
    rw [(carried_pairs L R _ rs hF h64').2.1, exportRecords_keys]
  have hk2 : (importEntries R B rs).1.entries.map Prod.fst = B.entries.map Prod.fst := by
    rw [i6]
    apply keys_applyBatch_of_subset _ _ hB
    intro k hk
    rw [hpk, hkeys] at hk
    exact (List.mem_filter.1 hk).1
  have hc : countKeys A = countKeys (importEntries R B rs).1 := by
    apply countKeys_of_keys
    rw [hk2, hkeys]
  refine ⟨i1, hval, ?_⟩
  unfold validateReplication
  simp only [hc, ne_eq, not_true_eq_false, if_false, DB.NewIterator]
  rw [validateLoop_equal L _ A.entries _ hval]
  simp

/-- What a successful `Put` leaves in the store: the envelope bytes under
the key, in a writable store. -/
theorem Client.Put_ok_db (L : GoLib Doc) (c : Client) (key : String) (d : Doc) (now : String)
    (h : (c.Put L key d now).1 = none) :
    ∃ eb, (c.Put L key d now).2.db = DB.mk (insertKV key eb c.db.entries) false := by
  have hro := Client.readOnly_of_Put_ok L c key d now h
  unfold Client.Put at h ⊢
  cases hm : L.marshal d with
  | none => simp [hm] at h
  | some b =>
    cases he : L.marshalEntry (mkEntry L c.node b now) with
    | none => simp [hm, he] at h
    | some eb =>
      refine ⟨eb, ?_⟩
      simp [DB.Put, hro, he]

/-- C23. Conflict-blindness.  Two well-formed stores hold the same
non-system keys; `Put("order:00001", d1)` succeeds on the first and,
independently, `Put("order:00001", d2)` on the second.  Under the contract
of the libraries at the export of the first store, `importNode` of that
export into the second runs to its end, the second store then holds at
`order:00001` a value that the validator finds equal to the one of the
first store, and `validateReplication` of the first against the second
reports zero missing keys and zero mismatched values: "identical". -/
theorem conflict_blindness (L : GoLib Doc) (R : ReplLib) (cA cB : Client) (d1 d2 : Doc)
    (t1 t2 : String) (rs : List ReplicationEntry) (hA : cA.db.WF) (hB : cB.db.WF)
    (hkeys : (cA.db.entries.map Prod.fst).filter (fun k => !isSystemKey k) =
      (cB.db.entries.map Prod.fst).filter (fun k => !isSystemKey k))
    (hPA : (cA.Put L "order:00001" d1 t1).1 = none)
    (hPB : (cB.Put L "order:00001" d2 t2).1 = none)
    (hC : R.Transports L (cA.Put L "order:00001" d1 t1).2.db rs) :
    ∃ B' n a b,
      importNode R (cB.Put L "order:00001" d2 t2).2.db
        (exportNode L R (cA.Put L "order:00001" d1 t1).2.db).1 = some (B', n) ∧
      (cA.Put L "order:00001" d1 t1).2.db.Get "order:00001" = .ok a ∧
      B'.Get "order:00001" = .ok b ∧
      valuesEqual L "order:00001" a b = true ∧
      (∃ checked, validateReplication L (cA.Put L "order:00001" d1 t1).2.db B' =
        .compared { mismatches := 0, missing := 0, checked := checked }) ∧
      (validateReplication L (cA.Put L "order:00001" d1 t1).2.db B').identical = true := by
  obtain ⟨ea, hea⟩ := Client.Put_ok_db L cA "order:00001" d1 t1 hPA
  obtain ⟨eb, heb⟩ := Client.Put_ok_db L cB "order:00001" d2 t2 hPB
  rw [hea] at hC ⊢
  rw [heb]
  have hA' : (DB.mk (insertKV "order:00001" ea cA.db.entries) false).WF :=
    insertKV_sorted _ _ _ hA
  have hB' : (DB.mk (insertKV "order:00001" eb cB.db.entries) false).WF :=
    insertKV_sorted _ _ _ hB
  have hkeys' : ((DB.mk (insertKV "order:00001" ea cA.db.entries) false).entries.map
      Prod.fst).filter (fun k => !isSystemKey k) =
      ((DB.mk (insertKV "order:00001" eb cB.db.entries) false).entries.map
        Prod.fst).filter (fun k => !isSystemKey k) := by
    apply sorted_keys_ext _ _ (List.Pairwise.filter _ hA') (List.Pairwise.filter _ hB')
    intro k
    simp only [List.mem_filter, mem_keys_insertKV]
    have hm : ∀ k, (k ∈ cA.db.entries.map Prod.fst ∧ (!isSystemKey k) = true) ↔
        (k ∈ cB.db.entries.map Prod.fst ∧ (!isSystemKey k) = true) := by
      intro k
      constructor
      · intro h
        have h' := (List.mem_filter (p := fun k => !isSystemKey k)).2 h
        rw [hkeys] at h'
        exact List.mem_filter.1 h'
      · intro h
        have h' := (List.mem_filter (p := fun k => !isSystemKey k)).2 h
        rw [← hkeys] at h'
        exact List.mem_filter.1 h'
    constructor
    · rintro ⟨h | h, hs⟩
      · exact ⟨Or.inl h, hs⟩
      · exact ⟨Or.inr ((hm k).1 ⟨h, hs⟩).1, hs⟩
    · rintro ⟨h | h, hs⟩
      · exact ⟨Or.inl h, hs⟩
      · exact ⟨Or.inr ((hm k).2 ⟨h, hs⟩).1, hs⟩
  obtain ⟨j1, j2, j3⟩ := replication_identical L R _ _ rs hA' hB' rfl hkeys' hC
  have hmem : (("order:00001", ea) : String × String) ∈
      (DB.mk (insertKV "order:00001" ea cA.db.entries) false).entries :=
    mem_insertKV_self _ _ _
  have hns : isSystemKey "order:00001" = false := by decide
  obtain ⟨b, hb1, hb2⟩ := j2 _ hmem hns
  refine ⟨(importEntries R (DB.mk (insertKV "order:00001" eb cB.db.entries) false) rs).1,
    (importEntries R (DB.mk (insertKV "order:00001" eb cB.db.entries) false) rs).2,
    ea, b, j1, ?_, hb1, hb2, ⟨_, j3⟩, ?_⟩
  · simp [DB.Get, lookup_insertKV_self]
  · rw [j3]
    rfl

/-- Witness of C23: the two nodes of the scenario hold the same index
entry, the second a system key besides; `{amount: 1000}` is put on the
first and `{amount: 2000}` on the second. -/
theorem conflict_blindness_witness :
    ∃ B', (∃ n, importNode exReplLib
        (exConflictB.Put exValueLib "order:00001" (.document .amount2000)
          "2024-01-01T00:00:00Z").2.db
        (exportNode exValueLib exReplLib
          (exConflictA.Put exValueLib "order:00001" (.document .amount1000)
            "2024-01-01T00:00:00Z").2.db).1 = some (B', n)) ∧
      (validateReplication exValueLib
        (exConflictA.Put exValueLib "order:00001" (.document .amount1000)
          "2024-01-01T00:00:00Z").2.db B').identical = true := by
  obtain ⟨B', n, a, b, h1, -, -, -, -, h6⟩ :=
    conflict_blindness exValueLib exReplLib exConflictA exConflictB
      (.document .amount1000) (.document .amount2000)
      "2024-01-01T00:00:00Z" "2024-01-01T00:00:00Z" (exConflictRecords.map exReparse)
      (by decide) (by decide) (by decide) (by decide) (by decide)
      ⟨by decide, by decide, by decide, by
        have h : exportRecords exValueLib exReplLib
            (exConflictA.Put exValueLib "order:00001" (.document .amount1000)
              "2024-01-01T00:00:00Z").2.db = exConflictRecords := by decide
        rw [h]
        exact List.Forall₂.cons ⟨rfl, rfl, rfl, fun h => absurd h (by decide)⟩
          (List.Forall₂.cons ⟨rfl, rfl, rfl, fun _ => by decide⟩ List.Forall₂.nil)⟩
  exact ⟨B', ⟨n, h1⟩, h6⟩

/-- An instance of C23: before the replication the second node holds the
envelope of `{amount: 2000}` at `order:00001`; after it, the envelope of
`{amount: 1000}` written by the first node, laid out over several lines; and
the validator reports the two nodes as identical. -/
theorem conflict_blindness_example :
    (exConflictB.Put exValueLib "order:00001" (.document .amount2000)
        "2024-01-01T00:00:00Z").2.db.Get "order:00001" =
      .ok (exFormatEntry
        { Data := "\x7b\"amount\":2000\x7d",
          Hash := "351f905eba5e840399fb18469477618a059fbde05d8e88114118cc01617bb8d7",
          Timestamp := "2024-01-01T00:00:00Z", Node := "leveldb-stores/node2" }) ∧
    (importNode exReplLib
        (exConflictB.Put exValueLib "order:00001" (.document .amount2000)
          "2024-01-01T00:00:00Z").2.db
        (exportNode exValueLib exReplLib
          (exConflictA.Put exValueLib "order:00001" (.document .amount1000)
            "2024-01-01T00:00:00Z").2.db).1).map
        (fun r => (r.1.Get "order:00001", r.2)) =
      some (.ok (exIndentEntry
        { Data := "\x7b\"amount\":1000\x7d",
          Hash := "612612d208fb618eb2b007d2a7f8d7a1cfb511532389298f1cc33322c3094bcc",
          Timestamp := "2024-01-01T00:00:00Z", Node := "leveldb-stores/node1" }), 2) ∧
    (importNode exReplLib
        (exConflictB.Put exValueLib "order:00001" (.document .amount2000)
          "2024-01-01T00:00:00Z").2.db
        (exportNode exValueLib exReplLib
          (exConflictA.Put exValueLib "order:00001" (.document .amount1000)
            "2024-01-01T00:00:00Z").2.db).1).map
        (fun r => validateReplication exValueLib
          (exConflictA.Put exValueLib "order:00001" (.document .amount1000)
            "2024-01-01T00:00:00Z").2.db r.1) =
      some (.compared { mismatches := 0, missing := 0, checked := 2 }) := by
  decide

/-! ## The verdict of the validator without the empty key -/

theorem valuesEqual_comm (L : GoLib Doc) (key a b : String) :
    valuesEqual L key a b = valuesEqual L key b a := by
  have hc : compareJSON L a b = compareJSON L b a := by
    unfold compareJSON
    cases L.unmarshal a <;> cases L.unmarshal b <;> simp [BEq.comm]
  unfold valuesEqual
  rw [hc, Bool.and_comm, BEq.comm]

theorem countKeys_eq_keys (db : DB) :
    countKeys db = (((db.entries.map Prod.fst).filter (fun k => !isSystemKey k)).filter
      (fun k => !k.data.isEmpty)).length := by
  rw [countKeys_eq, List.filter_filter]
  induction db.entries with
  | nil => rfl
  | cons hd tl ih =>
    simp only [List.map_cons, List.filter_cons, countsKey_eq hd.1]
    cases h1 : isSystemKey hd.1 <;> cases h2 : hd.1.data.isEmpty <;>
      simp [h1, h2, ih]

/-- In a store that does not hold the empty key, `countKeys` is the number
of the keys that do not start with an underscore. -/
theorem countKeys_of_no_empty_key (db : DB) (he : db.Get "" = .error .notFound) :
    countKeys db = ((db.entries.map Prod.fst).filter (fun k => !isSystemKey k)).length := by
  rw [countKeys_eq_keys]
  congr 1
  apply List.filter_eq_self.2
  intro k hk
  have hkm := (List.mem_filter.1 hk).1
  cases hd : k.data with
  | cons c cs => rfl
  | nil =>
    exfalso
    have hk0 : k = "" := String.ext hd
    rw [hk0] at hkm
    obtain ⟨v, hv⟩ := (mem_keys_iff db.entries "").1 hkm
    simp [DB.Get, hv] at he

/-- The verdict of the validator is the same in the two directions when
neither store holds the empty key: if `validateReplication(A, B)` reports
"identical" for two well-formed stores, they hold the same keys that do not
start with an underscore and `validateReplication(B, A)` reports "identical"
as well. -/
theorem validateReplication_two_sided (L : GoLib Doc) (A B : DB) (hA : A.WF) (hB : B.WF)
    (hAe : A.Get "" = .error .notFound) (hBe : B.Get "" = .error .notFound)
    (hid : (validateReplication L A B).identical = true) :
    (A.entries.map Prod.fst).filter (fun k => !isSystemKey k) =
      (B.entries.map Prod.fst).filter (fun k => !isSystemKey k) ∧
    (validateReplication L B A).identical = true := by
  have hc : countKeys A = countKeys B := by
    by_contra hne
    simp [validateReplication, hne, Report.identical] at hid
  have hv : validateReplication L A B =
      .compared (validateLoop L B A.entries { mismatches := 0, missing := 0, checked := 0 }) := by
    unfold validateReplication
    simp [hc, DB.NewIterator]
  rw [hv, validateLoop_eq] at hid
  simp only [Report.identical, Nat.zero_add, Bool.and_eq_true, beq_iff_eq,
    List.length_eq_zero] at hid
  obtain ⟨hmiss, hmism⟩ := hid
  have hAB : ∀ e ∈ A.entries, isSystemKey e.1 = false →
      ∃ v, B.Get e.1 = .ok v ∧ valuesEqual L e.1 e.2 v = true := by
    intro e he hs
    have h1 := (List.filter_eq_nil_iff.1 hmiss) e he
    have h2 := (List.filter_eq_nil_iff.1 hmism) e he
    cases hg : B.Get e.1 with
    | error x => simp [hs, hg] at h1
    | ok v =>
      refine ⟨v, rfl, ?_⟩
      simpa [hs, hg] using h2
  have hsA : ((A.entries.map Prod.fst).filter (fun k => !isSystemKey k)).Pairwise
      (fun a b => keyLt a b = true) := List.Pairwise.filter _ hA
  have hsB : ((B.entries.map Prod.fst).filter (fun k => !isSystemKey k)).Pairwise
      (fun a b => keyLt a b = true) := List.Pairwise.filter _ hB
  have hnd : ∀ l : List String, l.Pairwise (fun a b => keyLt a b = true) → l.Nodup := by
    intro l hl
    apply List.Pairwise.imp _ hl
    intro a b hab he
    rw [he, keyLt_irrefl] at hab
    cases hab
  have hsub : (A.entries.map Prod.fst).filter (fun k => !isSystemKey k) ⊆
      (B.entries.map Prod.fst).filter (fun k => !isSystemKey k) := by
    intro k hk
    obtain ⟨hkm, hks⟩ := List.mem_filter.1 hk
    obtain ⟨e, he, hek⟩ := List.mem_map.1 hkm
    subst hek
    obtain ⟨v, hg, _⟩ := hAB e he (by simpa using hks)
    apply List.mem_filter.2
    refine ⟨(mem_keys_iff B.entries e.1).2 ⟨v, ?_⟩, hks⟩
    unfold DB.Get at hg
    cases hl : B.entries.lookup e.1 with
    | none => simp [hl] at hg
    | some w =>
      simp [hl] at hg
      rw [hg]
  have hlen : ((B.entries.map Prod.fst).filter (fun k => !isSystemKey k)).length ≤
      ((A.entries.map Prod.fst).filter (fun k => !isSystemKey k)).length := by
    rw [← countKeys_of_no_empty_key A hAe, ← countKeys_of_no_empty_key B hBe, hc]
  have hperm := (List.subperm_of_subset (hnd _ hsA) hsub).perm_of_length_le hlen
  haveI : IsAntisymm String (fun a b => keyLt a b = true) :=
    ⟨fun a b hab hba => by rw [keyLt_asymm a b hab] at hba; cases hba⟩
  have hkeys := List.eq_of_perm_of_sorted hperm hsA hsB
  refine ⟨hkeys, ?_⟩
  have hBA : ∀ e ∈ B.entries, isSystemKey e.1 = false →
      ∃ v, A.Get e.1 = .ok v ∧ valuesEqual L e.1 e.2 v = true := by
    intro e he hs
    have hk : e.1 ∈ (A.entries.map Prod.fst).filter (fun k => !isSystemKey k) := by
      rw [hkeys]
      exact List.mem_filter.2 ⟨List.mem_map_of_mem Prod.fst he, by simp [hs]⟩
    obtain ⟨a, hain, hal⟩ := lookup_mem_of_mem_keys A.entries e.1 (List.mem_filter.1 hk).1
    obtain ⟨v, hg, hve⟩ := hAB (e.1, a) hain hs
    have hb : B.Get e.1 = .ok e.2 := by
      simp [DB.Get, lookup_of_mem_sorted B.entries e.1 e.2 hB he]
    simp only [] at hg hve
    rw [hb] at hg
    cases hg
    refine ⟨a, by simp [DB.Get, hal], ?_⟩
    rw [valuesEqual_comm]
    exact hve
  unfold validateReplication
  simp only [hc, ne_eq, not_true_eq_false, if_false, DB.NewIterator]
  rw [validateLoop_equal L A B.entries _ hBA]
  simp [Report.identical]

end LevelDB
